import Mathlib

/-!
# Radial hydrogen-bond statistics (`HBondR`, `HBondRvol`)

A shallow embedding of `src/hbondr.cpp` and `src/hbondrvol.cpp`.

Conventions of the embedding.

* A number of the C++ type `double` that the sources read or compute (a
  coordinate, a length, a cosine, an angle, `deltaR_`, a shell volume, a written
  value) is a `Double`: a finite number (a rational), an infinity or a NaN.  The
  operators `+`, `-`, `*`, `/` are `Double.add`, `Double.sub`, `Double.mul`,
  `Double.div`: the exact result rounded to the nearest binary64 number, ties
  to even, with gradual underflow and overflow to an infinity (`roundDouble`).
  The comparison `<` is `Double.lt`, false on a NaN.  A zero carries no sign: a
  quotient of a nonzero finite number by zero has the sign of the dividend.
* The cutoffs and `len` are finite numbers, of type `RealType = ℚ`.  The
  accumulator `sliceQ_` receives integers only; its sums are kept exact, as
  they are in a `double` below `2 ^ 53`.
* The conversion `int(x)` is that of a 32-bit `int`: it is undefined (`none`)
  on an infinity, on a NaN and on a number whose truncation does not fit.
* What the two files call but do not define is a parameter: `Vector3d::length`,
  `dot`, the library `acos` and `Constants::PI` are the fields of `MathLib`;
  the snapshot's `wrapVector`, the selections and the atom positions of a frame
  are the fields of `Frame`; the trajectory reader is `DumpReader`.
* An out-of-range write `sliceQ_[binNo]` is undefined behaviour: the embedded
  deposit returns `none`.
* An `int` that counts (frame count, stride, loop index, counter) is an `Int`:
  the values are taken to stay within the range of the machine type.  The loop
  index never exceeds `nFrames - 1 + step_` (`loop_index_bound` below).
-/

namespace OpenMD

/-- A finite number of the floating-point type of the sources. -/
abbrev RealType := ℚ

/-! ## The type `double` -/

/-- Number of binary digits of `n` (with fuel `f`, enough when `n < 2 ^ f`). -/
def bitLen : Nat → Nat → Nat
  | 0, _ => 0
  | f + 1, n => if n = 0 then 0 else bitLen f (n / 2) + 1

/-- The exponent `⌊log₂ (a / b)⌋` of a positive fraction. -/
def log2Floor (a b : Nat) : Int :=
  let d : Int := (bitLen a a : Int) - (bitLen b b : Int)
  if d ≥ 0 then (if b * 2 ^ d.toNat ≤ a then d else d - 1)
  else (if b ≤ a * 2 ^ (-d).toNat then d else d - 1)

/-- A value of the C++ type `double`: a finite number, an infinity (negative
when the flag is set) or a NaN. -/
inductive Double where
  | finite (q : ℚ) : Double
  | infinite (negative : Bool) : Double
  | nan : Double
deriving DecidableEq

instance : Zero Double := ⟨Double.finite 0⟩

instance : Inhabited Double := ⟨Double.finite 0⟩

/-- The multiple of the spacing nearest to the positive fraction `n / d`, ties
to the even multiple.  Around a number with `2 ^ e ≤ n / d < 2 ^ (e + 1)` the
binary64 numbers are the multiples of `2 ^ u`, `u = e - 52`, and the multiples
of `2 ^ (-1074)` in the subnormal range. -/
def roundMagnitude (n d : Nat) : ℚ :=
  let u : Int := max (log2Floor n d - 52) (-1074)
  let N : Nat := if 0 ≤ u then n else n * 2 ^ (-u).toNat
  let D : Nat := if 0 ≤ u then d * 2 ^ u.toNat else d
  let f := N / D
  let r := N % D
  let m : Nat :=
    if 2 * r < D then f else if D < 2 * r then f + 1 else if f % 2 = 0 then f else f + 1
  if 0 ≤ u then ((m * 2 ^ u.toNat : Nat) : ℚ) else (m : ℚ) / ((2 ^ (-u).toNat : Nat) : ℚ)

/-- The binary64 number nearest to the rational `q`, ties to the even
significand, with gradual underflow; a result of magnitude `2 ^ 1024` or more
is an infinity. -/
def roundDouble (q : ℚ) : Double :=
  if q = 0 then Double.finite 0
  else if ((2 ^ 1024 : Nat) : ℚ) ≤ roundMagnitude q.num.natAbs q.den then
    Double.infinite (decide (q < 0))
  else
    Double.finite (if q < 0 then -roundMagnitude q.num.natAbs q.den
      else roundMagnitude q.num.natAbs q.den)

/-- The sum `a + b` of two `double`s. -/
def Double.add (a b : Double) : Double :=
  match a, b with
  | Double.finite x, Double.finite y => roundDouble (x + y)
  | Double.finite _, Double.infinite n => Double.infinite n
  | Double.infinite n, Double.finite _ => Double.infinite n
  | Double.infinite n, Double.infinite m => if n = m then Double.infinite n else Double.nan
  | Double.nan, _ => Double.nan
  | _, Double.nan => Double.nan

/-- The difference `a - b` of two `double`s. -/
def Double.sub (a b : Double) : Double :=
  match a, b with
  | Double.finite x, Double.finite y => roundDouble (x - y)
  | Double.finite _, Double.infinite n => Double.infinite (!n)
  | Double.infinite n, Double.finite _ => Double.infinite n
  | Double.infinite n, Double.infinite m => if n = m then Double.nan else Double.infinite n
  | Double.nan, _ => Double.nan
  | _, Double.nan => Double.nan

/-- The product `a * b` of two `double`s. -/
def Double.mul (a b : Double) : Double :=
  match a, b with
  | Double.finite x, Double.finite y => roundDouble (x * y)
  | Double.finite x, Double.infinite n =>
    if x = 0 then Double.nan else Double.infinite (xor n (decide (x < 0)))
  | Double.infinite n, Double.finite y =>
    if y = 0 then Double.nan else Double.infinite (xor n (decide (y < 0)))
  | Double.infinite n, Double.infinite m => Double.infinite (xor n m)
  | Double.nan, _ => Double.nan
  | _, Double.nan => Double.nan

/-- The quotient `a / b` of two `double`s. -/
def Double.div (a b : Double) : Double :=
  match a, b with
  | Double.finite x, Double.finite y =>
    if y = 0 then (if x = 0 then Double.nan else Double.infinite (decide (x < 0)))
    else roundDouble (x / y)
  | Double.finite _, Double.infinite _ => Double.finite 0
  | Double.infinite n, Double.finite y => Double.infinite (xor n (decide (y < 0)))
  | Double.infinite _, Double.infinite _ => Double.nan
  | Double.nan, _ => Double.nan
  | _, Double.nan => Double.nan

/-- The comparison `a < b` of two `double`s, false when either is a NaN. -/
def Double.lt (a b : Double) : Bool :=
  match a, b with
  | Double.finite x, Double.finite y => decide (x < y)
  | Double.finite _, Double.infinite n => !n
  | Double.infinite n, Double.finite _ => n
  | Double.infinite n, Double.infinite m => n && !m
  | Double.nan, _ => false
  | _, Double.nan => false

/-- A Cartesian vector (`Vector3d`). -/
structure Vector3d where
  x : Double
  y : Double
  z : Double
deriving DecidableEq

/-- Component-wise difference, `operator-` of `Vector3d`. -/
def Vector3d.sub (a b : Vector3d) : Vector3d :=
  ⟨Double.sub a.x b.x, Double.sub a.y b.y, Double.sub a.z b.z⟩

instance : Sub Vector3d := ⟨Vector3d.sub⟩

/-- The numeric routines the sources call and do not define. -/
structure MathLib where
  /-- Result of `Vector3d::length()`. -/
  length : Vector3d → Double
  /-- Result of `dot(v1, v2)`. -/
  dot : Vector3d → Vector3d → Double
  /-- Result of the library `acos` on an argument of `[-1, 1]`. -/
  acos : RealType → RealType
  /-- The constant `Constants::PI`. -/
  PI : RealType
  /-- The constant is positive. -/
  PI_pos : 0 < PI

/-- The call `acos(c)`: a NaN when `c` is not a finite number of `[-1, 1]`. -/
def MathLib.acosC (M : MathLib) (c : Double) : Double :=
  match c with
  | Double.finite v => if -1 ≤ v ∧ v ≤ 1 then Double.finite (M.acos v) else Double.nan
  | _ => Double.nan

/-- The expression `acos(ctheta) * 180.0 / Constants::PI`. -/
def MathLib.thetaOf (M : MathLib) (ctheta : Double) : Double :=
  Double.div (Double.mul (M.acosC ctheta) (Double.finite 180)) (Double.finite M.PI)

/-- An atom, seen through `getPos()`. -/
structure Atom where
  pos : Vector3d
deriving DecidableEq

/-- A donor record `Molecule::HBondDonor`. -/
structure HBondDonor where
  donorAtom : Atom
  donatedHydrogen : Atom
deriving DecidableEq

/-- A molecule, seen through `getCom()` and its donor and acceptor enumerations. -/
structure Molecule where
  com : Vector3d
  hbondDonors : List HBondDonor
  hbondAcceptors : List Atom
deriving DecidableEq

/-- The state one iteration of the frame loop works on: the snapshot read by
`readFrame` (its `wrapVector` and the positions held by the molecules) and the
three selection sets after their refresh. -/
structure Frame where
  wrapVector : Vector3d → Vector3d
  sele1 : List Molecule
  sele2 : List Molecule
  sele3 : List Molecule

/-- The trajectory reader: `getNFrames()` and `readFrame(istep)`. -/
structure DumpReader where
  nFrames : Int
  readFrame : Int → Frame

/-! ## The geometric test -/

/-- Lines 171-188 of `hbondr.cpp` (179-192 of `hbondrvol.cpp`): the decision
taken in the body of the acceptor loop of the donor-role sweep, with `dPos`,
`DH` and `DHdist` computed by the enclosing donor loop. -/
def donorRoleConfirms (M : MathLib) (wrap : Vector3d → Vector3d)
    (rCut thetaCut : RealType) (dPos DH : Vector3d) (DHdist : Double)
    (hba2 : Atom) : Bool :=
  let aPos := hba2.pos
  let DA := wrap (aPos - dPos)
  let DAdist := M.length DA
  if Double.lt DAdist (Double.finite rCut) then
    let ctheta := Double.div (M.dot DH DA) (Double.mul DHdist DAdist)
    let theta := M.thetaOf ctheta
    if Double.lt theta (Double.finite thetaCut) then true else false
  else false

/-- Lines 200-221 of `hbondr.cpp` (205-230 of `hbondrvol.cpp`): the decision
taken in the body of the donor loop of the acceptor-role sweep, with `aPos`
read by the enclosing acceptor loop. -/
def acceptorRoleConfirms (M : MathLib) (wrap : Vector3d → Vector3d)
    (rCut thetaCut : RealType) (aPos : Vector3d) (hbd2 : HBondDonor) : Bool :=
  let dPos := hbd2.donorAtom.pos
  let DA := wrap (aPos - dPos)
  let DAdist := M.length DA
  if Double.lt DAdist (Double.finite rCut) then
    let hPos := hbd2.donatedHydrogen.pos
    let DH := wrap (hPos - dPos)
    let DHdist := M.length DH
    let ctheta := Double.div (M.dot DH DA) (Double.mul DHdist DAdist)
    let theta := M.thetaOf ctheta
    if Double.lt theta (Double.finite thetaCut) then true else false
  else false

/-- The donor-role test on a triple: the donor loop's prologue (lines 162-166)
followed by the decision of the acceptor loop's body. -/
def donorRoleTest (M : MathLib) (wrap : Vector3d → Vector3d)
    (rCut thetaCut : RealType) (hbd1 : HBondDonor) (hba2 : Atom) : Bool :=
  let dPos := hbd1.donorAtom.pos
  let hPos := hbd1.donatedHydrogen.pos
  let DH := wrap (hPos - dPos)
  let DHdist := M.length DH
  donorRoleConfirms M wrap rCut thetaCut dPos DH DHdist hba2

/-- The acceptor-role test on a triple: the acceptor loop's prologue (line 195)
followed by the decision of the donor loop's body. -/
def acceptorRoleTest (M : MathLib) (wrap : Vector3d → Vector3d)
    (rCut thetaCut : RealType) (hba1 : Atom) (hbd2 : HBondDonor) : Bool :=
  let aPos := hba1.pos
  acceptorRoleConfirms M wrap rCut thetaCut aPos hbd2

/-! ### The test as the specification words it -/

/-- The cosine `(DH . DA) / (|DH| * |DA|)` of the wrapped vectors, as the
sources compute it: the quotient of the scalar product by the product of the
two lengths, each a `double` operation. -/
def cosTheta (M : MathLib) (wrap : Vector3d → Vector3d) (D H A : Vector3d) : Double :=
  Double.div (M.dot (wrap (H - D)) (wrap (A - D)))
    (Double.mul (M.length (wrap (H - D))) (M.length (wrap (A - D))))

/-- The clamp of a `double` to `[-1, 1]`; a NaN is left as it is. -/
def clamp (c : Double) : Double :=
  match c with
  | Double.finite v => Double.finite (max (-1) (min 1 v))
  | Double.infinite n => Double.finite (if n then -1 else 1)
  | Double.nan => Double.nan

/-- GeometryTest of the specification: `|wrap(A - D)| < rCut` and
`arccos(clamp(cos theta, -1, 1))`, in degrees, `< thetaCut`. -/
def GeometryTestSpec (M : MathLib) (wrap : Vector3d → Vector3d)
    (rCut thetaCut : RealType) (D H A : Vector3d) : Bool :=
  Double.lt (M.length (wrap (A - D))) (Double.finite rCut) &&
    Double.lt (M.thetaOf (clamp (cosTheta M wrap D H A))) (Double.finite thetaCut)

/-! ## Binning and the accumulators -/

/-- The conversion `int(x)` of a `double` to a 32-bit `int`: truncation toward
zero; undefined on an infinity, on a NaN and when the truncated value does not
fit. -/
def toInt (x : Double) : Option Int :=
  match x with
  | Double.finite v =>
    if -2147483648 ≤ Int.tdiv v.num v.den ∧ Int.tdiv v.num v.den ≤ 2147483647 then
      some (Int.tdiv v.num v.den)
    else none
  | _ => none

/-- The bin index `int(r / deltaR_)`. -/
def binNo (r deltaR : Double) : Option Int :=
  toInt (Double.div r deltaR)

/-- The update `a[i] += v` of a vector; an index outside `[0, a.size())` is an
out-of-range access, undefined. -/
def addAt {α : Type} [Add α] [Inhabited α] (a : List α) (i : Int) (v : α) :
    Option (List α) :=
  if 0 ≤ i ∧ i.toNat < a.length then some (a.set i.toNat (a.getD i.toNat default + v))
  else none

/-- The configuration fields set by the constructor (`step_` is inherited from
`StaticAnalyser`). -/
structure Params where
  rCut : RealType
  thetaCut : RealType
  len : RealType
  nBins : Nat
  deltaR : Double
  step : Int

/-- The two accumulator arrays `sliceQ_` and `sliceCount_`. -/
structure Slices where
  sliceQ : List RealType
  sliceCount : List Int
deriving DecidableEq

/-- The counters `nHB`, `nA`, `nD` of one central molecule. -/
structure Counts where
  nHB : Int
  nA : Int
  nD : Int
deriving DecidableEq

/-- Result of running the frame loop with a bound on the number of iterations. -/
inductive Outcome (α : Type) where
  /-- The loop condition became false: the value is the final state. -/
  | finished (a : α) : Outcome α
  /-- A deposit indexed outside the arrays. -/
  | undefinedBehaviour : Outcome α
  /-- The bound was reached with the loop condition still true. -/
  | stillRunning : Outcome α

/-- The loop `for (int istep = ...; istep < nFrames; istep += step_) body`,
entered at `istep` and cut after `fuel` iterations.  The body returns `none`
when its behaviour is undefined. -/
def strideLoop {σ : Type} (body : Int → σ → Option σ) (nFrames step : Int) :
    Nat → Int → σ → Outcome σ
  | 0, istep, s =>
    if istep < nFrames then Outcome.stillRunning else Outcome.finished s
  | fuel + 1, istep, s =>
    if istep < nFrames then
      match body istep s with
      | none => Outcome.undefinedBehaviour
      | some s1 => strideLoop body nFrames step fuel (istep + step) s1
    else Outcome.finished s

/-! ## Variant A: `HBondR` -/

/-- The analysis object of `hbondr.cpp`. -/
structure HBondR extends Params, Slices

/-- The constructor `HBondR::HBondR` (lines 88-100), with the inherited stride:
`deltaR_ = len_ / nBins_` is a `double` quotient. -/
def HBondR.new (rCut len thetaCut : RealType) (nrbins : Nat) (step : Int) : HBondR where
  rCut := rCut
  thetaCut := thetaCut
  len := len
  nBins := nrbins
  deltaR := Double.div (Double.finite len) (Double.finite (nrbins : RealType))
  step := step
  sliceQ := List.replicate nrbins 0
  sliceCount := List.replicate nrbins 0

/-- Lines 160-190: the donor-role sweep of `mol1` against `mol2`. -/
def HBondR.donorSweep (p : Params) (M : MathLib) (wrap : Vector3d → Vector3d)
    (mol1 mol2 : Molecule) (c : Counts) : Counts :=
  mol1.hbondDonors.foldl (fun c hbd1 =>
    let dPos := hbd1.donorAtom.pos
    let hPos := hbd1.donatedHydrogen.pos
    let DH := wrap (hPos - dPos)
    let DHdist := M.length DH
    mol2.hbondAcceptors.foldl (fun c hba2 =>
      if donorRoleConfirms M wrap p.rCut p.thetaCut dPos DH DHdist hba2 then
        { c with nHB := c.nHB + 1, nD := c.nD + 1 }
      else c) c) c

/-- Lines 193-223: the acceptor-role sweep of `mol1` against `mol2`. -/
def HBondR.acceptorSweep (p : Params) (M : MathLib) (wrap : Vector3d → Vector3d)
    (mol1 mol2 : Molecule) (c : Counts) : Counts :=
  mol1.hbondAcceptors.foldl (fun c hba1 =>
    let aPos := hba1.pos
    mol2.hbondDonors.foldl (fun c hbd2 =>
      if acceptorRoleConfirms M wrap p.rCut p.thetaCut aPos hbd2 then
        { c with nHB := c.nHB + 1, nA := c.nA + 1 }
      else c) c) c

/-- Lines 152-224: the counters of `mol1` after the loop over selection 2. -/
def HBondR.scanMolecule (p : Params) (M : MathLib) (f : Frame) (mol1 : Molecule) : Counts :=
  f.sele2.foldl (fun c mol2 =>
    HBondR.acceptorSweep p M f.wrapVector mol1 mol2
      (HBondR.donorSweep p M f.wrapVector mol1 mol2 c)) ⟨0, 0, 0⟩

/-- Lines 225-228: the deposit of `nHB` at the bin of the radius `r`. -/
def HBondR.deposit (p : Params) (r : Double) (nHB : Int) (s : Slices) : Option Slices :=
  match binNo r p.deltaR with
  | none => none
  | some b =>
    match addAt s.sliceQ b (nHB : RealType) with
    | none => none
    | some q =>
      match addAt s.sliceCount b 1 with
      | none => none
      | some k => some ⟨q, k⟩

/-- Lines 149-229: the loop over selection 1 in one frame. -/
def HBondR.processFrame (p : Params) (M : MathLib) (f : Frame) (s : Slices) : Option Slices :=
  f.sele1.foldlM (fun s mol1 =>
    let c := HBondR.scanMolecule p M f mol1
    let mPos := mol1.com
    let r := M.length mPos
    HBondR.deposit p r c.nHB s) s

/-- Lines 249-253: the body of the loop of `HBondR::writeDensityR` at the bin
`i`, appending to the rows `out` written so far. -/
def HBondR.writeBin (p : Params) (s : Slices) (out : List (Double × Double)) (i : Nat) :
    List (Double × Double) :=
  let Rval := Double.mul (Double.add (Double.finite (i : RealType)) (Double.finite (1 / 2)))
    p.deltaR
  if s.sliceCount.getD i 0 ≠ 0 then
    out ++ [(Rval, Double.div (Double.finite (s.sliceQ.getD i 0))
      (Double.finite ((s.sliceCount.getD i 0 : Int) : RealType)))]
  else out

/-- Lines 248-254 of `HBondR::writeDensityR`: the rows `Rval <tab> value`
written after the header. -/
def HBondR.writeDensityR (p : Params) (s : Slices) : List (Double × Double) :=
  (List.range s.sliceQ.length).foldl (HBondR.writeBin p s) []

/-- Lines 134-230: the body of the frame loop at the frame `istep`; the state
is the accumulators and the reports written so far, one per frame. -/
def HBondR.frameBody (p : Params) (M : MathLib) (reader : DumpReader) (istep : Int)
    (st : Slices × List (List (Double × Double))) :
    Option (Slices × List (List (Double × Double))) :=
  match HBondR.processFrame p M (reader.readFrame istep) st.1 with
  | none => none
  | some s1 => some (s1, st.2 ++ [HBondR.writeDensityR p s1])

/-- The method `HBondR::process` (lines 129-232), cut after `fuel` frames. -/
def HBondR.process (self : HBondR) (M : MathLib) (reader : DumpReader) (fuel : Nat) :
    Outcome (Slices × List (List (Double × Double))) :=
  strideLoop (HBondR.frameBody self.toParams M reader) reader.nFrames self.step fuel 0
    (self.toSlices, [])

/-! ## Variant B: `HBondRvol` -/

/-- The analysis object of `hbondrvol.cpp`. -/
structure HBondRvol extends Params, Slices where
  binvol : List Double

/-- The constructor `HBondRvol::HBondRvol` (lines 87-101), with the inherited
stride: `deltaR_ = len_ / nBins_` is a `double` quotient. -/
def HBondRvol.new (rCut len thetaCut : RealType) (nrbins : Nat) (step : Int) :
    HBondRvol where
  rCut := rCut
  thetaCut := thetaCut
  len := len
  nBins := nrbins
  deltaR := Double.div (Double.finite len) (Double.finite (nrbins : RealType))
  step := step
  sliceQ := List.replicate nrbins 0
  sliceCount := List.replicate nrbins 0
  binvol := List.replicate nrbins 0

/-- Lines 188-191 and 225-228: the deposit of one event at the radius of the
hydrogen position `hPos`. -/
def HBondRvol.deposit (p : Params) (M : MathLib) (hPos : Vector3d) (s : Slices) :
    Option Slices :=
  let r := M.length hPos
  match binNo r p.deltaR with
  | none => none
  | some b =>
    match addAt s.sliceQ b (1 : RealType) with
    | none => none
    | some q =>
      match addAt s.sliceCount b 1 with
      | none => none
      | some k => some ⟨q, k⟩

/-- Lines 161-195: the donor-role sweep of `mol1` against `mol2`, depositing at
each confirmation. -/
def HBondRvol.donorSweep (p : Params) (M : MathLib) (wrap : Vector3d → Vector3d)
    (mol1 mol2 : Molecule) (st : Slices × Counts) : Option (Slices × Counts) :=
  mol1.hbondDonors.foldlM (fun st hbd1 =>
    let dPos := hbd1.donorAtom.pos
    let hPos := hbd1.donatedHydrogen.pos
    let DH := wrap (hPos - dPos)
    let DHdist := M.length DH
    mol2.hbondAcceptors.foldlM (fun st hba2 =>
      if donorRoleConfirms M wrap p.rCut p.thetaCut dPos DH DHdist hba2 then
        match HBondRvol.deposit p M hPos st.1 with
        | none => none
        | some s1 => some (s1, { st.2 with nHB := st.2.nHB + 1, nD := st.2.nD + 1 })
      else some st) st) st

/-- Lines 198-232: the acceptor-role sweep of `mol1` against `mol2`, depositing
at each confirmation. -/
def HBondRvol.acceptorSweep (p : Params) (M : MathLib) (wrap : Vector3d → Vector3d)
    (mol1 mol2 : Molecule) (st : Slices × Counts) : Option (Slices × Counts) :=
  mol1.hbondAcceptors.foldlM (fun st hba1 =>
    let aPos := hba1.pos
    mol2.hbondDonors.foldlM (fun st hbd2 =>
      if acceptorRoleConfirms M wrap p.rCut p.thetaCut aPos hbd2 then
        let hPos := hbd2.donatedHydrogen.pos
        match HBondRvol.deposit p M hPos st.1 with
        | none => none
        | some s1 => some (s1, { st.2 with nHB := st.2.nHB + 1, nA := st.2.nA + 1 })
      else some st) st) st

/-- Lines 153-233: the loop over selection 2 for the central molecule `mol1`. -/
def HBondRvol.scanMolecule (p : Params) (M : MathLib) (f : Frame) (mol1 : Molecule)
    (s : Slices) : Option (Slices × Counts) :=
  f.sele2.foldlM (fun st mol2 =>
    match HBondRvol.donorSweep p M f.wrapVector mol1 mol2 st with
    | none => none
    | some st1 => HBondRvol.acceptorSweep p M f.wrapVector mol1 mol2 st1) (s, ⟨0, 0, 0⟩)

/-- Lines 150-234: the loop over selection 1 in one frame. -/
def HBondRvol.processFrame (p : Params) (M : MathLib) (f : Frame) (s : Slices) :
    Option Slices :=
  f.sele1.foldlM (fun s mol1 =>
    match HBondRvol.scanMolecule p M f mol1 s with
    | none => none
    | some st => some st.1) s

/-- Lines 258-265: the body of the loop of `HBondRvol::writeDensityR` at the
bin `i`, with `pi = acos(-1.0)`; the state is the array `binvol_` and the rows
written so far.  The test `binvol_[i] != 0` holds for every `double` other than
zero, a NaN included. -/
def HBondRvol.writeBin (p : Params) (M : MathLib) (nFrames : Int) (s : Slices)
    (st : List Double × List (Double × Double)) (i : Nat) :
    List Double × List (Double × Double) :=
  let pi := M.acosC (Double.finite (-1))
  let Rval := Double.mul (Double.add (Double.finite (i : RealType)) (Double.finite (1 / 2)))
    p.deltaR
  let binvol1 := st.1.set i
    (Double.mul (Double.mul (Double.mul (Double.finite 4) pi) (Double.mul Rval Rval)) p.deltaR)
  if s.sliceCount.getD i 0 ≠ 0 ∧ binvol1.getD i 0 ≠ 0 then
    (binvol1, st.2 ++
      [(Rval, Double.div (Double.div (Double.finite (s.sliceQ.getD i 0)) (binvol1.getD i 0))
        (Double.finite (nFrames : RealType)))])
  else (binvol1, st.2 ++ [(Rval, 0)])

/-- Lines 242-266 of `HBondRvol::writeDensityR`, with `nFrames` the reader's
frame count: the array `binvol_` after the loop and the rows `Rval <tab> value`
written after the header. -/
def HBondRvol.writeDensityR (p : Params) (M : MathLib) (nFrames : Int) (s : Slices)
    (binvol : List Double) : List Double × List (Double × Double) :=
  (List.range s.sliceQ.length).foldl (HBondRvol.writeBin p M nFrames s) (binvol, [])

/-- Lines 135-235: the body of the frame loop at the frame `istep`; the state
is the accumulators, the array `binvol_` and the reports written so far. -/
def HBondRvol.frameBody (p : Params) (M : MathLib) (reader : DumpReader) (istep : Int)
    (st : Slices × List Double × List (List (Double × Double))) :
    Option (Slices × List Double × List (List (Double × Double))) :=
  match HBondRvol.processFrame p M (reader.readFrame istep) st.1 with
  | none => none
  | some s1 =>
    let w := HBondRvol.writeDensityR p M reader.nFrames s1 st.2.1
    some (s1, w.1, st.2.2 ++ [w.2])

/-- The method `HBondRvol::process` (lines 130-237), cut after `fuel` frames. -/
def HBondRvol.process (self : HBondRvol) (M : MathLib) (reader : DumpReader) (fuel : Nat) :
    Outcome (Slices × List Double × List (List (Double × Double))) :=
  strideLoop (HBondRvol.frameBody self.toParams M reader) reader.nFrames self.step fuel 0
    (self.toSlices, self.binvol, [])

/-! ## Vocabulary of the statements -/

/-- The radius `r` falls in one of the `n` bins of width `deltaR`: its bin index
is defined and lies in `[0, n)`. -/
def InRange (deltaR : Double) (n : Nat) (r : Double) : Prop :=
  ∃ b, binNo r deltaR = some b ∧ 0 ≤ b ∧ b < (n : Int)

/-- Number of indices `istep, istep + step, ...` below `nFrames` (for
`step ≥ 1`): `⌈(nFrames - istep) / step⌉`, or `0` when that is negative. -/
def frameCount (nFrames step istep : Int) : Nat :=
  ((nFrames - istep + step - 1) / step).toNat

/-- The first `n` indices `istep, istep + step, istep + 2 * step, ...`. -/
def framesFrom (istep step : Int) (n : Nat) : List Int :=
  (List.range n).map (fun (j : Nat) => istep + (j : Int) * step)

/-- The frame indices `0, step, 2 * step, ...` below `nFrames`. -/
def visitedFrames (nFrames step : Int) : List Int :=
  framesFrom 0 step (frameCount nFrames step 0)

/-- Number of confirmed tests (donor record of `mol1`, acceptor atom of `mol2`). -/
def donorMatches (M : MathLib) (wrap : Vector3d → Vector3d) (rCut thetaCut : RealType)
    (mol1 mol2 : Molecule) : Nat :=
  (mol1.hbondDonors.map (fun d =>
    mol2.hbondAcceptors.countP (fun a => donorRoleTest M wrap rCut thetaCut d a))).sum

/-- Number of confirmed tests (acceptor atom of `mol1`, donor record of `mol2`). -/
def acceptorMatches (M : MathLib) (wrap : Vector3d → Vector3d) (rCut thetaCut : RealType)
    (mol1 mol2 : Molecule) : Nat :=
  (mol1.hbondAcceptors.map (fun a =>
    mol2.hbondDonors.countP (fun d => acceptorRoleTest M wrap rCut thetaCut a d))).sum

/-- Confirmed matches of the central molecule `mol1` in the frame `f`: over
every molecule of selection 2, donor role plus acceptor role. -/
def moleculeMatches (M : MathLib) (rCut thetaCut : RealType) (f : Frame)
    (mol1 : Molecule) : Nat :=
  (f.sele2.map (fun mol2 =>
    donorMatches M f.wrapVector rCut thetaCut mol1 mol2 +
      acceptorMatches M f.wrapVector rCut thetaCut mol1 mol2)).sum

/-- Confirmed matches of the frame `f`, over every molecule of selection 1. -/
def frameMatches (M : MathLib) (rCut thetaCut : RealType) (f : Frame) : Nat :=
  (f.sele1.map (moleculeMatches M rCut thetaCut f)).sum

/-- In the frame `f` the hydrogen of every confirmed match, of either role, has
its radius in one of the `n` bins of width `deltaR`. -/
def HydrogensInRange (M : MathLib) (rCut thetaCut : RealType) (deltaR : Double) (n : Nat)
    (f : Frame) : Prop :=
  ∀ mol1 ∈ f.sele1, ∀ mol2 ∈ f.sele2,
    (∀ d ∈ mol1.hbondDonors, ∀ a ∈ mol2.hbondAcceptors,
      donorRoleTest M f.wrapVector rCut thetaCut d a = true →
        InRange deltaR n (M.length d.donatedHydrogen.pos)) ∧
    (∀ a ∈ mol1.hbondAcceptors, ∀ d ∈ mol2.hbondDonors,
      acceptorRoleTest M f.wrapVector rCut thetaCut a d = true →
        InRange deltaR n (M.length d.donatedHydrogen.pos))

/-- The two arrays of a state have `n` entries each. -/
def Slices.Sized (n : Nat) (s : Slices) : Prop :=
  s.sliceQ.length = n ∧ s.sliceCount.length = n

/-- A sequence of deposits `(radius, quantity)`, made in order with the
statements of lines 225-228 of `hbondr.cpp`. -/
def depositAll (p : Params) (es : List (Double × Int)) (s : Slices) : Option Slices :=
  es.foldlM (fun s e => HBondR.deposit p e.1 e.2 s) s

/-- Number of the deposits `es` whose radius has the bin index `j`. -/
def binHits (deltaR : Double) (j : Nat) (es : List (Double × Int)) : Nat :=
  es.countP (fun e => decide (binNo e.1 deltaR = some (j : Int)))

/-- Total quantity of the deposits `es` whose radius has the bin index `j`. -/
def binTotal (deltaR : Double) (j : Nat) (es : List (Double × Int)) : Int :=
  ((es.filter (fun e => decide (binNo e.1 deltaR = some (j : Int)))).map (fun e => e.2)).sum

/-- The deposits of variant A in the frame `f`, in order: for each molecule of
selection 1, the radius of its centre of mass and its counter `nHB`. -/
def HBondR.frameEvents (p : Params) (M : MathLib) (f : Frame) : List (Double × Int) :=
  f.sele1.map (fun mol1 => (M.length mol1.com, (HBondR.scanMolecule p M f mol1).nHB))

/-- The deposits of the donor-role sweep of variant B, in order: one unit at the
radius of the donated hydrogen for each confirmed test. -/
def HBondRvol.donorEvents (p : Params) (M : MathLib) (wrap : Vector3d → Vector3d)
    (mol1 mol2 : Molecule) : List (Double × Int) :=
  mol1.hbondDonors.flatMap (fun d =>
    (mol2.hbondAcceptors.filter (fun a => donorRoleTest M wrap p.rCut p.thetaCut d a)).map
      (fun _ => (M.length d.donatedHydrogen.pos, 1)))

/-- The deposits of the acceptor-role sweep of variant B, in order. -/
def HBondRvol.acceptorEvents (p : Params) (M : MathLib) (wrap : Vector3d → Vector3d)
    (mol1 mol2 : Molecule) : List (Double × Int) :=
  mol1.hbondAcceptors.flatMap (fun a =>
    (mol2.hbondDonors.filter (fun d => acceptorRoleTest M wrap p.rCut p.thetaCut a d)).map
      (fun d => (M.length d.donatedHydrogen.pos, 1)))

/-- The deposits of variant B for the central molecule `mol1`, in order. -/
def HBondRvol.moleculeEvents (p : Params) (M : MathLib) (f : Frame) (mol1 : Molecule) :
    List (Double × Int) :=
  f.sele2.flatMap (fun mol2 =>
    HBondRvol.donorEvents p M f.wrapVector mol1 mol2 ++
      HBondRvol.acceptorEvents p M f.wrapVector mol1 mol2)

/-- The deposits of variant B in the frame `f`, in order. -/
def HBondRvol.frameEvents (p : Params) (M : MathLib) (f : Frame) : List (Double × Int) :=
  f.sele1.flatMap (HBondRvol.moleculeEvents p M f)

/-- The radius `(i + 0.5) * deltaR` of the bin `i`, as the writers compute it. -/
def binRadius (p : Params) (i : Nat) : Double :=
  Double.mul (Double.add (Double.finite (i : RealType)) (Double.finite (1 / 2))) p.deltaR

/-- The shell volume `4 * pi * ((i + 0.5) * deltaR)^2 * deltaR` of the bin `i`,
as the writer of variant B computes it, with `pi` the value of `acos(-1.0)`. -/
def HBondRvol.shellVolume (p : Params) (M : MathLib) (i : Nat) : Double :=
  Double.mul (Double.mul (Double.mul (Double.finite 4) (M.acosC (Double.finite (-1))))
    (Double.mul (binRadius p i) (binRadius p i))) p.deltaR

/-- The row of the bin `i` in the report of variant B, as the specification
words it: `sliceQ[i] / binvol[i] / totalFrames` when `sliceCount[i]` and
`binvol[i]` are both nonzero, `0` otherwise. -/
def HBondRvol.reportRow (p : Params) (M : MathLib) (nFrames : Int) (s : Slices) (i : Nat) :
    Double × Double :=
  (binRadius p i,
    if s.sliceCount.getD i 0 ≠ 0 ∧ HBondRvol.shellVolume p M i ≠ 0 then
      Double.div (Double.div (Double.finite (s.sliceQ.getD i 0)) (HBondRvol.shellVolume p M i))
        (Double.finite (nFrames : RealType))
    else 0)

/-- The row of a bin `i` with `sliceCount[i] ≠ 0` in the report of variant A,
as the specification words it: `sliceQ[i] / sliceCount[i]`. -/
def HBondR.reportRow (p : Params) (s : Slices) (i : Nat) : Double × Double :=
  (binRadius p i, Double.div (Double.finite (s.sliceQ.getD i 0))
    (Double.finite ((s.sliceCount.getD i 0 : Int) : RealType)))

/-- Bitwise integer square root: the largest `r < 2 ^ b` extending the given
`r` with `r * r ≤ n`. -/
def isqrtAux : Nat → Nat → Nat → Nat
  | 0, _, r => r
  | b + 1, n, r =>
    if (r + 2 ^ b) * (r + 2 ^ b) ≤ n then isqrtAux b n (r + 2 ^ b) else isqrtAux b n r

/-- Integer square root, `⌊√n⌋`. -/
def isqrt (n : Nat) : Nat := isqrtAux (bitLen n n / 2 + 1) n 0

/-- The square root of `q` rounded to the nearest number with a 53-bit
significand, as `sqrt` returns it for a finite `double` (the square root of a
positive `double` is never subnormal nor infinite). -/
def sqrtDouble (q : ℚ) : ℚ :=
  if q ≤ 0 then 0 else
    let a := q.num.toNat
    let b := q.den
    let e : Int := log2Floor a b / 2
    let t : Int := 52 - e
    let sn : Nat := if 0 ≤ t then a * 4 ^ t.toNat else a
    let sd : Nat := if 0 ≤ t then b else b * 4 ^ (-t).toNat
    let m := isqrt (sn / sd)
    let m1 := if (2 * m + 1) ^ 2 * sd < 4 * sn then m + 1 else m
    if 0 ≤ t then (m1 : ℚ) / (2 ^ t.toNat : Nat) else (m1 : ℚ) * (2 ^ (-t).toNat : Nat)

/-- The call `sqrt(x)` on a `double`. -/
def Double.sqrt (a : Double) : Double :=
  match a with
  | Double.finite v => if v < 0 then Double.nan else Double.finite (sqrtDouble v)
  | Double.infinite n => if n then Double.nan else Double.infinite false
  | Double.nan => Double.nan

/-- The fixed-point sum `t - t^3 / 3 + t^5 / 5 - ...` of `fuel` terms, on
integers scaled by `S`: `term` is the current signed power of `t`, `k` its odd
exponent, `T2` the square of `t`. -/
def fxAtanAux (S T2 : Int) : Nat → Int → Int → Int → Int
  | 0, _, _, acc => acc
  | fuel + 1, k, term, acc => fxAtanAux S T2 fuel (k + 2) (-(term * T2 / S)) (acc + term / k)

/-- The arctangent of `T / S`, scaled by `S`, for a small `T / S`. -/
def fxAtan (S T : Nat) : Int := fxAtanAux S ((T * T / S : Nat) : Int) 20 1 (T : Int) 0

/-- The tangent of the half angle, `t / (1 + √(1 + t²))`, scaled by `S`. -/
def fxHalve (S T : Nat) : Nat := T * S / (S + isqrt (S * S + T * T))

/-- The arccosine of `X / S` in `[0, 1]`, scaled by `S`:
`acos x = 2 * atan √((1 - x) / (1 + x))`, the arctangent taken at the tangent
of the eighth of the angle. -/
def fxAcos (S X : Nat) : Int :=
  16 * fxAtan S (fxHalve S (fxHalve S (fxHalve S (isqrt ((S - X) * S * S / (S + X))))))

/-- The arccosine of a number of `[-1, 1]`, computed to 128 binary digits and
rounded to the nearest binary64 number; `acos (-x) = 2 * acos 0 - acos x`. -/
def acosDouble (c : ℚ) : ℚ :=
  let S : Nat := 2 ^ 128
  let X : Nat := min (c.num.natAbs * S / c.den) S
  let A : Int := if c < 0 then 2 * fxAcos S 0 - fxAcos S X else fxAcos S X
  match roundDouble ((A : ℚ) / (S : ℚ)) with
  | Double.finite v => v
  | _ => 0

/-- The scalar product of the library: the products are added in order to a
`double` that starts at `0`. -/
def dotDouble (a b : Vector3d) : Double :=
  Double.add (Double.add (Double.add 0 (Double.mul a.x b.x)) (Double.mul a.y b.y))
    (Double.mul a.z b.z)

/-- A numeric library in binary64 arithmetic: the scalar product `dotDouble`,
the length its correctly rounded square root, the arccosine rounded to the
nearest `double`, and `PI` the `double` nearest to π. -/
def doubleMath : MathLib where
  length := fun v => Double.sqrt (dotDouble v v)
  dot := dotDouble
  acos := acosDouble
  PI := 884279719003555 / 281474976710656
  PI_pos := by norm_num

/-! ### Example data -/

/-- The vector of three finite coordinates. -/
def Vector3d.ofRat (x y z : ℚ) : Vector3d := ⟨Double.finite x, Double.finite y, Double.finite z⟩

/-- Example data: a donor record whose hydrogen lies at radius `5.25`; the
vector `D-H` is `(1, y, 0)` with `y` the number of 40 binary digits nearest to
`tan 10°`. -/
def exampleDonor : HBondDonor :=
  ⟨⟨Vector3d.ofRat (17 / 4) (-(48468391395 / 274877906944)) 0⟩, ⟨Vector3d.ofRat (21 / 4) 0 0⟩⟩

/-- Example data: an acceptor atom at distance `3` from the donor atom of
`exampleDonor`, along the first axis. -/
def exampleAcceptor : Atom := ⟨Vector3d.ofRat (29 / 4) (-(48468391395 / 274877906944)) 0⟩

/-- Example data: a central molecule with one donor record and no acceptor,
its centre of mass at radius `5.25`. -/
def exampleCentral : Molecule := ⟨Vector3d.ofRat 0 (21 / 4) 0, [exampleDonor], []⟩

/-- Example data: a partner molecule with one acceptor and no donor. -/
def examplePartner : Molecule := ⟨Vector3d.ofRat 8 0 0, [], [exampleAcceptor]⟩

/-- Example data: a frame without periodic wrapping. -/
def exampleFrame : Frame := ⟨id, [exampleCentral], [examplePartner], []⟩

/-- Example data: a trajectory of `n` copies of `exampleFrame`. -/
def exampleReader (n : Int) : DumpReader := ⟨n, fun _ => exampleFrame⟩

/-- The state after one deposit of `1` at the bin 10 of 40. -/
def exampleFinal : Slices := ⟨(List.replicate 40 0).set 10 1, (List.replicate 40 0).set 10 1⟩

/-! ### Reorderings, confirmed pairs, more example data -/

/-- The molecule `m'` is `m` with its donor records and its acceptor atoms
enumerated in another order. -/
def Molecule.Reordered (m m' : Molecule) : Prop :=
  m.com = m'.com ∧ m.hbondDonors.Perm m'.hbondDonors ∧
    m.hbondAcceptors.Perm m'.hbondAcceptors

/-- The selection `l'` is `l` enumerated in another order, each molecule with
its donor records and acceptor atoms enumerated in another order. -/
def Reordering (l l' : List Molecule) : Prop :=
  ∃ l2 : List Molecule, l.Perm l2 ∧ List.Forall₂ Molecule.Reordered l2 l'

/-- The frame `f'` is `f` with the selections 1 and 2, and the donors and
acceptors of their molecules, enumerated in another order. -/
def Frame.Reordered (f f' : Frame) : Prop :=
  f.wrapVector = f'.wrapVector ∧ Reordering f.sele1 f'.sele1 ∧ Reordering f.sele2 f'.sele2

/-- Example data: a frame whose two selections hold the two example molecules. -/
def exampleFrameAB : Frame :=
  ⟨id, [exampleCentral, examplePartner], [examplePartner, exampleCentral], []⟩

/-- Example data: `exampleFrameAB` with both selections enumerated in the
other order. -/
def exampleFrameBA : Frame :=
  ⟨id, [examplePartner, exampleCentral], [exampleCentral, examplePartner], []⟩

/-- Number of confirmed (donor record, acceptor atom) combinations over all
ordered pairs `(X, Y)` of molecules of the list `l`, a molecule paired with
itself included: the donor record taken in `X`, the acceptor atom in `Y`. -/
def confirmedPairs (M : MathLib) (wrap : Vector3d → Vector3d) (rCut thetaCut : RealType)
    (l : List Molecule) : Nat :=
  (l.map (fun X => (l.map (fun Y => donorMatches M wrap rCut thetaCut X Y)).sum)).sum

/-- Example data: a frame whose two selections are the same list, the two
example molecules. -/
def exampleFrameSame : Frame :=
  ⟨id, [exampleCentral, examplePartner], [exampleCentral, examplePartner], []⟩

/-! ## Theorems -/

/-! ### The arithmetic of `double` -/

theorem Double.mul_nan_left (b : Double) : Double.mul Double.nan b = Double.nan := by
  cases b <;> rfl

theorem Double.div_nan_left (b : Double) : Double.div Double.nan b = Double.nan := by
  cases b <;> rfl

theorem Double.lt_nan_left (b : Double) : Double.lt Double.nan b = false := by
  cases b <;> rfl

/-- The comparison with a finite bound is monotone in the bound. -/
theorem Double.lt_finite_mono (x : Double) (a b : RealType) (h : a ≤ b)
    (hx : Double.lt x (Double.finite a) = true) : Double.lt x (Double.finite b) = true := by
  cases x with
  | finite v =>
    simp only [Double.lt, decide_eq_true_eq] at hx ⊢
    exact lt_of_lt_of_le hx h
  | infinite n => exact hx
  | nan => exact hx

theorem roundDouble_zero : roundDouble 0 = Double.finite 0 := by
  unfold roundDouble
  rw [if_pos rfl]

theorem donorRoleTest_eq (M : MathLib) (wrap : Vector3d → Vector3d)
    (rCut thetaCut : RealType) (D H A : Vector3d) :
    donorRoleTest M wrap rCut thetaCut ⟨⟨D⟩, ⟨H⟩⟩ ⟨A⟩ =
      (Double.lt (M.length (wrap (A - D))) (Double.finite rCut) &&
        Double.lt (M.thetaOf (cosTheta M wrap D H A)) (Double.finite thetaCut)) := by
  simp only [donorRoleTest, donorRoleConfirms, cosTheta]
  cases Double.lt (M.length (wrap (A - D))) (Double.finite rCut) <;>
    cases Double.lt (M.thetaOf (Double.div (M.dot (wrap (H - D)) (wrap (A - D)))
      (Double.mul (M.length (wrap (H - D))) (M.length (wrap (A - D))))))
      (Double.finite thetaCut) <;> rfl

/-- The angle computed from a cosine is compared as a number only when the
cosine is a finite number of `[-1, 1]`. -/
theorem thetaOf_lt_iff (M : MathLib) (c : Double) (thetaCut : RealType) :
    Double.lt (M.thetaOf c) (Double.finite thetaCut) = true ↔
      ∃ v, c = Double.finite v ∧ -1 ≤ v ∧ v ≤ 1 ∧
        Double.lt (Double.div (Double.mul (Double.finite (M.acos v)) (Double.finite 180))
          (Double.finite M.PI)) (Double.finite thetaCut) = true := by
  unfold MathLib.thetaOf MathLib.acosC
  cases c with
  | finite v =>
    by_cases h : -1 ≤ v ∧ v ≤ 1
    · simp only [h, and_self, if_true]
      constructor
      · intro hlt
        exact ⟨v, rfl, h.1, h.2, hlt⟩
      · rintro ⟨w, hw, _, _, hlt⟩
        cases hw
        exact hlt
    · simp only [h, if_false, Double.mul_nan_left, Double.div_nan_left, Double.lt_nan_left]
      constructor
      · intro hf; cases hf
      · rintro ⟨w, hw, h1, h2, _⟩
        cases hw
        exact absurd ⟨h1, h2⟩ h
  | infinite n =>
    simp only [Double.mul_nan_left, Double.div_nan_left, Double.lt_nan_left]
    constructor
    · intro hf; cases hf
    · rintro ⟨w, hw, _⟩
      cases hw
  | nan =>
    simp only [Double.mul_nan_left, Double.div_nan_left, Double.lt_nan_left]
    constructor
    · intro hf; cases hf
    · rintro ⟨w, hw, _⟩
      cases hw

theorem donorRoleTest_eq_true_iff (M : MathLib) (wrap : Vector3d → Vector3d)
    (rCut thetaCut : RealType) (D H A : Vector3d) :
    donorRoleTest M wrap rCut thetaCut ⟨⟨D⟩, ⟨H⟩⟩ ⟨A⟩ = true ↔
      Double.lt (M.length (wrap (A - D))) (Double.finite rCut) = true ∧
        ∃ c, cosTheta M wrap D H A = Double.finite c ∧ -1 ≤ c ∧ c ≤ 1 ∧
          Double.lt (Double.div (Double.mul (Double.finite (M.acos c)) (Double.finite 180))
            (Double.finite M.PI)) (Double.finite thetaCut) = true := by
  rw [donorRoleTest_eq, Bool.and_eq_true, thetaOf_lt_iff]

theorem acceptorRoleTest_eq_donorRoleTest (M : MathLib) (wrap : Vector3d → Vector3d)
    (rCut thetaCut : RealType) (hba : Atom) (hbd : HBondDonor) :
    acceptorRoleTest M wrap rCut thetaCut hba hbd =
      donorRoleTest M wrap rCut thetaCut hbd hba := by
  simp only [acceptorRoleTest, acceptorRoleConfirms, donorRoleTest, donorRoleConfirms]

/-- On a cosine of `[-1, 1]` the clamp changes nothing. -/
theorem clamp_of_mem (c : RealType) (h1 : -1 ≤ c) (h2 : c ≤ 1) :
    clamp (Double.finite c) = Double.finite c := by
  simp [clamp, h1, h2]

theorem donorRoleTest_eq_spec_of_bounds (M : MathLib) (wrap : Vector3d → Vector3d)
    (rCut thetaCut : RealType) (D H A : Vector3d) (c : RealType)
    (hc : cosTheta M wrap D H A = Double.finite c) (h1 : -1 ≤ c) (h2 : c ≤ 1) :
    donorRoleTest M wrap rCut thetaCut ⟨⟨D⟩, ⟨H⟩⟩ ⟨A⟩ =
      GeometryTestSpec M wrap rCut thetaCut D H A := by
  rw [donorRoleTest_eq]
  unfold GeometryTestSpec
  rw [hc, clamp_of_mem c h1 h2]

/-- C1 (amended): for every triple `D`, `H`, `A`, wrap and cutoffs, the test of
the donor-role sweep and the test of the acceptor-role sweep (the same in
`HBondR::process` and `HBondRvol::process`) confirm the triple if and only if
`|wrap(A - D)| < rCut`, the cosine computed in `double` arithmetic, the
quotient of `dot(wrap(H - D), wrap(A - D))` by the product
`|wrap(H - D)| * |wrap(A - D)|`, is a finite number of `[-1, 1]`, and its
arccosine, times `180.0`, divided by `Constants::PI`, is `< thetaCut`: no clamp
is applied, a computed cosine outside `[-1, 1]` is rejected.  The test agrees
with the clamped formula of the specification whenever the computed cosine is
a finite number of `[-1, 1]`. -/
theorem hbond_test_iff_unclamped (M : MathLib) (wrap : Vector3d → Vector3d)
    (rCut thetaCut : RealType) (D H A : Vector3d) :
    (donorRoleTest M wrap rCut thetaCut ⟨⟨D⟩, ⟨H⟩⟩ ⟨A⟩ = true ↔
      Double.lt (M.length (wrap (A - D))) (Double.finite rCut) = true ∧
        ∃ c, cosTheta M wrap D H A = Double.finite c ∧ -1 ≤ c ∧ c ≤ 1 ∧
          Double.lt (Double.div (Double.mul (Double.finite (M.acos c)) (Double.finite 180))
            (Double.finite M.PI)) (Double.finite thetaCut) = true) ∧
    (acceptorRoleTest M wrap rCut thetaCut ⟨A⟩ ⟨⟨D⟩, ⟨H⟩⟩ = true ↔
      Double.lt (M.length (wrap (A - D))) (Double.finite rCut) = true ∧
        ∃ c, cosTheta M wrap D H A = Double.finite c ∧ -1 ≤ c ∧ c ≤ 1 ∧
          Double.lt (Double.div (Double.mul (Double.finite (M.acos c)) (Double.finite 180))
            (Double.finite M.PI)) (Double.finite thetaCut) = true) ∧
    (∀ c, cosTheta M wrap D H A = Double.finite c → -1 ≤ c → c ≤ 1 →
      donorRoleTest M wrap rCut thetaCut ⟨⟨D⟩, ⟨H⟩⟩ ⟨A⟩ =
          GeometryTestSpec M wrap rCut thetaCut D H A ∧
        acceptorRoleTest M wrap rCut thetaCut ⟨A⟩ ⟨⟨D⟩, ⟨H⟩⟩ =
          GeometryTestSpec M wrap rCut thetaCut D H A) ∧
    (∀ c, cosTheta M wrap D H A = Double.finite c → (c < -1 ∨ 1 < c) →
      donorRoleTest M wrap rCut thetaCut ⟨⟨D⟩, ⟨H⟩⟩ ⟨A⟩ = false ∧
        acceptorRoleTest M wrap rCut thetaCut ⟨A⟩ ⟨⟨D⟩, ⟨H⟩⟩ = false) := by
  refine ⟨donorRoleTest_eq_true_iff M wrap rCut thetaCut D H A, ?_, ?_, ?_⟩
  · rw [acceptorRoleTest_eq_donorRoleTest]
    exact donorRoleTest_eq_true_iff M wrap rCut thetaCut D H A
  · intro c hc h1 h2
    rw [acceptorRoleTest_eq_donorRoleTest]
    exact ⟨donorRoleTest_eq_spec_of_bounds M wrap rCut thetaCut D H A c hc h1 h2,
      donorRoleTest_eq_spec_of_bounds M wrap rCut thetaCut D H A c hc h1 h2⟩
  · intro c hc hout
    rw [acceptorRoleTest_eq_donorRoleTest]
    have hf : donorRoleTest M wrap rCut thetaCut ⟨⟨D⟩, ⟨H⟩⟩ ⟨A⟩ = false := by
      rw [Bool.eq_false_iff]
      intro ht
      obtain ⟨_, c', hc', h1, h2, _⟩ := (donorRoleTest_eq_true_iff M wrap rCut thetaCut D H A).mp ht
      rw [hc] at hc'
      cases hc'
      rcases hout with h | h
      · exact absurd h1 (not_le.mpr h)
      · exact absurd h2 (not_le.mpr h)
    exact ⟨hf, hf⟩

/-- C1 (counterexample): in binary64 arithmetic the aligned triple
`D = (0,0,0)`, `H = (1,1,1)`, `A = (2,2,2)` with `rCut = 3.5` and
`thetaCut = 30` has `|DA| < rCut`, the lengths `√3` and `√12` rounded, their
product `5.999999999999999` and the computed cosine `1.0000000000000002`, above
`1`; the code rejects the triple, the clamped formula confirms it (angle `0`). -/
theorem hbond_test_clamp_counterexample :
    donorRoleTest doubleMath id (7 / 2) 30
        ⟨⟨Vector3d.ofRat 0 0 0⟩, ⟨Vector3d.ofRat 1 1 1⟩⟩ ⟨Vector3d.ofRat 2 2 2⟩ = false ∧
      acceptorRoleTest doubleMath id (7 / 2) 30
        ⟨Vector3d.ofRat 2 2 2⟩ ⟨⟨Vector3d.ofRat 0 0 0⟩, ⟨Vector3d.ofRat 1 1 1⟩⟩ = false ∧
      GeometryTestSpec doubleMath id (7 / 2) 30
        (Vector3d.ofRat 0 0 0) (Vector3d.ofRat 1 1 1) (Vector3d.ofRat 2 2 2) = true ∧
      doubleMath.length (Vector3d.ofRat 1 1 1) =
        Double.finite (3900231685776981 / 2251799813685248) ∧
      doubleMath.length (Vector3d.ofRat 2 2 2) =
        Double.finite (3900231685776981 / 1125899906842624) ∧
      cosTheta doubleMath id (Vector3d.ofRat 0 0 0) (Vector3d.ofRat 1 1 1)
        (Vector3d.ofRat 2 2 2) = Double.finite (4503599627370497 / 4503599627370496) := by
  refine ⟨by decide!, by decide!, by decide!, by decide!, by decide!, by decide!⟩

/-! ### Rounding between two integers -/

theorem bitLen_zero (f : Nat) : bitLen f 0 = 0 := by
  cases f <;> simp [bitLen]

/-- The number of binary digits, with enough fuel. -/
theorem bitLen_spec : ∀ (f n : Nat), n < 2 ^ f →
    n < 2 ^ bitLen f n ∧ (0 < n → 2 ^ (bitLen f n - 1) ≤ n) := by
  intro f
  induction f with
  | zero =>
    intro n hn
    have : n = 0 := by simpa using hn
    subst this
    simp [bitLen]
  | succ f ih =>
    intro n hn
    by_cases h0 : n = 0
    · subst h0
      simp [bitLen]
    · have hdiv : n / 2 < 2 ^ f := by
        rw [Nat.div_lt_iff_lt_mul (by decide)]
        rw [pow_succ] at hn
        exact hn
      obtain ⟨h1, h2⟩ := ih (n / 2) hdiv
      have hb : bitLen (f + 1) n = bitLen f (n / 2) + 1 := by
        simp [bitLen, h0]
      rw [hb]
      constructor
      · rw [pow_succ]
        have := (Nat.div_lt_iff_lt_mul (by decide : 0 < 2)).mp h1
        exact this
      · intro _
        simp only [Nat.add_sub_cancel]
        by_cases hhalf : n / 2 = 0
        · rw [hhalf, bitLen_zero]
          simp
          omega
        · have hpos : 0 < n / 2 := Nat.pos_of_ne_zero hhalf
          have h3 := h2 hpos
          have hbpos : 0 < bitLen f (n / 2) := by
            by_contra hb0
            have : bitLen f (n / 2) = 0 := by omega
            rw [this] at h1
            simp at h1
            omega
          have : 2 ^ bitLen f (n / 2) = 2 ^ (bitLen f (n / 2) - 1) * 2 := by
            rw [← pow_succ]
            congr 1
            omega
          rw [this]
          have := Nat.div_mul_le_self n 2
          calc 2 ^ (bitLen f (n / 2) - 1) * 2 ≤ n / 2 * 2 := Nat.mul_le_mul_right 2 h3
            _ ≤ n := this

theorem bitLen_self_lt (n : Nat) : n < 2 ^ bitLen n n :=
  (bitLen_spec n n (Nat.lt_two_pow n)).1

theorem bitLen_self_le (n : Nat) (h : 0 < n) : 2 ^ (bitLen n n - 1) ≤ n :=
  (bitLen_spec n n (Nat.lt_two_pow n)).2 h

/-- The exponent of a fraction below `2 ^ 53` is at most `52`. -/
theorem log2Floor_le (n d : Nat) (hd : 0 < d) (h : n < 2 ^ 53 * d) : log2Floor n d ≤ 52 := by
  by_contra hc
  have hc1 : 53 ≤ log2Floor n d := by omega
  unfold log2Floor at hc1
  simp only at hc1
  have hn0 : 0 < n := by
    by_contra h0
    have : n = 0 := by omega
    subst this
    rw [bitLen_zero] at hc1
    split at hc1
    · rename_i hge
      have hbd : 0 < bitLen d d := by
        by_contra hb0
        have hb : bitLen d d = 0 := by omega
        have := bitLen_self_lt d
        rw [hb] at this
        simp at this
        omega
      omega
    · split at hc1 <;> omega
  split at hc1
  · rename_i hge
    split at hc1
    · rename_i hle
      -- d * 2 ^ d' ≤ n with d' ≥ 53
      have h53 : 53 ≤ ((bitLen n n : Int) - (bitLen d d : Int)).toNat := by omega
      have : d * 2 ^ 53 ≤ d * 2 ^ ((bitLen n n : Int) - (bitLen d d : Int)).toNat :=
        Nat.mul_le_mul_left d (Nat.pow_le_pow_right (by decide) h53)
      have h3 : d * 2 ^ 53 ≤ n := le_trans this hle
      rw [Nat.mul_comm] at h3
      omega
    · -- d' - 1 ≥ 53
      have h1 := bitLen_self_le n hn0
      have h2 := bitLen_self_lt d
      have hlt : 2 ^ (bitLen n n - 1) < 2 ^ (53 + bitLen d d) := by
        calc 2 ^ (bitLen n n - 1) ≤ n := h1
          _ < 2 ^ 53 * d := h
          _ < 2 ^ 53 * 2 ^ bitLen d d := Nat.mul_lt_mul_of_pos_left h2 (by positivity)
          _ = 2 ^ (53 + bitLen d d) := by rw [pow_add]
      have := (Nat.pow_lt_pow_iff_right (by decide : 1 < 2)).mp hlt
      omega
  · split at hc1 <;> omega

theorem roundChoice (f D r : Nat) :
    (if 2 * r < D then f else if D < 2 * r then f + 1 else if f % 2 = 0 then f else f + 1) = f ∨
    (if 2 * r < D then f else if D < 2 * r then f + 1 else if f % 2 = 0 then f else f + 1) =
      f + 1 := by
  split
  · exact Or.inl rfl
  · split
    · exact Or.inr rfl
    · split
      · exact Or.inl rfl
      · exact Or.inr rfl

/-- A fraction of `[i, i + 1)` below `2 ^ 53` is rounded to a number of
`[i, i + 1]`. -/
theorem roundMagnitude_between (n d i : Nat) (hd : 0 < d) (h53 : n < 2 ^ 53 * d)
    (h1 : i * d ≤ n) (h2 : n < (i + 1) * d) :
    (i : ℚ) ≤ roundMagnitude n d ∧ roundMagnitude n d ≤ (i : ℚ) + 1 := by
  have hlog := log2Floor_le n d hd h53
  unfold roundMagnitude
  simp only
  by_cases hu : 0 ≤ max (log2Floor n d - 52) (-1074)
  · have hu0 : max (log2Floor n d - 52) (-1074) = 0 := by
      have : max (log2Floor n d - 52) (-1074) ≤ 0 := max_le (by omega) (by omega)
      omega
    simp only [hu0, le_refl, if_true, Int.toNat_zero, pow_zero, mul_one]
    have hf : n / d = i := by
      apply Nat.div_eq_of_lt_le
      · exact h1
      · exact h2
    rcases roundChoice (n / d) d (n % d) with hm | hm
    · rw [hm, hf]
      constructor
      · exact le_refl _
      · linarith
    · rw [hm, hf]
      constructor
      · push_cast; linarith
      · push_cast; exact le_refl _
  · simp only [hu, if_false]
    generalize hk : (-(max (log2Floor n d - 52) (-1074))).toNat = k
    have hKpos : (0 : ℚ) < ((2 ^ k : Nat) : ℚ) := by positivity
    have hlo : i * 2 ^ k ≤ n * 2 ^ k / d := by
      rw [Nat.le_div_iff_mul_le hd]
      calc i * 2 ^ k * d = i * d * 2 ^ k := by ring
        _ ≤ n * 2 ^ k := Nat.mul_le_mul_right _ h1
    have hhi : n * 2 ^ k / d < (i + 1) * 2 ^ k := by
      rw [Nat.div_lt_iff_lt_mul hd]
      calc n * 2 ^ k < (i + 1) * d * 2 ^ k :=
            Nat.mul_lt_mul_of_pos_right h2 (by positivity)
        _ = (i + 1) * 2 ^ k * d := by ring
    rcases roundChoice (n * 2 ^ k / d) d (n * 2 ^ k % d) with hm | hm
    · rw [hm]
      constructor
      · rw [le_div_iff₀ hKpos]
        exact_mod_cast hlo
      · rw [div_le_iff₀ hKpos]
        have : n * 2 ^ k / d ≤ (i + 1) * 2 ^ k := hhi.le
        exact_mod_cast this
    · rw [hm]
      constructor
      · rw [le_div_iff₀ hKpos]
        have : i * 2 ^ k ≤ n * 2 ^ k / d + 1 := by omega
        exact_mod_cast this
      · rw [div_le_iff₀ hKpos]
        have : n * 2 ^ k / d + 1 ≤ (i + 1) * 2 ^ k := hhi
        exact_mod_cast this

/-- Rounding a number of `[i, i + 1)`, `i + 1 ≤ 2 ^ 53`, gives a finite number
of `[i, i + 1]`: the integers of that range are binary64 numbers. -/
theorem roundDouble_between (x : ℚ) (i : Nat) (hi : i + 1 ≤ 2 ^ 53) (h1 : (i : ℚ) ≤ x)
    (h2 : x < (i : ℚ) + 1) :
    ∃ v, roundDouble x = Double.finite v ∧ (i : ℚ) ≤ v ∧ v ≤ (i : ℚ) + 1 := by
  have hx0 : 0 ≤ x := le_trans (Nat.cast_nonneg i) h1
  by_cases h0 : x = 0
  · subst h0
    have hi0 : i = 0 := by
      have : (i : ℚ) ≤ 0 := h1
      have : (i : ℚ) = 0 := le_antisymm this (Nat.cast_nonneg i)
      exact_mod_cast this
    subst hi0
    exact ⟨0, roundDouble_zero, by simp, by simp⟩
  · have hden : (0 : ℚ) < (x.den : ℚ) := by exact_mod_cast x.den_pos
    have hnum : ((x.num.natAbs : Nat) : ℚ) = x * x.den := by
      have h1 : ((x.num.natAbs : Nat) : Int) = x.num :=
        Int.natAbs_of_nonneg (Rat.num_nonneg.mpr hx0)
      have h2 : ((x.num.natAbs : Nat) : ℚ) = (x.num : ℚ) :=
        calc ((x.num.natAbs : Nat) : ℚ) = (((x.num.natAbs : Nat) : Int) : ℚ) :=
              (Int.cast_natCast _).symm
          _ = (x.num : ℚ) := congrArg (fun (z : Int) => (z : ℚ)) h1
      rw [h2]
      exact (Rat.mul_den_eq_num x).symm
    have hle : i * x.den ≤ x.num.natAbs := by
      have : ((i * x.den : Nat) : ℚ) ≤ ((x.num.natAbs : Nat) : ℚ) := by
        rw [hnum]
        push_cast
        exact mul_le_mul_of_nonneg_right h1 hden.le
      exact_mod_cast this
    have hlt : x.num.natAbs < (i + 1) * x.den := by
      have : ((x.num.natAbs : Nat) : ℚ) < (((i + 1) * x.den : Nat) : ℚ) := by
        rw [hnum]
        push_cast
        exact mul_lt_mul_of_pos_right h2 hden
      exact_mod_cast this
    have h53 : x.num.natAbs < 2 ^ 53 * x.den :=
      lt_of_lt_of_le hlt (Nat.mul_le_mul_right _ hi)
    obtain ⟨hb1, hb2⟩ := roundMagnitude_between x.num.natAbs x.den i x.den_pos h53 hle hlt
    refine ⟨roundMagnitude x.num.natAbs x.den, ?_, hb1, hb2⟩
    unfold roundDouble
    rw [if_neg h0, if_neg, if_neg (not_lt.mpr hx0)]
    intro hbig
    have hi53 : (i : ℚ) + 1 ≤ 2 ^ 53 := by exact_mod_cast hi
    have : ((2 ^ 1024 : Nat) : ℚ) ≤ 2 ^ 53 := le_trans hbig (le_trans hb2 hi53)
    norm_num at this

/-! ### Bin index (C2) -/

/-- On a nonnegative number the truncation toward zero is the floor. -/
theorem tdiv_of_nonneg (v : RealType) (h : 0 ≤ v) : Int.tdiv v.num v.den = ⌊v⌋ := by
  rw [Rat.floor_def]
  exact Int.tdiv_eq_ediv (Rat.num_nonneg.mpr h) (Int.ofNat_nonneg _)

/-- The conversion to `int` of a finite number of `[0, 2 ^ 31)` is its floor. -/
theorem toInt_of_nonneg (v : RealType) (h : 0 ≤ v) (h2 : v < 2147483648) :
    toInt (Double.finite v) = some ⌊v⌋ := by
  unfold toInt
  simp only
  rw [tdiv_of_nonneg v h]
  have h0 : 0 ≤ ⌊v⌋ := Int.floor_nonneg.mpr h
  have h1 : ⌊v⌋ < 2147483648 := by
    rw [Int.floor_lt]
    exact_mod_cast h2
  rw [if_pos ⟨by omega, by omega⟩]

/-- The bin index is the floor of the computed quotient. -/
theorem binNo_of_quotient (r deltaR : Double) (q : RealType)
    (hq : Double.div r deltaR = Double.finite q) (h0 : 0 ≤ q) (h1 : q < 2147483648) :
    binNo r deltaR = some ⌊q⌋ := by
  unfold binNo
  rw [hq, toInt_of_nonneg q h0 h1]

/-- The computed quotient of a radius of `[i * d, (i + 1) * d)` by `d` is a
finite number of `[i, i + 1]`. -/
theorem div_between (rv d : RealType) (i : Nat) (hd : 0 < d) (hi : i + 1 ≤ 2 ^ 53)
    (h1 : (i : RealType) * d ≤ rv) (h2 : rv < ((i : RealType) + 1) * d) :
    ∃ v, Double.div (Double.finite rv) (Double.finite d) = Double.finite v ∧
      (i : RealType) ≤ v ∧ v ≤ (i : RealType) + 1 := by
  have hdiv : Double.div (Double.finite rv) (Double.finite d) = roundDouble (rv / d) := by
    unfold Double.div
    simp only
    rw [if_neg (ne_of_gt hd)]
  rw [hdiv]
  apply roundDouble_between (rv / d) i hi
  · rw [le_div_iff₀ hd]; exact h1
  · rw [div_lt_iff₀ hd]; exact h2

/-- C2 (amended): the bin index computed at a deposit is `int(q)` with `q` the
quotient `r / deltaR_` computed in `double` arithmetic.  When `q` is a finite
number of `[0, 2 ^ 31)` the index is `⌊q⌋`; it is `i` if and only if
`i ≤ q < i + 1`.  For a radius with `i * deltaR ≤ r < (i + 1) * deltaR` the
index is therefore `i` when the quotient is computed exactly, and in general
when the rounded quotient stays below `i + 1`; whatever the rounding, the index
is `i` or `i + 1` (for `i + 1 < 2 ^ 31`), and it is `i + 1` exactly when the
computed quotient is `i + 1`; and for `r = len` the index is `nBins` if and
only if the computed quotient `len / deltaR_` lies in `[nBins, nBins + 1)`. -/
theorem binNo_spec (r deltaR : Double) (q : RealType)
    (hq : Double.div r deltaR = Double.finite q) (h0 : 0 ≤ q) (h1 : q < 2147483648) :
    binNo r deltaR = some ⌊q⌋ ∧
      (∀ i : Nat, binNo r deltaR = some (i : Int) ↔ (i : RealType) ≤ q ∧ q < (i : RealType) + 1) ∧
      (∀ (rv d : RealType) (i : Nat), r = Double.finite rv → deltaR = Double.finite d →
        0 < d → q = rv / d → (i : RealType) * d ≤ rv → rv < ((i : RealType) + 1) * d →
        binNo r deltaR = some (i : Int)) ∧
      (∀ (rv d : RealType) (i : Nat), r = Double.finite rv → deltaR = Double.finite d →
        0 < d → (i : Int) < 2147483647 → (i : RealType) * d ≤ rv →
        rv < ((i : RealType) + 1) * d →
        (binNo r deltaR = some (i : Int) ∨ binNo r deltaR = some ((i : Int) + 1)) ∧
          (binNo r deltaR = some ((i : Int) + 1) ↔ q = (i : RealType) + 1)) := by
  have hb := binNo_of_quotient r deltaR q hq h0 h1
  have hiff : ∀ i : Nat, binNo r deltaR = some (i : Int) ↔
      (i : RealType) ≤ q ∧ q < (i : RealType) + 1 := by
    intro i
    rw [hb, Option.some.injEq, Int.floor_eq_iff]
    simp
  refine ⟨hb, hiff, ?_, ?_⟩
  · intro rv d i _ _ hd hqe h2 h3
    rw [hiff i, hqe]
    constructor
    · rw [le_div_iff₀ hd]; exact h2
    · rw [div_lt_iff₀ hd]; exact h3
  · intro rv d i hr hdR hd hi h2 h3
    obtain ⟨v, hv, hv1, hv2⟩ := div_between rv d i hd (by omega) h2 h3
    rw [hr, hdR, hv] at hq
    have hvq : v = q := Double.finite.inj hq
    rw [hvq] at hv1 hv2
    have hnext := hiff (i + 1)
    push_cast at hnext
    rcases lt_or_eq_of_le hv2 with hlt | heq
    · refine ⟨Or.inl ((hiff i).mpr ⟨hv1, hlt⟩), ?_⟩
      rw [hnext]
      constructor
      · rintro ⟨hge, _⟩
        linarith
      · intro he
        linarith
    · have : binNo r deltaR = some ((i : Int) + 1) :=
        hnext.mpr ⟨by linarith, by linarith⟩
      exact ⟨Or.inr this, fun _ => heq, fun _ => this⟩

/-- C2 (amended) at `deltaR = 0.5`, `r = 5.25`: the quotient is `10.5`, the
index `10`. -/
theorem binNo_spec_witness :
    binNo (Double.finite (21 / 4)) (Double.finite (1 / 2)) = some ⌊(21 / 2 : RealType)⌋ ∧
      (∀ i : Nat, binNo (Double.finite (21 / 4)) (Double.finite (1 / 2)) = some (i : Int) ↔
        (i : RealType) ≤ 21 / 2 ∧ (21 / 2 : RealType) < (i : RealType) + 1) ∧
      (∀ (rv d : RealType) (i : Nat), Double.finite (21 / 4) = Double.finite rv →
        Double.finite (1 / 2) = Double.finite d →
        0 < d → 21 / 2 = rv / d → (i : RealType) * d ≤ rv → rv < ((i : RealType) + 1) * d →
        binNo (Double.finite (21 / 4)) (Double.finite (1 / 2)) = some (i : Int)) ∧
      (∀ (rv d : RealType) (i : Nat), Double.finite (21 / 4) = Double.finite rv →
        Double.finite (1 / 2) = Double.finite d →
        0 < d → (i : Int) < 2147483647 → (i : RealType) * d ≤ rv →
        rv < ((i : RealType) + 1) * d →
        (binNo (Double.finite (21 / 4)) (Double.finite (1 / 2)) = some (i : Int) ∨
          binNo (Double.finite (21 / 4)) (Double.finite (1 / 2)) = some ((i : Int) + 1)) ∧
          (binNo (Double.finite (21 / 4)) (Double.finite (1 / 2)) = some ((i : Int) + 1) ↔
            (21 / 2 : RealType) = (i : RealType) + 1)) :=
  binNo_spec (Double.finite (21 / 4)) (Double.finite (1 / 2)) (21 / 2) (by decide!)
    (by norm_num) (by norm_num)

/-- C2 (counterexample): with `len = 1` and `nBins = 3`, `deltaR_` is the
`double` nearest to `1 / 3`, and the radius `r = 1 - 2 ^ (-53)` satisfies
`2 * deltaR ≤ r < 3 * deltaR`, yet the quotient `r / deltaR_` rounds to `3.0`
and the computed index is `3`, not `2`; with `len = 9` and `nBins = 7` the
radius `r = len` has the computed quotient `6.999999999999999` and the index
`6`, not `nBins = 7`. -/
theorem binNo_counterexample :
    (HBondR.new (7 / 2) 1 30 3 1).deltaR =
        Double.finite (6004799503160661 / 18014398509481984) ∧
      2 * (6004799503160661 / 18014398509481984 : RealType) ≤ 1 - 1 / 2 ^ 53 ∧
      (1 - 1 / 2 ^ 53 : RealType) < 3 * (6004799503160661 / 18014398509481984) ∧
      binNo (Double.finite (1 - 1 / 2 ^ 53)) (HBondR.new (7 / 2) 1 30 3 1).deltaR = some 3 ∧
      binNo (Double.finite 9) (HBondR.new (7 / 2) 9 30 7 1).deltaR = some 6 := by
  refine ⟨by decide!, by norm_num, by norm_num, by decide!, by decide!⟩

/-! ### Array updates and deposits -/

theorem addAt_eq_some_iff {α : Type} [Add α] [Inhabited α] (a : List α) (i : Int) (v : α)
    (a1 : List α) :
    addAt a i v = some a1 ↔
      (0 ≤ i ∧ i.toNat < a.length) ∧ a1 = a.set i.toNat (a.getD i.toNat default + v) := by
  unfold addAt
  split
  · rename_i h
    simp [h, eq_comm]
  · rename_i h
    simp [h]

theorem addAt_length {α : Type} [Add α] [Inhabited α] {a : List α} {i : Int} {v : α}
    {a1 : List α} (h : addAt a i v = some a1) : a1.length = a.length := by
  rw [addAt_eq_some_iff] at h
  rw [h.2, List.length_set]

theorem addAt_sum {α : Type} [AddCommGroup α] [Inhabited α] {a : List α} {i : Int} {v : α}
    {a1 : List α} (h : addAt a i v = some a1) : a1.sum = a.sum + v := by
  rw [addAt_eq_some_iff] at h
  obtain ⟨⟨_, hlt⟩, rfl⟩ := h
  rw [List.sum_set', dif_pos hlt, List.getD_eq_getElem _ _ hlt]
  abel

theorem addAt_isSome {α : Type} [Add α] [Inhabited α] (a : List α) (i : Int) (v : α)
    (h0 : 0 ≤ i) (h1 : i < a.length) : ∃ a1, addAt a i v = some a1 := by
  refine ⟨_, (addAt_eq_some_iff a i v _).2 ⟨⟨h0, ?_⟩, rfl⟩⟩
  omega


/-- The deposit of variant A succeeds exactly when the bin index is inside both
arrays. -/
theorem HBondR.deposit_eq_some_iff (p : Params) (r : Double) (nHB : Int) (s s1 : Slices) :
    HBondR.deposit p r nHB s = some s1 ↔
      ∃ b, binNo r p.deltaR = some b ∧ addAt s.sliceQ b (nHB : RealType) = some s1.sliceQ ∧
        addAt s.sliceCount b 1 = some s1.sliceCount := by
  unfold HBondR.deposit
  cases hb : binNo r p.deltaR with
  | none => simp
  | some b =>
    cases hq : addAt s.sliceQ b (nHB : RealType) with
    | none => simp [hq]
    | some q =>
      cases hk : addAt s.sliceCount b 1 with
      | none => simp [hq, hk]
      | some k =>
        cases s1
        simp [hq, hk]

/-! ### The frame loop -/

theorem frameCount_of_lt (nFrames step istep : Int) (hs : 1 ≤ step) (h : istep < nFrames) :
    frameCount nFrames step istep = frameCount nFrames step (istep + step) + 1 := by
  unfold frameCount
  have h1 : nFrames - istep + step - 1 = (nFrames - (istep + step) + step - 1) + 1 * step := by
    ring
  rw [h1, Int.add_mul_ediv_right _ _ (by omega : step ≠ 0)]
  have h2 : 0 ≤ (nFrames - (istep + step) + step - 1) / step :=
    Int.ediv_nonneg (by omega) (by omega)
  omega

theorem frameCount_of_ge (nFrames step istep : Int) (hs : 1 ≤ step) (h : nFrames ≤ istep) :
    frameCount nFrames step istep = 0 := by
  unfold frameCount
  have : (nFrames - istep + step - 1) / step ≤ 0 := by
    by_cases hx : nFrames - istep + step - 1 < 0
    · exact (Int.ediv_neg' hx (by omega)).le
    · rw [Int.ediv_eq_zero_of_lt (by omega) (by omega)]
  omega

theorem framesFrom_succ (istep step : Int) (n : Nat) :
    framesFrom istep step (n + 1) = istep :: framesFrom (istep + step) step n := by
  unfold framesFrom
  rw [List.range_succ_eq_map, List.map_cons, List.map_map]
  simp only [Nat.cast_zero, zero_mul, add_zero, List.cons.injEq, true_and]
  apply List.map_congr_left
  intro j _
  simp only [Function.comp, Nat.cast_succ]
  ring

/-- For a stride `step ≥ 1` and enough fuel the loop terminates: it is the fold
of its body over the indices `istep, istep + step, ...` below `nFrames`. -/
theorem strideLoop_eq_foldlM {σ : Type} (body : Int → σ → Option σ) (nFrames step : Int)
    (hs : 1 ≤ step) :
    ∀ (fuel : Nat) (istep : Int) (s : σ), frameCount nFrames step istep ≤ fuel →
      strideLoop body nFrames step fuel istep s =
        match (framesFrom istep step (frameCount nFrames step istep)).foldlM
            (fun s i => body i s) s with
        | some r => Outcome.finished r
        | none => Outcome.undefinedBehaviour := by
  intro fuel
  induction fuel with
  | zero =>
    intro istep s hf
    have h0 : frameCount nFrames step istep = 0 := by omega
    have hge : ¬ istep < nFrames := by
      intro hlt
      rw [frameCount_of_lt nFrames step istep hs hlt] at h0
      omega
    simp [strideLoop, hge, h0, framesFrom]
  | succ fuel ih =>
    intro istep s hf
    by_cases hlt : istep < nFrames
    · have hc := frameCount_of_lt nFrames step istep hs hlt
      rw [hc, framesFrom_succ]
      simp only [strideLoop, hlt, if_true, List.foldlM_cons]
      cases hb : body istep s with
      | none => simp
      | some s1 =>
        simp only [Option.bind_eq_bind, Option.some_bind]
        exact ih (istep + step) s1 (by omega)
    · have h0 := frameCount_of_ge nFrames step istep hs (by omega)
      simp [strideLoop, hlt, h0, framesFrom]

theorem frameCount_le (nFrames step : Int) (hs : 1 ≤ step) :
    frameCount nFrames step 0 ≤ nFrames.toNat := by
  unfold frameCount
  by_cases hn : nFrames ≤ 0
  · have := frameCount_of_ge nFrames step 0 hs hn
    unfold frameCount at this
    omega
  · have h1 : (nFrames - 0 + step - 1) / step ≤ nFrames := by
      have : (nFrames - 0 + step - 1) / step ≤ (nFrames * step) / step := by
        apply Int.ediv_le_ediv (by omega)
        nlinarith
      rwa [Int.mul_ediv_cancel _ (by omega : step ≠ 0)] at this
    omega

/-! ### Sums -/

/-- Counting the elements that satisfy a test is summing its indicator. -/
theorem sum_map_ite_eq_countP {α : Type} (q : α → Bool) (l : List α) :
    (l.map (fun a => if q a = true then 1 else 0)).sum = l.countP q := by
  induction l with
  | nil => simp
  | cons a l ih =>
    simp only [List.map_cons, List.sum_cons, ih, List.countP_cons]
    split <;> omega

/-! ### Sequences of deposits -/

theorem addAt_getD {α : Type} [AddMonoid α] [Inhabited α] {a a1 : List α} {i : Int} {v : α}
    (h : addAt a i v = some a1) (j : Nat) :
    a1.getD j 0 = a.getD j 0 + if j = i.toNat then v else 0 := by
  rw [addAt_eq_some_iff] at h
  obtain ⟨⟨_, hlt⟩, rfl⟩ := h
  rw [List.getD_eq_getElem _ _ hlt]
  simp only [List.getD_eq_getElem?_getD, List.getElem?_set]
  by_cases hj : j = i.toNat
  · subst hj
    simp [hlt]
  · simp [hj, Ne.symm hj]

theorem HBondRvol.deposit_eq (p : Params) (M : MathLib) (hPos : Vector3d) (s : Slices) :
    HBondRvol.deposit p M hPos s = HBondR.deposit p (M.length hPos) 1 s := by
  simp only [HBondRvol.deposit, HBondR.deposit, Int.cast_one]

theorem Slices.ext_getD {n : Nat} {s t : Slices} (hs : s.Sized n) (ht : t.Sized n)
    (hq : ∀ j, s.sliceQ.getD j 0 = t.sliceQ.getD j 0)
    (hk : ∀ j, s.sliceCount.getD j 0 = t.sliceCount.getD j 0) : s = t := by
  cases s with
  | mk sq sk =>
    cases t with
    | mk tq tk =>
      obtain ⟨hs1, hs2⟩ := hs
      obtain ⟨ht1, ht2⟩ := ht
      simp only at hs1 hs2 ht1 ht2 hq hk
      have e1 : sq = tq := by
        apply List.ext_getElem (hs1.trans ht1.symm)
        intro j h1 h2
        have := hq j
        rwa [List.getD_eq_getElem _ _ h1, List.getD_eq_getElem _ _ h2] at this
      have e2 : sk = tk := by
        apply List.ext_getElem (hs2.trans ht2.symm)
        intro j h1 h2
        have := hk j
        rwa [List.getD_eq_getElem _ _ h1, List.getD_eq_getElem _ _ h2] at this
      rw [e1, e2]

/-- One deposit whose radius is in range: it succeeds, keeps the sizes, and adds
the quantity to `sliceQ` and `1` to `sliceCount` at the bin of the radius. -/
theorem HBondR.deposit_spec (p : Params) (n : Nat) (r : Double) (v : Int) (s : Slices)
    (hs : s.Sized n) (hr : InRange p.deltaR n r) :
    ∃ s1, HBondR.deposit p r v s = some s1 ∧ s1.Sized n ∧
      s1.sliceQ.sum = s.sliceQ.sum + (v : RealType) ∧
      s1.sliceCount.sum = s.sliceCount.sum + 1 ∧
      ∀ j : Nat, s1.sliceQ.getD j 0 = s.sliceQ.getD j 0 +
          (if binNo r p.deltaR = some (j : Int) then (v : RealType) else 0) ∧
        s1.sliceCount.getD j 0 = s.sliceCount.getD j 0 +
          (if binNo r p.deltaR = some (j : Int) then 1 else 0) := by
  obtain ⟨b, hb, h0, hlt⟩ := hr
  obtain ⟨q, hq1⟩ := addAt_isSome s.sliceQ b (v : RealType) h0 (by rw [hs.1]; exact hlt)
  obtain ⟨k, hk1⟩ := addAt_isSome s.sliceCount b 1 h0 (by rw [hs.2]; exact hlt)
  have hbj : ∀ j : Nat, (j = b.toNat) ↔ (some b = some (j : Int)) := by
    intro j
    simp only [Option.some.injEq]
    omega
  refine ⟨⟨q, k⟩, (HBondR.deposit_eq_some_iff p r v s ⟨q, k⟩).2 ⟨b, hb, hq1, hk1⟩,
    ⟨(addAt_length hq1).trans hs.1, (addAt_length hk1).trans hs.2⟩, addAt_sum hq1,
    addAt_sum hk1, ?_⟩
  intro j
  rw [hb]
  refine ⟨?_, ?_⟩
  · rw [addAt_getD hq1 j]
    simp only [hbj j]
  · rw [addAt_getD hk1 j]
    simp only [hbj j]

theorem depositAll_nil (p : Params) (s : Slices) : depositAll p [] s = some s := rfl

theorem depositAll_cons (p : Params) (e : Double × Int) (es : List (Double × Int))
    (s : Slices) :
    depositAll p (e :: es) s = (HBondR.deposit p e.1 e.2 s).bind (depositAll p es) := by
  simp only [depositAll, List.foldlM_cons, Option.bind_eq_bind]

theorem depositAll_append (p : Params) (es es' : List (Double × Int)) (s : Slices) :
    depositAll p (es ++ es') s = (depositAll p es s).bind (depositAll p es') := by
  simp only [depositAll, List.foldlM_append, Option.bind_eq_bind]

theorem binHits_cons (deltaR : Double) (j : Nat) (e : Double × Int)
    (es : List (Double × Int)) :
    binHits deltaR j (e :: es) =
      (if binNo e.1 deltaR = some (j : Int) then 1 else 0) + binHits deltaR j es := by
  simp only [binHits, List.countP_cons, decide_eq_true_eq]
  omega

theorem binTotal_cons (deltaR : Double) (j : Nat) (e : Double × Int)
    (es : List (Double × Int)) :
    binTotal deltaR j (e :: es) =
      (if binNo e.1 deltaR = some (j : Int) then e.2 else 0) + binTotal deltaR j es := by
  simp only [binTotal, List.filter_cons, decide_eq_true_eq]
  split <;> simp

theorem binHits_append (deltaR : Double) (j : Nat) (es es' : List (Double × Int)) :
    binHits deltaR j (es ++ es') = binHits deltaR j es + binHits deltaR j es' := by
  simp only [binHits, List.countP_append]

theorem binTotal_append (deltaR : Double) (j : Nat) (es es' : List (Double × Int)) :
    binTotal deltaR j (es ++ es') = binTotal deltaR j es + binTotal deltaR j es' := by
  simp only [binTotal, List.filter_append, List.map_append, List.sum_append]

theorem binHits_perm (deltaR : Double) (j : Nat) {es es' : List (Double × Int)}
    (h : es.Perm es') : binHits deltaR j es = binHits deltaR j es' :=
  h.countP_eq _

theorem binTotal_perm (deltaR : Double) (j : Nat) {es es' : List (Double × Int)}
    (h : es.Perm es') : binTotal deltaR j es = binTotal deltaR j es' :=
  ((h.filter _).map _).sum_eq

/-- A sequence of deposits whose radii are all in range: it succeeds, keeps the
sizes, and each bin receives the deposits that index it. -/
theorem depositAll_spec (p : Params) (n : Nat) :
    ∀ (es : List (Double × Int)) (s : Slices), s.Sized n →
      (∀ e ∈ es, InRange p.deltaR n e.1) →
      ∃ s1, depositAll p es s = some s1 ∧ s1.Sized n ∧
        s1.sliceQ.sum = s.sliceQ.sum + (((es.map (fun e => e.2)).sum : Int) : RealType) ∧
        s1.sliceCount.sum = s.sliceCount.sum + (es.length : Int) ∧
        ∀ j : Nat, s1.sliceQ.getD j 0 = s.sliceQ.getD j 0 +
            ((binTotal p.deltaR j es : Int) : RealType) ∧
          s1.sliceCount.getD j 0 = s.sliceCount.getD j 0 + (binHits p.deltaR j es : Int) := by
  intro es
  induction es with
  | nil =>
    intro s hs _
    exact ⟨s, rfl, hs, by simp, by simp, fun j => by simp [binTotal, binHits]⟩
  | cons e es ih =>
    intro s hs hr
    obtain ⟨s1, h1, hz1, hq1, hk1, hp1⟩ :=
      HBondR.deposit_spec p n e.1 e.2 s hs (hr e (List.mem_cons_self _ _))
    obtain ⟨s2, h2, hz2, hq2, hk2, hp2⟩ :=
      ih s1 hz1 (fun e' he' => hr e' (List.mem_cons_of_mem _ he'))
    refine ⟨s2, ?_, hz2, ?_, ?_, ?_⟩
    · rw [depositAll_cons, h1]; exact h2
    · rw [hq2, hq1]; simp only [List.map_cons, List.sum_cons]; push_cast; ring
    · rw [hk2, hk1]; simp only [List.length_cons]; push_cast; ring
    · intro j
      rw [(hp2 j).1, (hp2 j).2, (hp1 j).1, (hp1 j).2, binTotal_cons, binHits_cons]
      refine ⟨?_, ?_⟩
      · split <;> (push_cast; ring)
      · split <;> (push_cast; ring)

/-- The order of in-range deposits does not matter. -/
theorem depositAll_perm (p : Params) (n : Nat) {es es' : List (Double × Int)}
    (h : es.Perm es') (s : Slices) (hs : s.Sized n)
    (hr : ∀ e ∈ es, InRange p.deltaR n e.1) :
    ∃ s1, depositAll p es s = some s1 ∧ depositAll p es' s = some s1 := by
  obtain ⟨s1, h1, hz1, _, _, hp1⟩ := depositAll_spec p n es s hs hr
  obtain ⟨s2, h2, hz2, _, _, hp2⟩ := depositAll_spec p n es' s hs
    (fun e he => hr e (h.mem_iff.mpr he))
  have : s2 = s1 := by
    apply Slices.ext_getD hz2 hz1
    · intro j; rw [(hp2 j).1, (hp1 j).1, binTotal_perm _ _ h]
    · intro j; rw [(hp2 j).2, (hp1 j).2, binHits_perm _ _ h]
  exact ⟨s1, h1, this ▸ h2⟩

/-! ### The deposits made in a frame -/

/-- A fold on pairs whose step acts on the first component as `g` does. -/
theorem foldlM_fst {σ γ α : Type} (f : σ × γ → α → Option (σ × γ)) (g : σ → α → Option σ)
    (h : ∀ st a, (f st a).map Prod.fst = g st.1 a) :
    ∀ (l : List α) (st : σ × γ), (l.foldlM f st).map Prod.fst = l.foldlM g st.1 := by
  intro l
  induction l with
  | nil => intro st; simp
  | cons a l ih =>
    intro st
    simp only [List.foldlM_cons, Option.bind_eq_bind]
    have ha := h st a
    cases hf : f st a with
    | none =>
      rw [hf] at ha
      simp only [Option.map_none'] at ha
      simp [← ha]
    | some st1 =>
      rw [hf] at ha
      simp only [Option.map_some'] at ha
      rw [← ha]
      simp only [Option.some_bind]
      exact ih st1

theorem depositAll_flatMap {α : Type} (p : Params) (e : α → List (Double × Int)) :
    ∀ (l : List α) (s : Slices),
      l.foldlM (fun s a => depositAll p (e a) s) s = depositAll p (l.flatMap e) s := by
  intro l
  induction l with
  | nil => intro s; rfl
  | cons a l ih =>
    intro s
    rw [List.flatMap_cons, depositAll_append, List.foldlM_cons]
    cases h : depositAll p (e a) s with
    | none => rfl
    | some s1 => exact ih s1

theorem filter_map_eq_flatMap {α β : Type} (q : α → Bool) (g : α → β) (l : List α) :
    (l.filter q).map g = l.flatMap (fun a => if q a = true then [g a] else []) := by
  induction l with
  | nil => rfl
  | cons a l ih =>
    rw [List.flatMap_cons, ← ih, List.filter_cons]
    split <;> simp

theorem HBondR.processFrame_eq (p : Params) (M : MathLib) (f : Frame) (s : Slices) :
    HBondR.processFrame p M f s = depositAll p (HBondR.frameEvents p M f) s := by
  simp only [HBondR.processFrame, depositAll, HBondR.frameEvents, List.foldlM_map]

theorem HBondRvol.donorSweep_eq_vol (p : Params) (M : MathLib) (wrap : Vector3d → Vector3d)
    (mol1 mol2 : Molecule) (st : Slices × Counts) :
    (HBondRvol.donorSweep p M wrap mol1 mol2 st).map Prod.fst =
      depositAll p (HBondRvol.donorEvents p M wrap mol1 mol2) st.1 := by
  unfold HBondRvol.donorSweep HBondRvol.donorEvents
  rw [← depositAll_flatMap]
  apply foldlM_fst
  intro st d
  simp only [filter_map_eq_flatMap]
  rw [← depositAll_flatMap]
  apply foldlM_fst
  intro st a
  by_cases ht : donorRoleTest M wrap p.rCut p.thetaCut d a = true
  · have ht2 : donorRoleConfirms M wrap p.rCut p.thetaCut d.donorAtom.pos
        (wrap (d.donatedHydrogen.pos - d.donorAtom.pos))
        (M.length (wrap (d.donatedHydrogen.pos - d.donorAtom.pos))) a = true := ht
    simp only [ht, ht2, if_true, depositAll_cons, depositAll_nil, HBondRvol.deposit_eq]
    cases HBondR.deposit p (M.length d.donatedHydrogen.pos) 1 st.1 <;> rfl
  · have ht2 : ¬ donorRoleConfirms M wrap p.rCut p.thetaCut d.donorAtom.pos
        (wrap (d.donatedHydrogen.pos - d.donorAtom.pos))
        (M.length (wrap (d.donatedHydrogen.pos - d.donorAtom.pos))) a = true := ht
    simp [ht, ht2, depositAll_nil]

theorem HBondRvol.acceptorSweep_eq_vol (p : Params) (M : MathLib) (wrap : Vector3d → Vector3d)
    (mol1 mol2 : Molecule) (st : Slices × Counts) :
    (HBondRvol.acceptorSweep p M wrap mol1 mol2 st).map Prod.fst =
      depositAll p (HBondRvol.acceptorEvents p M wrap mol1 mol2) st.1 := by
  unfold HBondRvol.acceptorSweep HBondRvol.acceptorEvents
  rw [← depositAll_flatMap]
  apply foldlM_fst
  intro st a
  simp only [filter_map_eq_flatMap]
  rw [← depositAll_flatMap]
  apply foldlM_fst
  intro st d
  by_cases ht : acceptorRoleTest M wrap p.rCut p.thetaCut a d = true
  · have ht2 : acceptorRoleConfirms M wrap p.rCut p.thetaCut a.pos d = true := ht
    simp only [ht, ht2, if_true, depositAll_cons, depositAll_nil, HBondRvol.deposit_eq]
    cases HBondR.deposit p (M.length d.donatedHydrogen.pos) 1 st.1 <;> rfl
  · have ht2 : ¬ acceptorRoleConfirms M wrap p.rCut p.thetaCut a.pos d = true := ht
    simp [ht, ht2, depositAll_nil]

theorem HBondRvol.scanMolecule_eq_vol (p : Params) (M : MathLib) (f : Frame) (mol1 : Molecule)
    (s : Slices) :
    (HBondRvol.scanMolecule p M f mol1 s).map Prod.fst =
      depositAll p (HBondRvol.moleculeEvents p M f mol1) s := by
  unfold HBondRvol.scanMolecule HBondRvol.moleculeEvents
  rw [← depositAll_flatMap]
  refine foldlM_fst _ (fun s mol2 => depositAll p
    (HBondRvol.donorEvents p M f.wrapVector mol1 mol2 ++
      HBondRvol.acceptorEvents p M f.wrapVector mol1 mol2) s) ?_ _ _
  intro st mol2
  show _ = depositAll p _ st.1
  rw [depositAll_append, ← HBondRvol.donorSweep_eq_vol]
  cases h : HBondRvol.donorSweep p M f.wrapVector mol1 mol2 st with
  | none => rfl
  | some st1 =>
    simp only [Option.map_some', Option.some_bind]
    exact HBondRvol.acceptorSweep_eq_vol p M f.wrapVector mol1 mol2 st1

theorem HBondRvol.processFrame_eq_vol (p : Params) (M : MathLib) (f : Frame) (s : Slices) :
    HBondRvol.processFrame p M f s = depositAll p (HBondRvol.frameEvents p M f) s := by
  unfold HBondRvol.processFrame HBondRvol.frameEvents
  rw [← depositAll_flatMap]
  congr 1
  funext s mol1
  rw [← HBondRvol.scanMolecule_eq_vol]
  cases HBondRvol.scanMolecule p M f mol1 s <;> rfl

/-! ### The report writers -/

theorem HBondR.writeBin_eq (p : Params) (s : Slices) (out : List (Double × Double))
    (i : Nat) :
    HBondR.writeBin p s out i =
      out ++ (if s.sliceCount.getD i 0 ≠ 0 then [HBondR.reportRow p s i] else []) := by
  unfold HBondR.writeBin HBondR.reportRow binRadius
  by_cases h : s.sliceCount.getD i 0 ≠ 0
  · simp only [h, if_true, ne_eq, not_false_eq_true]
  · simp only [h, if_false, List.append_nil]

theorem HBondR.writeDensityR_fold (p : Params) (s : Slices) :
    ∀ (l : List Nat) (out : List (Double × Double)),
      l.foldl (HBondR.writeBin p s) out =
        out ++ (l.filter (fun i => decide (s.sliceCount.getD i 0 ≠ 0))).map
          (HBondR.reportRow p s) := by
  intro l
  induction l with
  | nil => intro out; simp
  | cons i l ih =>
    intro out
    rw [List.foldl_cons, ih, HBondR.writeBin_eq, List.filter_cons]
    by_cases h : s.sliceCount.getD i 0 ≠ 0
    · rw [if_pos h, if_pos (decide_eq_true h)]
      simp only [List.map_cons, List.append_assoc, List.singleton_append]
    · rw [if_neg h, if_neg (by simpa using h)]
      simp only [List.append_nil]

theorem HBondR.writeDensityR_eq (p : Params) (s : Slices) :
    HBondR.writeDensityR p s =
      ((List.range s.sliceQ.length).filter (fun i => decide (s.sliceCount.getD i 0 ≠ 0))).map
        (HBondR.reportRow p s) := by
  unfold HBondR.writeDensityR
  rw [HBondR.writeDensityR_fold]
  rfl

theorem getD_set (l : List Double) (i j : Nat) (v : Double) (hi : i < l.length) :
    (l.set i v).getD j 0 = if j = i then v else l.getD j 0 := by
  simp only [List.getD_eq_getElem?_getD, List.getElem?_set]
  by_cases h : j = i
  · subst h; simp [hi]
  · simp [h, Ne.symm h]

theorem HBondRvol.writeBin_eq_vol (p : Params) (M : MathLib) (nFrames : Int) (s : Slices)
    (st : List Double × List (Double × Double)) (i : Nat)
    (hi : i < st.1.length) :
    HBondRvol.writeBin p M nFrames s st i =
      (st.1.set i (HBondRvol.shellVolume p M i),
        st.2 ++ [HBondRvol.reportRow p M nFrames s i]) := by
  have hv : (st.1.set i (HBondRvol.shellVolume p M i)).getD i 0 =
      HBondRvol.shellVolume p M i := by
    rw [getD_set _ _ _ _ hi, if_pos rfl]
  show (if s.sliceCount.getD i 0 ≠ 0 ∧
        (st.1.set i (HBondRvol.shellVolume p M i)).getD i 0 ≠ 0 then
      (st.1.set i (HBondRvol.shellVolume p M i), st.2 ++ [(binRadius p i,
        Double.div (Double.div (Double.finite (s.sliceQ.getD i 0))
          ((st.1.set i (HBondRvol.shellVolume p M i)).getD i 0))
          (Double.finite (nFrames : RealType)))])
    else (st.1.set i (HBondRvol.shellVolume p M i), st.2 ++ [(binRadius p i, 0)])) = _
  rw [hv]
  unfold HBondRvol.reportRow
  by_cases hc : s.sliceCount.getD i 0 ≠ 0 ∧ HBondRvol.shellVolume p M i ≠ 0
  · rw [if_pos hc, if_pos hc]
  · rw [if_neg hc, if_neg hc]

theorem HBondRvol.writeDensityR_fold_vol (p : Params) (M : MathLib) (nFrames : Int) (s : Slices) :
    ∀ (l : List Nat) (st : List Double × List (Double × Double)),
      (∀ i ∈ l, i < st.1.length) →
      (l.foldl (HBondRvol.writeBin p M nFrames s) st).1.length = st.1.length ∧
      (∀ j, (l.foldl (HBondRvol.writeBin p M nFrames s) st).1.getD j 0 =
          if j ∈ l then HBondRvol.shellVolume p M j else st.1.getD j 0) ∧
      (l.foldl (HBondRvol.writeBin p M nFrames s) st).2 =
        st.2 ++ l.map (HBondRvol.reportRow p M nFrames s) := by
  intro l
  induction l with
  | nil => intro st _; simp
  | cons i l ih =>
    intro st hl
    have hi : i < st.1.length := hl i (List.mem_cons_self _ _)
    rw [List.foldl_cons, HBondRvol.writeBin_eq_vol p M nFrames s st i hi]
    obtain ⟨h1, h2, h3⟩ := ih (st.1.set i (HBondRvol.shellVolume p M i),
        st.2 ++ [HBondRvol.reportRow p M nFrames s i])
      (fun k hk => by
        rw [List.length_set]
        exact hl k (List.mem_cons_of_mem _ hk))
    refine ⟨?_, ?_, ?_⟩
    · rw [h1, List.length_set]
    · intro j
      rw [h2 j]
      by_cases hj : j ∈ l
      · simp only [hj, if_true, List.mem_cons, or_true]
      · by_cases hji : j = i
        · subst hji
          simp only [hj, if_false, List.mem_cons, true_or, if_true]
          rw [getD_set _ _ _ _ hi, if_pos rfl]
        · simp only [hj, if_false, List.mem_cons, hji, false_or]
          rw [getD_set _ _ _ _ hi, if_neg hji]
    · rw [h3]
      simp only [List.map_cons, List.append_assoc, List.singleton_append]

theorem HBondRvol.writeDensityR_eq_vol (p : Params) (M : MathLib) (nFrames : Int) (s : Slices)
    (binvol : List Double) (hb : binvol.length = s.sliceQ.length) :
    HBondRvol.writeDensityR p M nFrames s binvol =
      ((List.range s.sliceQ.length).map (HBondRvol.shellVolume p M),
        (List.range s.sliceQ.length).map (HBondRvol.reportRow p M nFrames s)) := by
  obtain ⟨h1, h2, h3⟩ := HBondRvol.writeDensityR_fold_vol p M nFrames s
    (List.range s.sliceQ.length) (binvol, [])
    (fun i hi => by rw [hb]; exact List.mem_range.mp hi)
  unfold HBondRvol.writeDensityR
  refine Prod.ext ?_ (by rw [h3]; rfl)
  apply List.ext_getElem (by rw [h1]; simp [hb])
  intro j hj1 hj2
  have hj : j < s.sliceQ.length := by simpa using hj2
  have := h2 j
  rw [List.getD_eq_getElem _ _ hj1, if_pos (List.mem_range.mpr hj)] at this
  rw [this]
  simp

/-! ### The whole run -/

theorem HBondR.deposit_length {p : Params} {r : Double} {v : Int} {s s1 : Slices}
    (h : HBondR.deposit p r v s = some s1) :
    s1.sliceQ.length = s.sliceQ.length ∧ s1.sliceCount.length = s.sliceCount.length := by
  rw [HBondR.deposit_eq_some_iff] at h
  obtain ⟨b, _, hq, hk⟩ := h
  exact ⟨addAt_length hq, addAt_length hk⟩

theorem depositAll_length (p : Params) :
    ∀ (es : List (Double × Int)) (s s1 : Slices), depositAll p es s = some s1 →
      s1.sliceQ.length = s.sliceQ.length ∧ s1.sliceCount.length = s.sliceCount.length := by
  intro es
  induction es with
  | nil =>
    intro s s1 h
    rw [depositAll_nil] at h
    cases h
    exact ⟨rfl, rfl⟩
  | cons e es ih =>
    intro s s1 h
    rw [depositAll_cons] at h
    cases hd : HBondR.deposit p e.1 e.2 s with
    | none => rw [hd] at h; cases h
    | some s2 =>
      rw [hd] at h
      obtain ⟨h1, h2⟩ := ih s2 s1 h
      obtain ⟨h3, h4⟩ := HBondR.deposit_length hd
      exact ⟨h1.trans h3, h2.trans h4⟩

theorem HBondR.frameBody_fst (p : Params) (M : MathLib) (reader : DumpReader) (i : Int)
    (st : Slices × List (List (Double × Double))) :
    (HBondR.frameBody p M reader i st).map Prod.fst =
      depositAll p (HBondR.frameEvents p M (reader.readFrame i)) st.1 := by
  unfold HBondR.frameBody
  rw [HBondR.processFrame_eq]
  cases depositAll p (HBondR.frameEvents p M (reader.readFrame i)) st.1 <;> rfl

theorem HBondRvol.frameBody_fst_vol (p : Params) (M : MathLib) (reader : DumpReader) (i : Int)
    (st : Slices × List Double × List (List (Double × Double))) :
    (HBondRvol.frameBody p M reader i st).map Prod.fst =
      depositAll p (HBondRvol.frameEvents p M (reader.readFrame i)) st.1 := by
  unfold HBondRvol.frameBody
  rw [HBondRvol.processFrame_eq_vol]
  cases depositAll p (HBondRvol.frameEvents p M (reader.readFrame i)) st.1 <;> rfl

/-- The accumulators after the frames `l` of variant A: the deposits of the
frames, made in order. -/
theorem HBondR.frames_fst (p : Params) (M : MathLib) (reader : DumpReader) (l : List Int)
    (st : Slices × List (List (Double × Double))) :
    (l.foldlM (fun st i => HBondR.frameBody p M reader i st) st).map Prod.fst =
      depositAll p (l.flatMap (fun i => HBondR.frameEvents p M (reader.readFrame i))) st.1 := by
  rw [← depositAll_flatMap]
  exact foldlM_fst _ _ (fun st i => HBondR.frameBody_fst p M reader i st) l st

theorem HBondRvol.frames_fst_vol (p : Params) (M : MathLib) (reader : DumpReader) (l : List Int)
    (st : Slices × List Double × List (List (Double × Double))) :
    (l.foldlM (fun st i => HBondRvol.frameBody p M reader i st) st).map Prod.fst =
      depositAll p (l.flatMap (fun i => HBondRvol.frameEvents p M (reader.readFrame i))) st.1 := by
  rw [← depositAll_flatMap]
  exact foldlM_fst _ _ (fun st i => HBondRvol.frameBody_fst_vol p M reader i st) l st

/-- The reports of variant A: one per frame, the last one written from the
final accumulators. -/
theorem HBondR.frames_reports (p : Params) (M : MathLib) (reader : DumpReader) :
    ∀ (l : List Int) (st st1 : Slices × List (List (Double × Double))),
      l.foldlM (fun st i => HBondR.frameBody p M reader i st) st = some st1 →
      st1.2.length = st.2.length + l.length ∧
        (l ≠ [] → st1.2.getLast? = some (HBondR.writeDensityR p st1.1)) := by
  intro l
  induction l with
  | nil =>
    intro st st1 h
    simp only [List.foldlM_nil, Option.pure_def, Option.some.injEq] at h
    subst h
    exact ⟨by simp, fun h => absurd rfl h⟩
  | cons i l ih =>
    intro st st1 h
    simp only [List.foldlM_cons, Option.bind_eq_bind] at h
    cases hb : HBondR.frameBody p M reader i st with
    | none => rw [hb] at h; cases h
    | some st2 =>
      rw [hb] at h
      simp only [Option.some_bind] at h
      obtain ⟨h1, h2⟩ := ih st2 st1 h
      have hst2 : st2.2 = st.2 ++ [HBondR.writeDensityR p st2.1] := by
        unfold HBondR.frameBody at hb
        cases hp : HBondR.processFrame p M (reader.readFrame i) st.1 with
        | none => rw [hp] at hb; cases hb
        | some s1 =>
          rw [hp] at hb
          simp only [Option.some.injEq] at hb
          subst hb
          rfl
      refine ⟨?_, fun _ => ?_⟩
      · rw [h1, hst2]; simp; omega
      · by_cases hl : l = []
        · subst hl
          simp only [List.foldlM_nil, Option.pure_def, Option.some.injEq] at h
          subst h
          rw [hst2]; simp
        · exact h2 hl

/-- The reports of variant B: one per frame, the last one written from the
final accumulators; after a frame the array `binvol_` holds the shell volumes. -/
theorem HBondRvol.frames_reports_vol (p : Params) (M : MathLib) (reader : DumpReader) :
    ∀ (l : List Int)
      (st st1 : Slices × List Double × List (List (Double × Double))),
      st.2.1.length = st.1.sliceQ.length →
      l.foldlM (fun st i => HBondRvol.frameBody p M reader i st) st = some st1 →
      st1.2.1.length = st1.1.sliceQ.length ∧
      st1.2.2.length = st.2.2.length + l.length ∧
        (l ≠ [] →
          st1.2.1 = (List.range st1.1.sliceQ.length).map (HBondRvol.shellVolume p M) ∧
          st1.2.2.getLast? = some ((List.range st1.1.sliceQ.length).map
            (HBondRvol.reportRow p M reader.nFrames st1.1))) := by
  intro l
  induction l with
  | nil =>
    intro st st1 hlen h
    simp only [List.foldlM_nil, Option.pure_def, Option.some.injEq] at h
    subst h
    exact ⟨hlen, by simp, fun h => absurd rfl h⟩
  | cons i l ih =>
    intro st st1 hlen h
    simp only [List.foldlM_cons, Option.bind_eq_bind] at h
    cases hb : HBondRvol.frameBody p M reader i st with
    | none => rw [hb] at h; cases h
    | some st2 =>
      rw [hb] at h
      simp only [Option.some_bind] at h
      have hst2 : st2.2.1 = (List.range st2.1.sliceQ.length).map (HBondRvol.shellVolume p M) ∧
          st2.2.2 = st.2.2 ++ [(List.range st2.1.sliceQ.length).map
            (HBondRvol.reportRow p M reader.nFrames st2.1)] := by
        unfold HBondRvol.frameBody at hb
        cases hp : HBondRvol.processFrame p M (reader.readFrame i) st.1 with
        | none => rw [hp] at hb; cases hb
        | some s1 =>
          rw [hp] at hb
          simp only [Option.some.injEq] at hb
          subst hb
          rw [HBondRvol.processFrame_eq_vol] at hp
          have hl1 := (depositAll_length p _ _ _ hp).1
          rw [HBondRvol.writeDensityR_eq_vol p M reader.nFrames s1 st.2.1 (hlen.trans hl1.symm)]
          exact ⟨rfl, rfl⟩
      have hlen2 : st2.2.1.length = st2.1.sliceQ.length := by rw [hst2.1]; simp
      obtain ⟨h0, h1, h2⟩ := ih st2 st1 hlen2 h
      refine ⟨h0, ?_, fun _ => ?_⟩
      · rw [h1, hst2.2]; simp; omega
      · by_cases hl : l = []
        · subst hl
          simp only [List.foldlM_nil, Option.pure_def, Option.some.injEq] at h
          subst h
          refine ⟨hst2.1, ?_⟩
          rw [hst2.2]; simp
        · exact h2 hl

/-- The run of variant A with all deposits in range: the loop runs to its end;
the accumulators are those of the deposits of the visited frames made in
order; one report per visited frame, the last one from the final state. -/
theorem HBondR.process_spec (self : HBondR) (M : MathLib) (reader : DumpReader) (fuel n : Nat)
    (hstep : 1 ≤ self.step) (hfuel : reader.nFrames.toNat ≤ fuel)
    (hs : self.toSlices.Sized n)
    (hr : ∀ i ∈ visitedFrames reader.nFrames self.step,
      ∀ e ∈ HBondR.frameEvents self.toParams M (reader.readFrame i),
        InRange self.deltaR n e.1) :
    ∃ s out, self.process M reader fuel = Outcome.finished (s, out) ∧
      depositAll self.toParams ((visitedFrames reader.nFrames self.step).flatMap
        (fun i => HBondR.frameEvents self.toParams M (reader.readFrame i))) self.toSlices =
          some s ∧
      s.Sized n ∧
      out.length = (visitedFrames reader.nFrames self.step).length ∧
      (visitedFrames reader.nFrames self.step ≠ [] →
        out.getLast? = some (HBondR.writeDensityR self.toParams s)) := by
  obtain ⟨s, hd, hz, _⟩ := depositAll_spec self.toParams n
    ((visitedFrames reader.nFrames self.step).flatMap
      (fun i => HBondR.frameEvents self.toParams M (reader.readFrame i))) self.toSlices hs
    (fun e he => by
      obtain ⟨i, hi, hei⟩ := List.mem_flatMap.mp he
      exact hr i hi e hei)
  have hf := HBondR.frames_fst self.toParams M reader (visitedFrames reader.nFrames self.step)
    (self.toSlices, [])
  rw [hd] at hf
  cases hfold : (visitedFrames reader.nFrames self.step).foldlM
      (fun st i => HBondR.frameBody self.toParams M reader i st) (self.toSlices, []) with
  | none => rw [hfold] at hf; cases hf
  | some st1 =>
    rw [hfold] at hf
    simp only [Option.map_some', Option.some.injEq] at hf
    obtain ⟨h1, h2⟩ := HBondR.frames_reports self.toParams M reader _ _ _ hfold
    refine ⟨st1.1, st1.2, ?_, by rw [hf]; exact hd, by rw [hf]; exact hz, by simpa using h1, h2⟩
    unfold HBondR.process
    rw [strideLoop_eq_foldlM _ _ _ hstep fuel 0 _
      (le_trans (frameCount_le reader.nFrames self.step hstep) hfuel)]
    unfold visitedFrames at hfold
    rw [hfold]

/-- The run of variant B with all deposits in range. -/
theorem HBondRvol.process_spec_vol (self : HBondRvol) (M : MathLib) (reader : DumpReader)
    (fuel n : Nat) (hstep : 1 ≤ self.step) (hfuel : reader.nFrames.toNat ≤ fuel)
    (hs : self.toSlices.Sized n) (hb : self.binvol.length = n)
    (hr : ∀ i ∈ visitedFrames reader.nFrames self.step,
      ∀ e ∈ HBondRvol.frameEvents self.toParams M (reader.readFrame i),
        InRange self.deltaR n e.1) :
    ∃ s binvol out, self.process M reader fuel = Outcome.finished (s, binvol, out) ∧
      depositAll self.toParams ((visitedFrames reader.nFrames self.step).flatMap
        (fun i => HBondRvol.frameEvents self.toParams M (reader.readFrame i))) self.toSlices =
          some s ∧
      s.Sized n ∧
      out.length = (visitedFrames reader.nFrames self.step).length ∧
      (visitedFrames reader.nFrames self.step ≠ [] →
        binvol = (List.range n).map (HBondRvol.shellVolume self.toParams M) ∧
        out.getLast? = some ((List.range n).map
          (HBondRvol.reportRow self.toParams M reader.nFrames s))) := by
  obtain ⟨s, hd, hz, _⟩ := depositAll_spec self.toParams n
    ((visitedFrames reader.nFrames self.step).flatMap
      (fun i => HBondRvol.frameEvents self.toParams M (reader.readFrame i))) self.toSlices hs
    (fun e he => by
      obtain ⟨i, hi, hei⟩ := List.mem_flatMap.mp he
      exact hr i hi e hei)
  have hf := HBondRvol.frames_fst_vol self.toParams M reader
    (visitedFrames reader.nFrames self.step) (self.toSlices, self.binvol, [])
  rw [hd] at hf
  cases hfold : (visitedFrames reader.nFrames self.step).foldlM
      (fun st i => HBondRvol.frameBody self.toParams M reader i st)
      (self.toSlices, self.binvol, []) with
  | none => rw [hfold] at hf; cases hf
  | some st1 =>
    rw [hfold] at hf
    simp only [Option.map_some', Option.some.injEq] at hf
    obtain ⟨_, h1, h2⟩ := HBondRvol.frames_reports_vol self.toParams M reader _ _ _
      (by rw [hb, hs.1]) hfold
    have hn : st1.1.sliceQ.length = n := by rw [hf]; exact hz.1
    rw [hn] at h2
    refine ⟨st1.1, st1.2.1, st1.2.2, ?_, by rw [hf]; exact hd, by rw [hf]; exact hz,
      by simpa using h1, h2⟩
    unfold HBondRvol.process
    rw [strideLoop_eq_foldlM _ _ _ hstep fuel 0 _
      (le_trans (frameCount_le reader.nFrames self.step hstep) hfuel)]
    unfold visitedFrames at hfold
    rw [hfold]

/-! ### The counters of variant A -/

theorem Counts.ext_iff3 (c d : Counts) (h1 : c.nHB = d.nHB) (h2 : c.nA = d.nA)
    (h3 : c.nD = d.nD) : c = d := by
  cases c; cases d; simp only at h1 h2 h3; subst h1 h2 h3; rfl

theorem HBondR.donorInner_eq (q : Atom → Bool) :
    ∀ (l : List Atom) (c : Counts),
      l.foldl (fun c hba2 =>
        if q hba2 = true then { c with nHB := c.nHB + 1, nD := c.nD + 1 } else c) c =
        ⟨c.nHB + (l.countP q : Nat), c.nA, c.nD + (l.countP q : Nat)⟩ := by
  intro l
  induction l with
  | nil => intro c; simp
  | cons a l ih =>
    intro c
    rw [List.foldl_cons, ih, List.countP_cons]
    by_cases h : q a = true
    · simp only [h, if_true]
      apply Counts.ext_iff3 <;> simp <;> ring
    · simp only [h, if_false]
      apply Counts.ext_iff3 <;> simp

theorem HBondR.acceptorInner_eq (q : HBondDonor → Bool) :
    ∀ (l : List HBondDonor) (c : Counts),
      l.foldl (fun c hbd2 =>
        if q hbd2 = true then { c with nHB := c.nHB + 1, nA := c.nA + 1 } else c) c =
        ⟨c.nHB + (l.countP q : Nat), c.nA + (l.countP q : Nat), c.nD⟩ := by
  intro l
  induction l with
  | nil => intro c; simp
  | cons a l ih =>
    intro c
    rw [List.foldl_cons, ih, List.countP_cons]
    by_cases h : q a = true
    · simp only [h, if_true]
      apply Counts.ext_iff3 <;> simp <;> ring
    · simp only [h, if_false]
      apply Counts.ext_iff3 <;> simp

/-- The donor-role sweep of variant A adds the number of its confirmed tests
to `nHB` and to `nD`. -/
theorem HBondR.donorSweep_eq (p : Params) (M : MathLib) (wrap : Vector3d → Vector3d)
    (mol1 mol2 : Molecule) (c : Counts) :
    HBondR.donorSweep p M wrap mol1 mol2 c =
      ⟨c.nHB + (donorMatches M wrap p.rCut p.thetaCut mol1 mol2 : Nat), c.nA,
        c.nD + (donorMatches M wrap p.rCut p.thetaCut mol1 mol2 : Nat)⟩ := by
  unfold HBondR.donorSweep donorMatches
  generalize mol1.hbondDonors = l
  induction l generalizing c with
  | nil => simp
  | cons d l ih =>
    rw [List.foldl_cons]
    have := HBondR.donorInner_eq (fun a => donorRoleTest M wrap p.rCut p.thetaCut d a)
      mol2.hbondAcceptors c
    simp only [donorRoleTest] at this
    simp only [this]
    rw [ih]
    apply Counts.ext_iff3 <;> simp [donorRoleTest] <;> ring

/-- The acceptor-role sweep of variant A adds the number of its confirmed tests
to `nHB` and to `nA`. -/
theorem HBondR.acceptorSweep_eq (p : Params) (M : MathLib) (wrap : Vector3d → Vector3d)
    (mol1 mol2 : Molecule) (c : Counts) :
    HBondR.acceptorSweep p M wrap mol1 mol2 c =
      ⟨c.nHB + (acceptorMatches M wrap p.rCut p.thetaCut mol1 mol2 : Nat),
        c.nA + (acceptorMatches M wrap p.rCut p.thetaCut mol1 mol2 : Nat), c.nD⟩ := by
  unfold HBondR.acceptorSweep acceptorMatches
  generalize mol1.hbondAcceptors = l
  induction l generalizing c with
  | nil => simp
  | cons a l ih =>
    rw [List.foldl_cons]
    have := HBondR.acceptorInner_eq (fun d => acceptorRoleTest M wrap p.rCut p.thetaCut a d)
      mol2.hbondDonors c
    simp only [acceptorRoleTest] at this
    simp only [this]
    rw [ih]
    apply Counts.ext_iff3 <;> simp [acceptorRoleTest] <;> ring

theorem HBondR.scanFold_eq (p : Params) (M : MathLib) (wrap : Vector3d → Vector3d)
    (mol1 : Molecule) :
    ∀ (l : List Molecule) (c : Counts),
      l.foldl (fun c mol2 =>
        HBondR.acceptorSweep p M wrap mol1 mol2 (HBondR.donorSweep p M wrap mol1 mol2 c)) c =
        ⟨c.nHB + ((l.map (fun mol2 => donorMatches M wrap p.rCut p.thetaCut mol1 mol2 +
            acceptorMatches M wrap p.rCut p.thetaCut mol1 mol2)).sum : Nat),
          c.nA + ((l.map (fun mol2 =>
            acceptorMatches M wrap p.rCut p.thetaCut mol1 mol2)).sum : Nat),
          c.nD + ((l.map (fun mol2 =>
            donorMatches M wrap p.rCut p.thetaCut mol1 mol2)).sum : Nat)⟩ := by
  intro l
  induction l with
  | nil => intro c; simp
  | cons m l ih =>
    intro c
    rw [List.foldl_cons, ih, HBondR.acceptorSweep_eq, HBondR.donorSweep_eq]
    apply Counts.ext_iff3 <;> simp <;> ring

/-- The counters of a central molecule of variant A after the loop over
selection 2. -/
theorem HBondR.scanMolecule_eq (p : Params) (M : MathLib) (f : Frame) (mol1 : Molecule) :
    HBondR.scanMolecule p M f mol1 =
      ⟨(moleculeMatches M p.rCut p.thetaCut f mol1 : Nat),
        ((f.sele2.map (fun mol2 =>
          acceptorMatches M f.wrapVector p.rCut p.thetaCut mol1 mol2)).sum : Nat),
        ((f.sele2.map (fun mol2 =>
          donorMatches M f.wrapVector p.rCut p.thetaCut mol1 mol2)).sum : Nat)⟩ := by
  unfold HBondR.scanMolecule moleculeMatches
  rw [HBondR.scanFold_eq]
  apply Counts.ext_iff3 <;> simp

theorem moleculeMatches_eq_add (M : MathLib) (rCut thetaCut : RealType) (f : Frame)
    (mol1 : Molecule) :
    moleculeMatches M rCut thetaCut f mol1 =
      (f.sele2.map (fun mol2 => donorMatches M f.wrapVector rCut thetaCut mol1 mol2)).sum +
        (f.sele2.map (fun mol2 => acceptorMatches M f.wrapVector rCut thetaCut mol1 mol2)).sum := by
  unfold moleculeMatches
  exact List.sum_map_add

/-! ### Conservation (C3, C4) -/

theorem depositAll_facts (p : Params) (n : Nat) (es : List (Double × Int)) (s s1 : Slices)
    (hs : s.Sized n) (hr : ∀ e ∈ es, InRange p.deltaR n e.1)
    (h : depositAll p es s = some s1) :
    s1.Sized n ∧
      s1.sliceQ.sum = s.sliceQ.sum + (((es.map (fun e => e.2)).sum : Int) : RealType) ∧
      s1.sliceCount.sum = s.sliceCount.sum + (es.length : Int) ∧
      ∀ j : Nat, s1.sliceQ.getD j 0 = s.sliceQ.getD j 0 +
          ((binTotal p.deltaR j es : Int) : RealType) ∧
        s1.sliceCount.getD j 0 = s.sliceCount.getD j 0 + (binHits p.deltaR j es : Int) := by
  obtain ⟨s2, h2, hrest⟩ := depositAll_spec p n es s hs hr
  rw [h] at h2
  cases h2
  exact hrest

theorem HBondR.frameEvents_inRange (p : Params) (M : MathLib) (f : Frame) (n : Nat)
    (h : ∀ mol1 ∈ f.sele1, InRange p.deltaR n (M.length mol1.com)) :
    ∀ e ∈ HBondR.frameEvents p M f, InRange p.deltaR n e.1 := by
  intro e he
  unfold HBondR.frameEvents at he
  obtain ⟨mol1, hm, rfl⟩ := List.mem_map.mp he
  exact h mol1 hm

theorem natCast_sum_map {α : Type} (l : List α) (f : α → Nat) :
    (((l.map f).sum : Nat) : Int) = (l.map (fun a => (f a : Int))).sum := by
  induction l with
  | nil => simp
  | cons a l ih => simp only [List.map_cons, List.sum_cons, Nat.cast_add, ih]

theorem sum_replicate_zero_rat (n : Nat) : (List.replicate n (0 : RealType)).sum = 0 := by
  simp

theorem sum_replicate_zero_int (n : Nat) : (List.replicate n (0 : Int)).sum = 0 := by
  simp

theorem HBondR.new_sized (rCut len thetaCut : RealType) (nrbins : Nat) (step : Int) :
    (HBondR.new rCut len thetaCut nrbins step).toSlices.Sized nrbins := by
  simp [HBondR.new, Slices.Sized]

theorem HBondRvol.new_sized_vol (rCut len thetaCut : RealType) (nrbins : Nat) (step : Int) :
    (HBondRvol.new rCut len thetaCut nrbins step).toSlices.Sized nrbins := by
  simp [HBondRvol.new, Slices.Sized]

/-- C3: variant A conservation.  For a stride `step ≥ 1`, when the radius of the
centre of mass of every selected central molecule of every visited frame falls
in a bin of `[0, nBins)`, `HBondR::process` runs to its end and the sum of
`sliceCount` over all bins is the number of (visited frame, selected central
molecule) pairs, whatever selection 2 and the outcome of the tests. -/
theorem HBondR.sliceCount_conservation (rCut len thetaCut : RealType) (nrbins : Nat)
    (step : Int) (M : MathLib) (reader : DumpReader) (fuel : Nat)
    (hstep : 1 ≤ step) (hfuel : reader.nFrames.toNat ≤ fuel)
    (hrange : ∀ i ∈ visitedFrames reader.nFrames step,
      ∀ mol1 ∈ (reader.readFrame i).sele1,
        InRange
            (Double.div (Double.finite len) (Double.finite (nrbins : RealType)))
                nrbins (M.length mol1.com)) :
    ∃ s out, (HBondR.new rCut len thetaCut nrbins step).process M reader fuel =
        Outcome.finished (s, out) ∧
      s.sliceCount.sum =
        ((visitedFrames reader.nFrames step).map
          (fun i => ((reader.readFrame i).sele1.length : Int))).sum := by
  have hev : ∀ i ∈ visitedFrames reader.nFrames step,
      ∀ e ∈ HBondR.frameEvents (HBondR.new rCut len thetaCut nrbins step).toParams M
        (reader.readFrame i), InRange
            (Double.div (Double.finite len) (Double.finite (nrbins : RealType))) nrbins e.1 :=
    fun i hi => HBondR.frameEvents_inRange _ M _ nrbins (hrange i hi)
  obtain ⟨s, out, hp, hd, _, _, _⟩ := HBondR.process_spec
    (HBondR.new rCut len thetaCut nrbins step) M reader fuel nrbins hstep hfuel
    (HBondR.new_sized rCut len thetaCut nrbins step) hev
  refine ⟨s, out, hp, ?_⟩
  obtain ⟨_, _, hk, _⟩ := depositAll_facts _ nrbins _ _ _
    (HBondR.new_sized rCut len thetaCut nrbins step)
    (fun e he => by
      obtain ⟨i, hi, hei⟩ := List.mem_flatMap.mp he
      exact hev i hi e hei) hd
  rw [hk]
  have h0 : (HBondR.new rCut len thetaCut nrbins step).toSlices.sliceCount.sum = 0 :=
    sum_replicate_zero_int nrbins
  rw [h0, zero_add, List.length_flatMap, natCast_sum_map]
  show (List.map _ (visitedFrames reader.nFrames step)).sum = _
  congr 1
  apply List.map_congr_left
  intro i _
  simp [HBondR.frameEvents]

/-- C3 on a one-frame trajectory with one central molecule at radius `5.25`,
`len = 20`, `nBins = 40`, the lengths rounded as `double`s. -/
theorem HBondR.sliceCount_conservation_witness :
    ∃ s out, (HBondR.new (7 / 2) 20 30 40 1).process doubleMath (exampleReader 1) 1 =
        Outcome.finished (s, out) ∧
      s.sliceCount.sum =
        ((visitedFrames (exampleReader 1).nFrames 1).map
          (fun i => (((exampleReader 1).readFrame i).sele1.length : Int))).sum :=
  HBondR.sliceCount_conservation (7 / 2) 20 30 40 1 doubleMath (exampleReader 1) 1
    (by decide) (by decide)
    (fun i _ mol1 hm => by
      have hm1 : mol1 = exampleCentral := by
        simpa [exampleReader, exampleFrame] using hm
      subst hm1
      exact ⟨10, by decide!, by decide, by decide⟩)

theorem HBondRvol.mem_frameEvents (p : Params) (M : MathLib) (f : Frame)
    (e : Double × Int) (he : e ∈ HBondRvol.frameEvents p M f) :
    e.2 = 1 ∧ ∃ mol1 ∈ f.sele1, ∃ mol2 ∈ f.sele2,
      (∃ d ∈ mol1.hbondDonors, ∃ a ∈ mol2.hbondAcceptors,
        donorRoleTest M f.wrapVector p.rCut p.thetaCut d a = true ∧
          e.1 = M.length d.donatedHydrogen.pos) ∨
      (∃ a ∈ mol1.hbondAcceptors, ∃ d ∈ mol2.hbondDonors,
        acceptorRoleTest M f.wrapVector p.rCut p.thetaCut a d = true ∧
          e.1 = M.length d.donatedHydrogen.pos) := by
  unfold HBondRvol.frameEvents at he
  obtain ⟨mol1, hm1, he⟩ := List.mem_flatMap.mp he
  unfold HBondRvol.moleculeEvents at he
  obtain ⟨mol2, hm2, he⟩ := List.mem_flatMap.mp he
  rcases List.mem_append.mp he with he | he
  · unfold HBondRvol.donorEvents at he
    obtain ⟨d, hd, he⟩ := List.mem_flatMap.mp he
    obtain ⟨a, ha, rfl⟩ := List.mem_map.mp he
    obtain ⟨ha1, ha2⟩ := List.mem_filter.mp ha
    exact ⟨rfl, mol1, hm1, mol2, hm2, Or.inl ⟨d, hd, a, ha1, ha2, rfl⟩⟩
  · unfold HBondRvol.acceptorEvents at he
    obtain ⟨a, ha, he⟩ := List.mem_flatMap.mp he
    obtain ⟨d, hd, rfl⟩ := List.mem_map.mp he
    obtain ⟨hd1, hd2⟩ := List.mem_filter.mp hd
    exact ⟨rfl, mol1, hm1, mol2, hm2, Or.inr ⟨a, ha, d, hd1, hd2, rfl⟩⟩

theorem HBondRvol.frameEvents_inRange_vol (p : Params) (M : MathLib) (f : Frame) (n : Nat)
    (h : HydrogensInRange M p.rCut p.thetaCut p.deltaR n f) :
    ∀ e ∈ HBondRvol.frameEvents p M f, InRange p.deltaR n e.1 := by
  intro e he
  obtain ⟨_, mol1, hm1, mol2, hm2, hcase⟩ := HBondRvol.mem_frameEvents p M f e he
  rcases hcase with ⟨d, hd, a, ha, ht, hr⟩ | ⟨a, ha, d, hd, ht, hr⟩
  · rw [hr]; exact (h mol1 hm1 mol2 hm2).1 d hd a ha ht
  · rw [hr]; exact (h mol1 hm1 mol2 hm2).2 a ha d hd ht

theorem HBondRvol.donorEvents_length (p : Params) (M : MathLib) (wrap : Vector3d → Vector3d)
    (mol1 mol2 : Molecule) :
    (HBondRvol.donorEvents p M wrap mol1 mol2).length =
      donorMatches M wrap p.rCut p.thetaCut mol1 mol2 := by
  unfold HBondRvol.donorEvents donorMatches
  rw [List.length_flatMap]
  congr 1
  apply List.map_congr_left
  intro d _
  simp only [Function.comp, List.length_map, List.countP_eq_length_filter]

theorem HBondRvol.acceptorEvents_length (p : Params) (M : MathLib)
    (wrap : Vector3d → Vector3d) (mol1 mol2 : Molecule) :
    (HBondRvol.acceptorEvents p M wrap mol1 mol2).length =
      acceptorMatches M wrap p.rCut p.thetaCut mol1 mol2 := by
  unfold HBondRvol.acceptorEvents acceptorMatches
  rw [List.length_flatMap]
  congr 1
  apply List.map_congr_left
  intro d _
  simp only [Function.comp, List.length_map, List.countP_eq_length_filter]

theorem HBondRvol.moleculeEvents_length (p : Params) (M : MathLib) (f : Frame)
    (mol1 : Molecule) :
    (HBondRvol.moleculeEvents p M f mol1).length =
      moleculeMatches M p.rCut p.thetaCut f mol1 := by
  unfold HBondRvol.moleculeEvents moleculeMatches
  rw [List.length_flatMap]
  congr 1
  apply List.map_congr_left
  intro mol2 _
  simp only [Function.comp, List.length_append, HBondRvol.donorEvents_length,
    HBondRvol.acceptorEvents_length]

/-- The number of deposits of variant B in a frame is the number of confirmed
matches of the frame. -/
theorem HBondRvol.frameEvents_length (p : Params) (M : MathLib) (f : Frame) :
    (HBondRvol.frameEvents p M f).length = frameMatches M p.rCut p.thetaCut f := by
  unfold HBondRvol.frameEvents frameMatches
  rw [List.length_flatMap]
  congr 1
  apply List.map_congr_left
  intro mol1 _
  simp only [Function.comp, HBondRvol.moleculeEvents_length]

theorem sum_snd_eq_length (es : List (Double × Int)) (h : ∀ e ∈ es, e.2 = 1) :
    (es.map (fun e => e.2)).sum = (es.length : Int) := by
  induction es with
  | nil => simp
  | cons e es ih =>
    simp only [List.map_cons, List.sum_cons, List.length_cons, Nat.cast_add, Nat.cast_one]
    rw [h e (List.mem_cons_self _ _), ih (fun e' he' => h e' (List.mem_cons_of_mem _ he'))]
    ring

theorem HBondRvol.runEvents_length (p : Params) (M : MathLib) (reader : DumpReader)
    (l : List Int) :
    (l.flatMap (fun i => HBondRvol.frameEvents p M (reader.readFrame i))).length =
      (l.map (fun i => frameMatches M p.rCut p.thetaCut (reader.readFrame i))).sum := by
  rw [List.length_flatMap]
  congr 1
  apply List.map_congr_left
  intro i _
  simp only [Function.comp, HBondRvol.frameEvents_length]

theorem HBondRvol.runEvents_snd (p : Params) (M : MathLib) (reader : DumpReader)
    (l : List Int) :
    ∀ e ∈ l.flatMap (fun i => HBondRvol.frameEvents p M (reader.readFrame i)), e.2 = 1 := by
  intro e he
  obtain ⟨i, _, hei⟩ := List.mem_flatMap.mp he
  exact (HBondRvol.mem_frameEvents p M _ e hei).1

/-- C4: variant B conservation.  For a stride `step ≥ 1`, when the radius of the
hydrogen of every confirmed match of every visited frame falls in a bin of
`[0, nBins)`, `HBondRvol::process` runs to its end and the sum of `sliceQ` over
all bins is the number of confirmed matches of the visited frames, donor role
plus acceptor role, each match counted (no deduplication). -/
theorem HBondRvol.sliceQ_conservation (rCut len thetaCut : RealType) (nrbins : Nat)
    (step : Int) (M : MathLib) (reader : DumpReader) (fuel : Nat)
    (hstep : 1 ≤ step) (hfuel : reader.nFrames.toNat ≤ fuel)
    (hrange : ∀ i ∈ visitedFrames reader.nFrames step,
      HydrogensInRange M rCut thetaCut
          (Double.div (Double.finite len) (Double.finite (nrbins : RealType))) nrbins
        (reader.readFrame i)) :
    ∃ s binvol out, (HBondRvol.new rCut len thetaCut nrbins step).process M reader fuel =
        Outcome.finished (s, binvol, out) ∧
      s.sliceQ.sum =
        ((((visitedFrames reader.nFrames step).map
          (fun i => frameMatches M rCut thetaCut (reader.readFrame i))).sum : Nat) :
            RealType) := by
  have hev : ∀ i ∈ visitedFrames reader.nFrames step,
      ∀ e ∈ HBondRvol.frameEvents (HBondRvol.new rCut len thetaCut nrbins step).toParams M
        (reader.readFrame i), InRange
            (Double.div (Double.finite len) (Double.finite (nrbins : RealType))) nrbins e.1 :=
    fun i hi => HBondRvol.frameEvents_inRange_vol _ M _ nrbins (hrange i hi)
  obtain ⟨s, binvol, out, hp, hd, _, _, _⟩ := HBondRvol.process_spec_vol
    (HBondRvol.new rCut len thetaCut nrbins step) M reader fuel nrbins hstep hfuel
    (HBondRvol.new_sized_vol rCut len thetaCut nrbins step) (by simp [HBondRvol.new]) hev
  refine ⟨s, binvol, out, hp, ?_⟩
  obtain ⟨_, hq, _, _⟩ := depositAll_facts _ nrbins _ _ _
    (HBondRvol.new_sized_vol rCut len thetaCut nrbins step)
    (fun e he => by
      obtain ⟨i, hi, hei⟩ := List.mem_flatMap.mp he
      exact hev i hi e hei) hd
  rw [hq, sum_snd_eq_length _ (HBondRvol.runEvents_snd _ M reader _),
    HBondRvol.runEvents_length]
  have h0 : (HBondRvol.new rCut len thetaCut nrbins step).toSlices.sliceQ.sum = 0 :=
    sum_replicate_zero_rat nrbins
  rw [h0, zero_add]
  simp only [Int.cast_natCast]
  rfl

/-- The example donor record and acceptor atom are a confirmed match. -/
theorem exampleTest_eq : donorRoleTest doubleMath id (7 / 2) 30 exampleDonor exampleAcceptor
    = true := by decide!

/-- C4 on a one-frame trajectory with one confirmed match whose hydrogen lies
at radius `5.25`, `len = 20`, `nBins = 40`, the lengths rounded as `double`s. -/
theorem HBondRvol.sliceQ_conservation_witness :
    ∃ s binvol out, (HBondRvol.new (7 / 2) 20 30 40 1).process doubleMath (exampleReader 1) 1 =
        Outcome.finished (s, binvol, out) ∧
      s.sliceQ.sum =
        ((((visitedFrames (exampleReader 1).nFrames 1).map
          (fun i => frameMatches doubleMath (7 / 2) 30 ((exampleReader 1).readFrame i))).sum :
            Nat) : RealType) :=
  HBondRvol.sliceQ_conservation (7 / 2) 20 30 40 1 doubleMath (exampleReader 1) 1
    (by decide) (by decide)
    (fun i _ mol1 hm1 mol2 hm2 => by
      have h1 : mol1 = exampleCentral := by
        simpa [exampleReader, exampleFrame] using hm1
      have h2 : mol2 = examplePartner := by
        simpa [exampleReader, exampleFrame] using hm2
      subst h1 h2
      refine ⟨?_, ?_⟩
      · intro d hd a _ _
        have hd1 : d = exampleDonor := by simpa [exampleCentral] using hd
        subst hd1
        exact ⟨10, by decide!, by decide, by decide⟩
      · intro a ha
        simp [exampleCentral] at ha)

/-! ### Deposited quantity, reports, role symmetry (C5 - C8) -/

theorem intCast_sum_map_nat {α : Type} (l : List α) (f : α → Nat) :
    (((l.map (fun a => ((f a : Nat) : Int))).sum : Int) : RealType) =
      (l.map (fun a => ((f a : Nat) : RealType))).sum := by
  induction l with
  | nil => simp
  | cons a l ih =>
    simp only [List.map_cons, List.sum_cons, Int.cast_add, ih, Int.cast_natCast]

/-- The quantity received by the bin `j` from the deposits of a frame of
variant A. -/
theorem HBondR.binTotal_frameEvents (p : Params) (M : MathLib) (f : Frame) (j : Nat) :
    ((binTotal p.deltaR j (HBondR.frameEvents p M f) : Int) : RealType) =
      ((f.sele1.filter (fun mol1 =>
        decide (binNo (M.length mol1.com) p.deltaR = some (j : Int)))).map
          (fun mol1 => ((moleculeMatches M p.rCut p.thetaCut f mol1 : Nat) : RealType))).sum := by
  unfold binTotal HBondR.frameEvents
  rw [List.filter_map, List.map_map, ← intCast_sum_map_nat]
  congr 2
  apply List.map_congr_left
  intro mol1 _
  simp only [Function.comp, HBondR.scanMolecule_eq]

/-- C5: in variant A, the counters of a central molecule `mol1` after the loop
over selection 2 are the numbers of confirmed tests: `nD` the confirmed (donor
record of `mol1`, acceptor atom of `mol2`) tests and `nA` the confirmed
(acceptor atom of `mol1`, donor record of `mol2`) tests, summed over every
`mol2` of selection 2, and `nHB = nD + nA` their total; and, the radii of the
centres of mass being in range, the frame adds to `sliceQ` at each bin the
totals `nHB` of the central molecules whose centre of mass falls in the bin. -/
theorem HBondR.deposited_quantity (p : Params) (M : MathLib) (f : Frame) (n : Nat)
    (s : Slices) (hs : s.Sized n)
    (hr : ∀ mol1 ∈ f.sele1, InRange p.deltaR n (M.length mol1.com)) :
    (∀ mol1 : Molecule,
      (HBondR.scanMolecule p M f mol1).nHB =
          ((f.sele2.map (fun mol2 =>
            donorMatches M f.wrapVector p.rCut p.thetaCut mol1 mol2 +
              acceptorMatches M f.wrapVector p.rCut p.thetaCut mol1 mol2)).sum : Nat) ∧
        (HBondR.scanMolecule p M f mol1).nD =
          ((f.sele2.map (fun mol2 =>
            donorMatches M f.wrapVector p.rCut p.thetaCut mol1 mol2)).sum : Nat) ∧
        (HBondR.scanMolecule p M f mol1).nA =
          ((f.sele2.map (fun mol2 =>
            acceptorMatches M f.wrapVector p.rCut p.thetaCut mol1 mol2)).sum : Nat) ∧
        (HBondR.scanMolecule p M f mol1).nHB =
          (HBondR.scanMolecule p M f mol1).nD + (HBondR.scanMolecule p M f mol1).nA) ∧
    ∃ s1, HBondR.processFrame p M f s = some s1 ∧
      ∀ j : Nat, s1.sliceQ.getD j 0 = s.sliceQ.getD j 0 +
        ((f.sele1.filter (fun mol1 =>
          decide (binNo (M.length mol1.com) p.deltaR = some (j : Int)))).map
            (fun mol1 => ((moleculeMatches M p.rCut p.thetaCut f mol1 : Nat) : RealType))).sum := by
  refine ⟨fun mol1 => ?_, ?_⟩
  · rw [HBondR.scanMolecule_eq]
    refine ⟨rfl, rfl, rfl, ?_⟩
    show ((moleculeMatches M p.rCut p.thetaCut f mol1 : Nat) : Int) = _
    rw [moleculeMatches_eq_add]
    push_cast
    ring
  · obtain ⟨s1, h1, _, _, _, hp⟩ := depositAll_spec p n (HBondR.frameEvents p M f) s hs
      (HBondR.frameEvents_inRange p M f n hr)
    refine ⟨s1, by rw [HBondR.processFrame_eq]; exact h1, fun j => ?_⟩
    rw [(hp j).1, HBondR.binTotal_frameEvents]

/-- C5 on the example frame: one central molecule at radius `5.25`, one
confirmed donor-role match. -/
theorem HBondR.deposited_quantity_witness :
    (∀ mol1 : Molecule,
      (HBondR.scanMolecule (HBondR.new (7 / 2) 20 30 40 1).toParams doubleMath exampleFrame
          mol1).nHB =
          ((exampleFrame.sele2.map (fun mol2 =>
            donorMatches doubleMath exampleFrame.wrapVector (7 / 2) 30 mol1 mol2 +
              acceptorMatches doubleMath exampleFrame.wrapVector (7 / 2) 30 mol1 mol2)).sum :
                Nat) ∧
        (HBondR.scanMolecule (HBondR.new (7 / 2) 20 30 40 1).toParams doubleMath exampleFrame
          mol1).nD =
          ((exampleFrame.sele2.map (fun mol2 =>
            donorMatches doubleMath exampleFrame.wrapVector (7 / 2) 30 mol1 mol2)).sum : Nat) ∧
        (HBondR.scanMolecule (HBondR.new (7 / 2) 20 30 40 1).toParams doubleMath exampleFrame
          mol1).nA =
          ((exampleFrame.sele2.map (fun mol2 =>
            acceptorMatches doubleMath exampleFrame.wrapVector (7 / 2) 30 mol1 mol2)).sum :
              Nat) ∧
        (HBondR.scanMolecule (HBondR.new (7 / 2) 20 30 40 1).toParams doubleMath exampleFrame
          mol1).nHB =
          (HBondR.scanMolecule (HBondR.new (7 / 2) 20 30 40 1).toParams doubleMath exampleFrame
            mol1).nD +
          (HBondR.scanMolecule (HBondR.new (7 / 2) 20 30 40 1).toParams doubleMath exampleFrame
            mol1).nA) ∧
    ∃ s1, HBondR.processFrame (HBondR.new (7 / 2) 20 30 40 1).toParams doubleMath exampleFrame
        (HBondR.new (7 / 2) 20 30 40 1).toSlices = some s1 ∧
      ∀ j : Nat, s1.sliceQ.getD j 0 =
        (HBondR.new (7 / 2) 20 30 40 1).toSlices.sliceQ.getD j 0 +
        ((exampleFrame.sele1.filter (fun mol1 =>
          decide (binNo (doubleMath.length mol1.com)
            (HBondR.new (7 / 2) 20 30 40 1).toParams.deltaR = some (j : Int)))).map
            (fun mol1 => ((moleculeMatches doubleMath (7 / 2) 30 exampleFrame mol1 : Nat) :
              RealType))).sum :=
  HBondR.deposited_quantity (HBondR.new (7 / 2) 20 30 40 1).toParams doubleMath exampleFrame 40
    (HBondR.new (7 / 2) 20 30 40 1).toSlices (HBondR.new_sized (7 / 2) 20 30 40 1)
    (fun mol1 hm => by
      have hm1 : mol1 = exampleCentral := by simpa [exampleFrame] using hm
      subst hm1
      exact ⟨10, by decide!, by decide, by decide⟩)

/-- C6: `HBondR::writeDensityR` writes, in increasing bin order, one row for
each bin `i` with `sliceCount[i] ≠ 0` and none for a bin with
`sliceCount[i] = 0`; the row of the bin `i` is the radius `(i + 0.5) * deltaR`
and the value `sliceQ[i] / sliceCount[i]`, each computed in `double`
arithmetic. -/
theorem HBondR.writeDensityR_rows (p : Params) (s : Slices) :
    HBondR.writeDensityR p s =
      ((List.range s.sliceQ.length).filter (fun i => decide (s.sliceCount.getD i 0 ≠ 0))).map
        (fun (i : Nat) =>
          (Double.mul (Double.add (Double.finite (i : RealType)) (Double.finite (1 / 2)))
            p.deltaR,
          Double.div (Double.finite (s.sliceQ.getD i 0))
            (Double.finite ((s.sliceCount.getD i 0 : Int) : RealType)))) :=
  HBondR.writeDensityR_eq p s

/-- The call `acos(-1.0)` returns the value of the library arccosine at `-1`. -/
theorem MathLib.acosC_neg_one (M : MathLib) :
    M.acosC (Double.finite (-1)) = Double.finite (M.acos (-1)) := by
  unfold MathLib.acosC
  simp

/-- The shell volume of the bin `i`, spelled out. -/
theorem HBondRvol.shellVolume_eq (p : Params) (M : MathLib) (i : Nat) :
    HBondRvol.shellVolume p M i =
      Double.mul (Double.mul (Double.mul (Double.finite 4) (Double.finite (M.acos (-1))))
        (Double.mul
          (Double.mul (Double.add (Double.finite (i : RealType)) (Double.finite (1 / 2)))
            p.deltaR)
          (Double.mul (Double.add (Double.finite (i : RealType)) (Double.finite (1 / 2)))
            p.deltaR))) p.deltaR := by
  unfold HBondRvol.shellVolume binRadius
  rw [MathLib.acosC_neg_one]

/-- C7: `HBondRvol::writeDensityR`, called with `binvol_` of the size of
`sliceQ_`, writes one row per bin `i` in increasing order, with radius
`(i + 0.5) * deltaR`; it sets `binvol[i]` to
`4 * pi * ((i + 0.5) * deltaR)^2 * deltaR` (`pi` the value of `acos(-1.0)`);
the value of the row is `sliceQ[i] / binvol[i] / nFrames` when `sliceCount[i]`
and `binvol[i]` are both nonzero, and `0` otherwise; every operation is that
of `double` arithmetic, in the order of the source. -/
theorem HBondRvol.writeDensityR_density_rows (p : Params) (M : MathLib) (nFrames : Int) (s : Slices)
    (binvol : List Double) (hb : binvol.length = s.sliceQ.length) :
    (HBondRvol.writeDensityR p M nFrames s binvol).1 =
        (List.range s.sliceQ.length).map (fun (i : Nat) =>
          Double.mul (Double.mul (Double.mul (Double.finite 4) (Double.finite (M.acos (-1))))
            (Double.mul
              (Double.mul (Double.add (Double.finite (i : RealType)) (Double.finite (1 / 2)))
                p.deltaR)
              (Double.mul (Double.add (Double.finite (i : RealType)) (Double.finite (1 / 2)))
                p.deltaR))) p.deltaR) ∧
      (HBondRvol.writeDensityR p M nFrames s binvol).2 =
        (List.range s.sliceQ.length).map (fun (i : Nat) =>
          (Double.mul (Double.add (Double.finite (i : RealType)) (Double.finite (1 / 2)))
            p.deltaR,
            if s.sliceCount.getD i 0 ≠ 0 ∧
                Double.mul (Double.mul (Double.mul (Double.finite 4)
                  (Double.finite (M.acos (-1))))
                  (Double.mul
                    (Double.mul (Double.add (Double.finite (i : RealType))
                      (Double.finite (1 / 2))) p.deltaR)
                    (Double.mul (Double.add (Double.finite (i : RealType))
                      (Double.finite (1 / 2))) p.deltaR))) p.deltaR ≠ 0 then
              Double.div (Double.div (Double.finite (s.sliceQ.getD i 0))
                (Double.mul (Double.mul (Double.mul (Double.finite 4)
                  (Double.finite (M.acos (-1))))
                  (Double.mul
                    (Double.mul (Double.add (Double.finite (i : RealType))
                      (Double.finite (1 / 2))) p.deltaR)
                    (Double.mul (Double.add (Double.finite (i : RealType))
                      (Double.finite (1 / 2))) p.deltaR))) p.deltaR))
                (Double.finite (nFrames : RealType))
            else 0)) ∧
      (HBondRvol.writeDensityR p M nFrames s binvol).2.length = s.sliceQ.length := by
  rw [HBondRvol.writeDensityR_eq_vol p M nFrames s binvol hb]
  refine ⟨?_, ?_, by simp⟩
  · apply List.map_congr_left
    intro i _
    exact HBondRvol.shellVolume_eq p M i
  · apply List.map_congr_left
    intro i _
    unfold HBondRvol.reportRow
    rw [HBondRvol.shellVolume_eq]
    rfl

/-- C7 on the all-zero state of 40 bins, `deltaR = 0.5`, one frame. -/
theorem HBondRvol.writeDensityR_density_rows_witness :
    (HBondRvol.writeDensityR (HBondRvol.new (7 / 2) 20 30 40 1).toParams doubleMath 1
        (HBondRvol.new (7 / 2) 20 30 40 1).toSlices (List.replicate 40 0)).2.length = 40 :=
  (HBondRvol.writeDensityR_density_rows (HBondRvol.new (7 / 2) 20 30 40 1).toParams doubleMath 1
    (HBondRvol.new (7 / 2) 20 30 40 1).toSlices (List.replicate 40 0)
    (by simp [HBondRvol.new])).2.2.trans (by simp [HBondRvol.new])

theorem sum_countP_comm {α β : Type} (q : α → β → Bool) (l : List α) (l' : List β) :
    (l.map (fun a => l'.countP (fun b => q a b))).sum =
      (l'.map (fun b => l.countP (fun a => q a b))).sum := by
  induction l with
  | nil => simp
  | cons a l ih =>
    simp only [List.map_cons, List.sum_cons, ih, List.countP_cons]
    rw [List.sum_map_add, ← sum_map_ite_eq_countP (fun b => q a b) l']
    exact add_comm _ _

/-- The donor-role matches of `X` against `Y` are the acceptor-role matches of
`Y` against `X`. -/
theorem donorMatches_eq_acceptorMatches (M : MathLib) (wrap : Vector3d → Vector3d)
    (rCut thetaCut : RealType) (X Y : Molecule) :
    donorMatches M wrap rCut thetaCut X Y = acceptorMatches M wrap rCut thetaCut Y X := by
  unfold donorMatches acceptorMatches
  simp only [acceptorRoleTest_eq_donorRoleTest]
  exact sum_countP_comm (fun d a => donorRoleTest M wrap rCut thetaCut d a) _ _

/-- C8: role symmetry.  A (donor record of `X`, acceptor atom of `Y`) triple is
confirmed by the donor-role sweep run with `mol1 = X`, `mol2 = Y` if and only
if it is confirmed by the acceptor-role sweep run with `mol1 = Y`, `mol2 = X`
(the two loop bodies take the same decision); hence the donor count of `X`
against `Y` is the acceptor count of `Y` against `X`, both in the number of
confirmed tests and in the counters `nD`, `nA` that the two sweeps of
`HBondR::process` increment. -/
theorem role_symmetry (p : Params) (M : MathLib) (wrap : Vector3d → Vector3d)
    (X Y : Molecule) :
    (∀ (hbd : HBondDonor) (hba : Atom),
      donorRoleConfirms M wrap p.rCut p.thetaCut hbd.donorAtom.pos
          (wrap (hbd.donatedHydrogen.pos - hbd.donorAtom.pos))
          (M.length (wrap (hbd.donatedHydrogen.pos - hbd.donorAtom.pos))) hba =
        acceptorRoleConfirms M wrap p.rCut p.thetaCut hba.pos hbd) ∧
    (∀ (hbd : HBondDonor) (hba : Atom),
      donorRoleTest M wrap p.rCut p.thetaCut hbd hba = true ↔
        acceptorRoleTest M wrap p.rCut p.thetaCut hba hbd = true) ∧
    donorMatches M wrap p.rCut p.thetaCut X Y = acceptorMatches M wrap p.rCut p.thetaCut Y X ∧
    ∀ c c' : Counts, (HBondR.donorSweep p M wrap X Y c).nD - c.nD =
      (HBondR.acceptorSweep p M wrap Y X c').nA - c'.nA := by
  refine ⟨fun hbd hba => ?_, fun hbd hba => ?_, donorMatches_eq_acceptorMatches _ _ _ _ X Y,
    fun c c' => ?_⟩
  · exact (acceptorRoleTest_eq_donorRoleTest M wrap p.rCut p.thetaCut hba hbd).symm
  · rw [acceptorRoleTest_eq_donorRoleTest]
  · rw [HBondR.donorSweep_eq, HBondR.acceptorSweep_eq, donorMatches_eq_acceptorMatches]
    simp

/-! ### End-to-end runs (C9, C10) -/

theorem HBondR.deposit_congr (p p' : Params) (h : p.deltaR = p'.deltaR) (r : Double)
    (v : Int) (s : Slices) : HBondR.deposit p r v s = HBondR.deposit p' r v s := by
  unfold HBondR.deposit
  rw [h]

theorem depositAll_congr (p p' : Params) (h : p.deltaR = p'.deltaR)
    (es : List (Double × Int)) (s : Slices) : depositAll p es s = depositAll p' es s := by
  unfold depositAll
  congr 1
  funext s e
  exact HBondR.deposit_congr p p' h _ _ _

theorem HBondR.writeDensityR_congr (p p' : Params) (h : p.deltaR = p'.deltaR) (s : Slices) :
    HBondR.writeDensityR p s = HBondR.writeDensityR p' s := by
  rw [HBondR.writeDensityR_eq, HBondR.writeDensityR_eq]
  unfold HBondR.reportRow binRadius
  rw [h]

theorem frameCount_one (step : Int) (hs : 1 ≤ step) : frameCount 1 step 0 = 1 := by
  unfold frameCount
  have : (1 - 0 + step - 1 : Int) = step := by ring
  rw [this, Int.ediv_self (by omega)]
  rfl

/-- On a trajectory of one frame the loop runs its body once, at the frame 0. -/
theorem strideLoop_one {σ : Type} (body : Int → σ → Option σ) (step : Int) (hs : 1 ≤ step)
    (fuel : Nat) (hf : 1 ≤ fuel) (s : σ) :
    strideLoop body 1 step fuel 0 s =
      match body 0 s with
      | some r => Outcome.finished r
      | none => Outcome.undefinedBehaviour := by
  rw [strideLoop_eq_foldlM body 1 step hs fuel 0 s (by rw [frameCount_one step hs]; exact hf),
    frameCount_one step hs]
  have hl : framesFrom 0 step 1 = [0] := by
    rw [framesFrom_succ]
    rfl
  rw [hl]
  simp only [List.foldlM_cons, List.foldlM_nil, Option.bind_eq_bind]
  cases body 0 s <;> rfl

theorem getD_set_replicate {α : Type} [Zero α] (n k j : Nat) (v : α) (hk : k < n) :
    ((List.replicate n (0 : α)).set k v).getD j 0 = if j = k then v else 0 := by
  simp only [List.getD_eq_getElem?_getD, List.getElem?_set, List.length_replicate,
    List.getElem?_replicate]
  by_cases h : j = k
  · subst h; simp [hk]
  · simp only [Ne.symm h, if_false, h]
    split <;> rfl

theorem depositAll_example (p : Params) (h : p.deltaR = Double.finite (1 / 2)) :
    depositAll p [(Double.finite (21 / 4), 1)] ⟨List.replicate 40 0, List.replicate 40 0⟩ =
      some exampleFinal := by
  rw [depositAll_congr p ⟨0, 0, 0, 0, Double.finite (1 / 2), 0⟩ h]
  decide!

theorem HBondR.writeDensityR_example (p : Params) (h : p.deltaR = Double.finite (1 / 2)) :
    HBondR.writeDensityR p exampleFinal = [(Double.finite (21 / 4), Double.finite 1)] := by
  rw [HBondR.writeDensityR_congr p ⟨0, 0, 0, 0, Double.finite (1 / 2), 0⟩ h]
  decide!

/-- The quotient `20 / 40` is computed exactly. -/
theorem deltaR_example :
    Double.div (Double.finite 20) (Double.finite ((40 : Nat) : RealType)) =
      Double.finite (1 / 2) := by decide!

theorem new_deltaR_example (rCut thetaCut : RealType) (step : Int) :
    (HBondR.new rCut 20 thetaCut 40 step).deltaR = Double.finite (1 / 2) :=
  deltaR_example

theorem new_deltaR_example_vol (rCut thetaCut : RealType) (step : Int) :
    (HBondRvol.new rCut 20 thetaCut 40 step).deltaR = Double.finite (1 / 2) :=
  deltaR_example

/-- An angle within a millionth of a degree of `10` is below the cutoff `30`. -/
theorem angle_lt_cut (t : RealType) (ht : |t - 10| ≤ 1 / 1000000) :
    Double.lt (Double.finite t) (Double.finite 30) = true := by
  have h := (abs_le.mp ht).2
  simp only [Double.lt, decide_eq_true_eq]
  linarith

/-- C9: end-to-end, variant A.  With `rCut = 3.5`, `thetaCut = 30`, `len = 20`,
`nBins = 40`, a trajectory of one frame, one central molecule with one donor
record and no acceptor, one partner molecule with one acceptor and no donor,
the computed donor-acceptor distance `3`, the computed angle `10` degrees to
within a millionth of a degree, and the centre of mass of the central molecule
at the computed radius `5.25`, `HBondR::process` runs to its end with `1` in
`sliceQ[10]` and in `sliceCount[10]` and `0` elsewhere, and writes one report,
of the single row `5.25 <tab> 1` (`5.25` the radius of the bin 10). -/
theorem HBondR.end_to_end (M : MathLib) (wrap : Vector3d → Vector3d)
    (D H A com com2 : Vector3d) (sele3 : List Molecule) (step : Int) (fuel : Nat)
    (t : RealType) (hstep : 1 ≤ step) (hfuel : 1 ≤ fuel)
    (hdist : M.length (wrap (A - D)) = Double.finite 3)
    (hangle : M.thetaOf (cosTheta M wrap D H A) = Double.finite t)
    (ht : |t - 10| ≤ 1 / 1000000)
    (hcom : M.length com = Double.finite (21 / 4)) :
    (HBondR.new (7 / 2) 20 30 40 step).process M
        ⟨1, fun _ => ⟨wrap, [⟨com, [⟨⟨D⟩, ⟨H⟩⟩], []⟩], [⟨com2, [], [⟨A⟩]⟩], sele3⟩⟩ fuel =
      Outcome.finished (⟨(List.replicate 40 0).set 10 1, (List.replicate 40 0).set 10 1⟩,
        [[(Double.finite (21 / 4), Double.finite 1)]]) ∧
    binRadius (HBondR.new (7 / 2) 20 30 40 step).toParams 10 = Double.finite (21 / 4) := by
  have htest : donorRoleTest M wrap (7 / 2) 30 ⟨⟨D⟩, ⟨H⟩⟩ ⟨A⟩ = true := by
    rw [donorRoleTest_eq, hdist, hangle, angle_lt_cut t ht]
    decide!
  have hd := new_deltaR_example (7 / 2) 30 step
  refine ⟨?_, by unfold binRadius; rw [hd]; decide!⟩
  unfold HBondR.process
  have hst : (HBondR.new (7 / 2) 20 30 40 step).step = step := rfl
  rw [hst]
  show strideLoop _ 1 step fuel 0 _ = _
  rw [strideLoop_one _ step hstep fuel hfuel]
  have hev : HBondR.frameEvents (HBondR.new (7 / 2) 20 30 40 step).toParams M
      ⟨wrap, [⟨com, [⟨⟨D⟩, ⟨H⟩⟩], []⟩], [⟨com2, [], [⟨A⟩]⟩], sele3⟩ =
      [(Double.finite (21 / 4), 1)] := by
    simp only [HBondR.frameEvents, List.map_cons, List.map_nil, HBondR.scanMolecule_eq, hcom]
    have : moleculeMatches M (HBondR.new (7 / 2) 20 30 40 step).toParams.rCut
        (HBondR.new (7 / 2) 20 30 40 step).toParams.thetaCut
        ⟨wrap, [⟨com, [⟨⟨D⟩, ⟨H⟩⟩], []⟩], [⟨com2, [], [⟨A⟩]⟩], sele3⟩
        ⟨com, [⟨⟨D⟩, ⟨H⟩⟩], []⟩ = 1 := by
      show moleculeMatches M (7 / 2) 30 _ _ = 1
      simp [moleculeMatches, donorMatches, acceptorMatches, htest]
    rw [this]
    rfl
  have hproc : HBondR.processFrame (HBondR.new (7 / 2) 20 30 40 step).toParams M
      ⟨wrap, [⟨com, [⟨⟨D⟩, ⟨H⟩⟩], []⟩], [⟨com2, [], [⟨A⟩]⟩], sele3⟩
      (HBondR.new (7 / 2) 20 30 40 step).toSlices = some exampleFinal := by
    rw [HBondR.processFrame_eq, hev]
    exact depositAll_example _ hd
  simp only [HBondR.frameBody, hproc, HBondR.writeDensityR_example _ hd, List.nil_append]
  rfl

theorem exampleDist_eq : doubleMath.length (id (exampleAcceptor.pos - exampleDonor.donorAtom.pos))
    = Double.finite 3 := by decide!

/-- The angle that binary64 arithmetic computes on the example triple:
`10.000000000020673` degrees. -/
theorem exampleAngle_eq :
    doubleMath.thetaOf (cosTheta doubleMath id exampleDonor.donorAtom.pos
      exampleDonor.donatedHydrogen.pos exampleAcceptor.pos) =
        Double.finite (2814749767112379 / 281474976710656) := by decide!

theorem exampleAngle_near : |(2814749767112379 / 281474976710656 : RealType) - 10| ≤
    1 / 1000000 := by
  rw [abs_le]
  constructor <;> norm_num

theorem exampleCom_eq : doubleMath.length exampleCentral.com = Double.finite (21 / 4) := by
  decide!

theorem exampleHydrogen_eq :
    doubleMath.length exampleDonor.donatedHydrogen.pos = Double.finite (21 / 4) := by
  decide!

/-- C9 on the example frame, in binary64 arithmetic: the donor at
`(4.25, -y, 0)`, the hydrogen at `(5.25, 0, 0)`, the acceptor at
`(7.25, -y, 0)`, `y = 0.17632698070883635`; the computed distance is `3`, the
computed angle `10.000000000020673` degrees. -/
theorem HBondR.end_to_end_witness :
    (HBondR.new (7 / 2) 20 30 40 1).process doubleMath
        ⟨1, fun _ => ⟨id, [⟨exampleCentral.com, [⟨⟨exampleDonor.donorAtom.pos⟩,
          ⟨exampleDonor.donatedHydrogen.pos⟩⟩], []⟩],
          [⟨examplePartner.com, [], [⟨exampleAcceptor.pos⟩]⟩], []⟩⟩ 1 =
      Outcome.finished (⟨(List.replicate 40 0).set 10 1, (List.replicate 40 0).set 10 1⟩,
        [[(Double.finite (21 / 4), Double.finite 1)]]) ∧
    binRadius (HBondR.new (7 / 2) 20 30 40 1).toParams 10 = Double.finite (21 / 4) :=
  HBondR.end_to_end doubleMath id exampleDonor.donorAtom.pos exampleDonor.donatedHydrogen.pos
    exampleAcceptor.pos exampleCentral.com examplePartner.com [] 1 1
    (2814749767112379 / 281474976710656) (by decide) (by decide)
    exampleDist_eq exampleAngle_eq exampleAngle_near exampleCom_eq

theorem exampleFinal_count (j : Nat) :
    exampleFinal.sliceCount.getD j 0 = if j = 10 then 1 else 0 :=
  getD_set_replicate 40 10 j 1 (by decide)

theorem exampleFinal_q (j : Nat) :
    exampleFinal.sliceQ.getD j 0 = if j = 10 then 1 else 0 :=
  getD_set_replicate 40 10 j 1 (by decide)

/-- The radius of the bin 10 of width `0.5` is computed exactly. -/
theorem binRadius_example (p : Params) (h : p.deltaR = Double.finite (1 / 2)) :
    binRadius p 10 = Double.finite (21 / 4) := by
  unfold binRadius
  rw [h]
  decide!

/-- C10: end-to-end, variant B.  With `rCut = 3.5`, `thetaCut = 30`, `len = 20`,
`nBins = 40`, a trajectory of one frame, one central molecule with one donor
record and no acceptor, one partner molecule with one acceptor and no donor,
the computed donor-acceptor distance `3`, the computed angle `10` degrees to
within a millionth of a degree and the donated hydrogen at the computed radius
`5.25` (and the shell volume of the bin 10 computed nonzero),
`HBondRvol::process` runs to its end with `1` in `sliceQ[10]` and in
`sliceCount[10]` and `0` elsewhere, and writes one report of 40 rows, the row
of the bin `i` holding the radius `(i + 0.5) * 0.5` and the value
`1 / (4 * pi * 5.25^2 * 0.5) / 1` for `i = 10`, `0` for every other bin, each
operation that of `double` arithmetic with `pi = acos(-1.0)`. -/
theorem HBondRvol.end_to_end_density (M : MathLib) (wrap : Vector3d → Vector3d)
    (D H A com com2 : Vector3d) (sele3 : List Molecule) (step : Int) (fuel : Nat)
    (t : RealType) (hstep : 1 ≤ step) (hfuel : 1 ≤ fuel)
    (hdist : M.length (wrap (A - D)) = Double.finite 3)
    (hangle : M.thetaOf (cosTheta M wrap D H A) = Double.finite t)
    (ht : |t - 10| ≤ 1 / 1000000)
    (hH : M.length H = Double.finite (21 / 4))
    (hvol : Double.mul (Double.mul (Double.mul (Double.finite 4) (Double.finite (M.acos (-1))))
      (Double.mul (Double.finite (21 / 4)) (Double.finite (21 / 4)))) (Double.finite (1 / 2)) ≠
        0) :
    ∃ binvol, (HBondRvol.new (7 / 2) 20 30 40 step).process M
        ⟨1, fun _ => ⟨wrap, [⟨com, [⟨⟨D⟩, ⟨H⟩⟩], []⟩], [⟨com2, [], [⟨A⟩]⟩], sele3⟩⟩ fuel =
      Outcome.finished (⟨(List.replicate 40 0).set 10 1, (List.replicate 40 0).set 10 1⟩,
        binvol,
        [(List.range 40).map (fun (i : Nat) =>
          (Double.mul (Double.add (Double.finite (i : RealType)) (Double.finite (1 / 2)))
            (Double.finite (1 / 2)),
          if i = 10 then
            Double.div (Double.div (Double.finite 1)
              (Double.mul (Double.mul (Double.mul (Double.finite 4)
                (Double.finite (M.acos (-1))))
                (Double.mul (Double.finite (21 / 4)) (Double.finite (21 / 4))))
                (Double.finite (1 / 2)))) (Double.finite 1)
          else 0))]) ∧
      binvol.getD 10 0 =
        Double.mul (Double.mul (Double.mul (Double.finite 4) (Double.finite (M.acos (-1))))
          (Double.mul (Double.finite (21 / 4)) (Double.finite (21 / 4))))
          (Double.finite (1 / 2)) := by
  have htest : donorRoleTest M wrap (7 / 2) 30 ⟨⟨D⟩, ⟨H⟩⟩ ⟨A⟩ = true := by
    rw [donorRoleTest_eq, hdist, hangle, angle_lt_cut t ht]
    decide!
  have hd := new_deltaR_example_vol (7 / 2) 30 step
  have hev : HBondRvol.frameEvents (HBondRvol.new (7 / 2) 20 30 40 step).toParams M
      ⟨wrap, [⟨com, [⟨⟨D⟩, ⟨H⟩⟩], []⟩], [⟨com2, [], [⟨A⟩]⟩], sele3⟩ =
      [(Double.finite (21 / 4), 1)] := by
    have ht2 : donorRoleTest M wrap (HBondRvol.new (7 / 2) 20 30 40 step).toParams.rCut
        (HBondRvol.new (7 / 2) 20 30 40 step).toParams.thetaCut ⟨⟨D⟩, ⟨H⟩⟩ ⟨A⟩ = true := htest
    simp [HBondRvol.frameEvents, HBondRvol.moleculeEvents, HBondRvol.donorEvents,
      HBondRvol.acceptorEvents, ht2, hH]
  have hproc : HBondRvol.processFrame (HBondRvol.new (7 / 2) 20 30 40 step).toParams M
      ⟨wrap, [⟨com, [⟨⟨D⟩, ⟨H⟩⟩], []⟩], [⟨com2, [], [⟨A⟩]⟩], sele3⟩
      (HBondRvol.new (7 / 2) 20 30 40 step).toSlices = some exampleFinal := by
    rw [HBondRvol.processFrame_eq_vol, hev]
    exact depositAll_example _ hd
  have hvol10 : HBondRvol.shellVolume (HBondRvol.new (7 / 2) 20 30 40 step).toParams M 10 =
      Double.mul (Double.mul (Double.mul (Double.finite 4) (Double.finite (M.acos (-1))))
        (Double.mul (Double.finite (21 / 4)) (Double.finite (21 / 4))))
        (Double.finite (1 / 2)) := by
    unfold HBondRvol.shellVolume
    rw [binRadius_example _ hd, MathLib.acosC_neg_one, hd]
  have hlen : exampleFinal.sliceQ.length = 40 := by decide
  have hw := HBondRvol.writeDensityR_eq_vol (HBondRvol.new (7 / 2) 20 30 40 step).toParams M 1
    exampleFinal (HBondRvol.new (7 / 2) 20 30 40 step).binvol
    (by rw [hlen]; simp [HBondRvol.new])
  rw [hlen] at hw
  refine ⟨(List.range 40).map
    (HBondRvol.shellVolume (HBondRvol.new (7 / 2) 20 30 40 step).toParams M), ?_, ?_⟩
  · unfold HBondRvol.process
    have hst : (HBondRvol.new (7 / 2) 20 30 40 step).step = step := rfl
    rw [hst]
    show strideLoop _ 1 step fuel 0 _ = _
    rw [strideLoop_one _ step hstep fuel hfuel]
    simp only [HBondRvol.frameBody, hproc]
    show Outcome.finished (exampleFinal,
      (HBondRvol.writeDensityR (HBondRvol.new (7 / 2) 20 30 40 step).toParams M 1 exampleFinal
        (HBondRvol.new (7 / 2) 20 30 40 step).binvol).1,
      [] ++ [(HBondRvol.writeDensityR (HBondRvol.new (7 / 2) 20 30 40 step).toParams M 1
        exampleFinal (HBondRvol.new (7 / 2) 20 30 40 step).binvol).2]) = _
    rw [hw]
    simp only [List.nil_append]
    have hrows : (List.range 40).map
        (HBondRvol.reportRow (HBondRvol.new (7 / 2) 20 30 40 step).toParams M 1 exampleFinal) =
        (List.range 40).map (fun (i : Nat) =>
          (Double.mul (Double.add (Double.finite (i : RealType)) (Double.finite (1 / 2)))
            (Double.finite (1 / 2)),
          if i = 10 then
            Double.div (Double.div (Double.finite 1)
              (Double.mul (Double.mul (Double.mul (Double.finite 4)
                (Double.finite (M.acos (-1))))
                (Double.mul (Double.finite (21 / 4)) (Double.finite (21 / 4))))
                (Double.finite (1 / 2)))) (Double.finite 1)
          else 0)) := by
      apply List.map_congr_left
      intro i _
      unfold HBondRvol.reportRow
      rw [exampleFinal_count, exampleFinal_q]
      have hrad : binRadius (HBondRvol.new (7 / 2) 20 30 40 step).toParams i =
          Double.mul (Double.add (Double.finite (i : RealType)) (Double.finite (1 / 2)))
            (Double.finite (1 / 2)) := by
        unfold binRadius; rw [hd]
      rw [hrad]
      by_cases hi : i = 10
      · subst hi
        rw [if_pos rfl, if_pos rfl, if_pos rfl, hvol10, if_pos ⟨one_ne_zero, hvol⟩]
        rfl
      · rw [if_neg hi, if_neg hi, if_neg hi, if_neg (fun h => h.1 rfl)]
    rw [hrows]
    rfl
  · rw [List.getD_eq_getElem _ _ (by simp)]
    simp only [List.getElem_map, List.getElem_range]
    exact hvol10

/-- In binary64 arithmetic the shell volume of the bin 10 of width `0.5` is
`173.18029502913734`. -/
theorem exampleVolume_ne :
    Double.mul (Double.mul (Double.mul (Double.finite 4) (Double.finite (doubleMath.acos (-1))))
      (Double.mul (Double.finite (21 / 4)) (Double.finite (21 / 4)))) (Double.finite (1 / 2)) ≠
        0 := by decide!

/-- C10 on the example frame, in binary64 arithmetic. -/
theorem HBondRvol.end_to_end_density_witness :
    ∃ binvol, (HBondRvol.new (7 / 2) 20 30 40 1).process doubleMath
        ⟨1, fun _ => ⟨id, [⟨exampleCentral.com, [⟨⟨exampleDonor.donorAtom.pos⟩,
          ⟨exampleDonor.donatedHydrogen.pos⟩⟩], []⟩],
          [⟨examplePartner.com, [], [⟨exampleAcceptor.pos⟩]⟩], []⟩⟩ 1 =
      Outcome.finished (⟨(List.replicate 40 0).set 10 1, (List.replicate 40 0).set 10 1⟩,
        binvol,
        [(List.range 40).map (fun (i : Nat) =>
          (Double.mul (Double.add (Double.finite (i : RealType)) (Double.finite (1 / 2)))
            (Double.finite (1 / 2)),
          if i = 10 then
            Double.div (Double.div (Double.finite 1)
              (Double.mul (Double.mul (Double.mul (Double.finite 4)
                (Double.finite (doubleMath.acos (-1))))
                (Double.mul (Double.finite (21 / 4)) (Double.finite (21 / 4))))
                (Double.finite (1 / 2)))) (Double.finite 1)
          else 0))]) ∧
      binvol.getD 10 0 =
        Double.mul (Double.mul (Double.mul (Double.finite 4)
          (Double.finite (doubleMath.acos (-1))))
          (Double.mul (Double.finite (21 / 4)) (Double.finite (21 / 4))))
          (Double.finite (1 / 2)) :=
  HBondRvol.end_to_end_density doubleMath id exampleDonor.donorAtom.pos
    exampleDonor.donatedHydrogen.pos exampleAcceptor.pos exampleCentral.com examplePartner.com
    [] 1 1 (2814749767112379 / 281474976710656) (by decide) (by decide)
    exampleDist_eq exampleAngle_eq exampleAngle_near exampleHydrogen_eq exampleVolume_ne

/-! ### Normalisation of variant B, equal arrays (C11, C12) -/

/-- Every report of variant B is the list of the rows of some state, all with
the divisor `reader.nFrames`. -/
theorem HBondRvol.frames_reports_all (p : Params) (M : MathLib) (reader : DumpReader) :
    ∀ (l : List Int)
      (st st1 : Slices × List Double × List (List (Double × Double))),
      st.2.1.length = st.1.sliceQ.length →
      l.foldlM (fun st i => HBondRvol.frameBody p M reader i st) st = some st1 →
      ∀ report ∈ st1.2.2, report ∈ st.2.2 ∨
        ∃ s : Slices, s.sliceQ.length = st.1.sliceQ.length ∧
          report = (List.range s.sliceQ.length).map
            (HBondRvol.reportRow p M reader.nFrames s) := by
  intro l
  induction l with
  | nil =>
    intro st st1 _ h report hr
    simp only [List.foldlM_nil, Option.pure_def, Option.some.injEq] at h
    subst h
    exact Or.inl hr
  | cons i l ih =>
    intro st st1 hlen h report hr
    simp only [List.foldlM_cons, Option.bind_eq_bind] at h
    cases hb : HBondRvol.frameBody p M reader i st with
    | none => rw [hb] at h; cases h
    | some st2 =>
      rw [hb] at h
      simp only [Option.some_bind] at h
      have hst2 : st2.1.sliceQ.length = st.1.sliceQ.length ∧
          st2.2.1 = (List.range st2.1.sliceQ.length).map (HBondRvol.shellVolume p M) ∧
          st2.2.2 = st.2.2 ++ [(List.range st2.1.sliceQ.length).map
            (HBondRvol.reportRow p M reader.nFrames st2.1)] := by
        unfold HBondRvol.frameBody at hb
        cases hp : HBondRvol.processFrame p M (reader.readFrame i) st.1 with
        | none => rw [hp] at hb; cases hb
        | some s1 =>
          rw [hp] at hb
          simp only [Option.some.injEq] at hb
          subst hb
          rw [HBondRvol.processFrame_eq_vol] at hp
          have hl1 := (depositAll_length p _ _ _ hp).1
          rw [HBondRvol.writeDensityR_eq_vol p M reader.nFrames s1 st.2.1 (hlen.trans hl1.symm)]
          exact ⟨hl1, rfl, rfl⟩
      have hlen2 : st2.2.1.length = st2.1.sliceQ.length := by rw [hst2.2.1]; simp
      rcases ih st2 st1 hlen2 h report hr with h1 | ⟨s, hs, hrep⟩
      · rw [hst2.2.2] at h1
        rcases List.mem_append.mp h1 with h2 | h2
        · exact Or.inl h2
        · rw [List.mem_singleton] at h2
          exact Or.inr ⟨st2.1, hst2.1, h2⟩
      · exact Or.inr ⟨s, hs.trans hst2.1, hrep⟩

/-- The rows of a report of variant B, spelled out. -/
theorem HBondRvol.reportRow_eq (p : Params) (M : MathLib) (nFrames : Int)
    (s : Slices) (i : Nat) :
    HBondRvol.reportRow p M nFrames s i =
      (Double.mul (Double.add (Double.finite (i : RealType)) (Double.finite (1 / 2))) p.deltaR,
        if s.sliceCount.getD i 0 ≠ 0 ∧ HBondRvol.shellVolume p M i ≠ 0 then
          Double.div (Double.div (Double.finite (s.sliceQ.getD i 0))
            (HBondRvol.shellVolume p M i)) (Double.finite (nFrames : RealType))
        else 0) := rfl

theorem visitedFrames_two_two : visitedFrames 2 2 = [0] := by decide

/-- C11: in variant B, for every stride `step ≥ 1` (all deposits in range),
`HBondRvol::process` runs to its end and writes one report per visited frame;
in every report the value of a row with `sliceCount[i] ≠ 0` and
`binvol[i] ≠ 0` is `sliceQ[i] / binvol[i] / nFrames`, where `nFrames` is the
frame count of the reader and not the number of visited frames; the last
report is so computed from the final accumulators.  The two numbers differ for
some stride above 1: a trajectory of 2 frames read with stride 2 has one
visited frame. -/
theorem HBondRvol.divisor_total_frames (rCut len thetaCut : RealType) (nrbins : Nat)
    (step : Int) (M : MathLib) (reader : DumpReader) (fuel : Nat)
    (hstep : 1 ≤ step) (hfuel : reader.nFrames.toNat ≤ fuel)
    (hrange : ∀ i ∈ visitedFrames reader.nFrames step,
      HydrogensInRange M rCut thetaCut
        (Double.div (Double.finite len) (Double.finite (nrbins : RealType))) nrbins
        (reader.readFrame i)) :
    (∃ s binvol out, (HBondRvol.new rCut len thetaCut nrbins step).process M reader fuel =
        Outcome.finished (s, binvol, out) ∧
      out.length = (visitedFrames reader.nFrames step).length ∧
      (∀ report ∈ out, ∃ s1 : Slices, s1.sliceQ.length = nrbins ∧
        report = (List.range nrbins).map (fun (i : Nat) =>
          (Double.mul (Double.add (Double.finite (i : RealType)) (Double.finite (1 / 2)))
            (Double.div (Double.finite len) (Double.finite (nrbins : RealType))),
            if s1.sliceCount.getD i 0 ≠ 0 ∧
                HBondRvol.shellVolume (HBondRvol.new rCut len thetaCut nrbins step).toParams
                  M i ≠ 0 then
              Double.div (Double.div (Double.finite (s1.sliceQ.getD i 0))
                (HBondRvol.shellVolume (HBondRvol.new rCut len thetaCut nrbins step).toParams
                  M i)) (Double.finite (reader.nFrames : RealType))
            else 0))) ∧
      (visitedFrames reader.nFrames step ≠ [] →
        out.getLast? = some ((List.range nrbins).map (fun (i : Nat) =>
          (Double.mul (Double.add (Double.finite (i : RealType)) (Double.finite (1 / 2)))
            (Double.div (Double.finite len) (Double.finite (nrbins : RealType))),
            if s.sliceCount.getD i 0 ≠ 0 ∧
                HBondRvol.shellVolume (HBondRvol.new rCut len thetaCut nrbins step).toParams
                  M i ≠ 0 then
              Double.div (Double.div (Double.finite (s.sliceQ.getD i 0))
                (HBondRvol.shellVolume (HBondRvol.new rCut len thetaCut nrbins step).toParams
                  M i)) (Double.finite (reader.nFrames : RealType))
            else 0))))) ∧
    ∃ (nFrames step1 : Int), 1 < step1 ∧
      ((visitedFrames nFrames step1).length : Int) ≠ nFrames := by
  refine ⟨?_, 2, 2, by decide, by rw [visitedFrames_two_two]; decide⟩
  have hev : ∀ i ∈ visitedFrames reader.nFrames step,
      ∀ e ∈ HBondRvol.frameEvents (HBondRvol.new rCut len thetaCut nrbins step).toParams M
        (reader.readFrame i),
        InRange (Double.div (Double.finite len) (Double.finite (nrbins : RealType))) nrbins e.1 :=
    fun i hi => HBondRvol.frameEvents_inRange_vol _ M _ nrbins (hrange i hi)
  obtain ⟨s, binvol, out, hp, _, hz, hlen, hlast⟩ := HBondRvol.process_spec_vol
    (HBondRvol.new rCut len thetaCut nrbins step) M reader fuel nrbins hstep hfuel
    (HBondRvol.new_sized_vol rCut len thetaCut nrbins step) (by simp [HBondRvol.new]) hev
  have hst : (HBondRvol.new rCut len thetaCut nrbins step).step = step := rfl
  rw [hst] at hlen hlast
  refine ⟨s, binvol, out, hp, hlen, ?_, ?_⟩
  · intro report hrep
    -- the fold behind the run
    unfold HBondRvol.process at hp
    rw [hst, strideLoop_eq_foldlM _ _ _ hstep fuel 0 _
      (le_trans (frameCount_le reader.nFrames step hstep) hfuel)] at hp
    cases hfold : (framesFrom 0 step (frameCount reader.nFrames step 0)).foldlM
        (fun st i => HBondRvol.frameBody (HBondRvol.new rCut len thetaCut nrbins step).toParams
          M reader i st)
        ((HBondRvol.new rCut len thetaCut nrbins step).toSlices,
          (HBondRvol.new rCut len thetaCut nrbins step).binvol, []) with
    | none => rw [hfold] at hp; cases hp
    | some st1 =>
      rw [hfold] at hp
      simp only [Outcome.finished.injEq] at hp
      have hout : st1.2.2 = out := by rw [hp]
      rcases HBondRvol.frames_reports_all _ M reader _ _ _ (by simp [HBondRvol.new]) hfold
        report (by rw [hout]; exact hrep) with h1 | ⟨s1, hs1, hr1⟩
      · cases h1
      · have hs1n : s1.sliceQ.length = nrbins := by rw [hs1]; simp [HBondRvol.new]
        refine ⟨s1, hs1n, ?_⟩
        rw [hr1, hs1n]
        apply List.map_congr_left
        intro i _
        rw [HBondRvol.reportRow_eq]
        rfl
  · intro hne
    rw [(hlast hne).2]
    congr 1

/-- C11 on a trajectory of 2 frames read with stride 2: one visited frame, the
divisor of the report is 2. -/
theorem HBondRvol.divisor_total_frames_witness :
    (∃ s binvol out, (HBondRvol.new (7 / 2) 20 30 40 2).process doubleMath (exampleReader 2) 2 =
        Outcome.finished (s, binvol, out) ∧
      out.length = (visitedFrames (exampleReader 2).nFrames 2).length ∧
      (∀ report ∈ out, ∃ s1 : Slices, s1.sliceQ.length = 40 ∧
        report = (List.range 40).map (fun (i : Nat) =>
          (Double.mul (Double.add (Double.finite (i : RealType)) (Double.finite (1 / 2)))
            (Double.div (Double.finite 20) (Double.finite ((40 : Nat) : RealType))),
            if s1.sliceCount.getD i 0 ≠ 0 ∧
                HBondRvol.shellVolume (HBondRvol.new (7 / 2) 20 30 40 2).toParams
                  doubleMath i ≠ 0 then
              Double.div (Double.div (Double.finite (s1.sliceQ.getD i 0))
                (HBondRvol.shellVolume (HBondRvol.new (7 / 2) 20 30 40 2).toParams
                  doubleMath i)) (Double.finite ((exampleReader 2).nFrames : RealType))
            else 0))) ∧
      (visitedFrames (exampleReader 2).nFrames 2 ≠ [] →
        out.getLast? = some ((List.range 40).map (fun (i : Nat) =>
          (Double.mul (Double.add (Double.finite (i : RealType)) (Double.finite (1 / 2)))
            (Double.div (Double.finite 20) (Double.finite ((40 : Nat) : RealType))),
            if s.sliceCount.getD i 0 ≠ 0 ∧
                HBondRvol.shellVolume (HBondRvol.new (7 / 2) 20 30 40 2).toParams
                  doubleMath i ≠ 0 then
              Double.div (Double.div (Double.finite (s.sliceQ.getD i 0))
                (HBondRvol.shellVolume (HBondRvol.new (7 / 2) 20 30 40 2).toParams
                  doubleMath i)) (Double.finite ((exampleReader 2).nFrames : RealType))
            else 0))))) ∧
    ∃ (nFrames step1 : Int), 1 < step1 ∧
      ((visitedFrames nFrames step1).length : Int) ≠ nFrames :=
  HBondRvol.divisor_total_frames (7 / 2) 20 30 40 2 doubleMath (exampleReader 2) 2
    (by decide) (by decide)
    (fun i _ mol1 hm1 mol2 hm2 => by
      have h1 : mol1 = exampleCentral := by
        simpa [exampleReader, exampleFrame] using hm1
      have h2 : mol2 = examplePartner := by
        simpa [exampleReader, exampleFrame] using hm2
      subst h1 h2
      refine ⟨?_, ?_⟩
      · intro d hd a _ _
        have hd1 : d = exampleDonor := by simpa [exampleCentral] using hd
        subst hd1
        exact ⟨10, by decide!, by decide, by decide⟩
      · intro a ha
        simp [exampleCentral] at ha)

theorem binTotal_eq_binHits (deltaR : Double) (j : Nat) (es : List (Double × Int))
    (h : ∀ e ∈ es, e.2 = 1) : binTotal deltaR j es = (binHits deltaR j es : Int) := by
  induction es with
  | nil => simp [binTotal, binHits]
  | cons e es ih =>
    rw [binTotal_cons, binHits_cons, ih (fun e' he' => h e' (List.mem_cons_of_mem _ he')),
      h e (List.mem_cons_self _ _)]
    split <;> simp

/-- One deposit of variant B keeps the two arrays equal entry by entry. -/
theorem HBondRvol.deposit_keeps_equal (p : Params) (M : MathLib) (hPos : Vector3d)
    (s s1 : Slices)
    (hinv : ∀ i : Nat, s.sliceQ.getD i 0 = ((s.sliceCount.getD i 0 : Int) : RealType))
    (h : HBondRvol.deposit p M hPos s = some s1) :
    ∀ i : Nat, s1.sliceQ.getD i 0 = ((s1.sliceCount.getD i 0 : Int) : RealType) := by
  rw [HBondRvol.deposit_eq, HBondR.deposit_eq_some_iff] at h
  obtain ⟨b, _, hq, hk⟩ := h
  intro i
  rw [addAt_getD hq i, addAt_getD hk i, hinv i]
  split <;> simp

theorem list_eq_map_cast (q : List RealType) (k : List Int) (h : q.length = k.length)
    (hp : ∀ i : Nat, q.getD i 0 = ((k.getD i 0 : Int) : RealType)) :
    q = k.map (fun (c : Int) => (c : RealType)) := by
  apply List.ext_getElem (by simp [h])
  intro i h1 h2
  have h3 : i < k.length := by simpa using h2
  have := hp i
  rw [List.getD_eq_getElem _ _ h1, List.getD_eq_getElem _ _ h3] at this
  rw [this]
  simp

/-- C12: in variant B the arrays `sliceQ_` and `sliceCount_` are numerically
identical: they are equal entry by entry after the constructor, every deposit
keeps them so, and (for a stride `step ≥ 1`, all deposits in range)
`HBondRvol::process` runs to its end with `sliceQ[i] = sliceCount[i]` for every
bin `i`. -/
theorem HBondRvol.sliceQ_eq_sliceCount (rCut len thetaCut : RealType) (nrbins : Nat)
    (step : Int) (M : MathLib) (reader : DumpReader) (fuel : Nat)
    (hstep : 1 ≤ step) (hfuel : reader.nFrames.toNat ≤ fuel)
    (hrange : ∀ i ∈ visitedFrames reader.nFrames step,
      HydrogensInRange M rCut thetaCut
          (Double.div (Double.finite len) (Double.finite (nrbins : RealType))) nrbins
        (reader.readFrame i)) :
    (∀ i : Nat, (HBondRvol.new rCut len thetaCut nrbins step).sliceQ.getD i 0 =
      (((HBondRvol.new rCut len thetaCut nrbins step).sliceCount.getD i 0 : Int) : RealType)) ∧
    (∀ (p : Params) (hPos : Vector3d) (s s1 : Slices),
      (∀ i : Nat, s.sliceQ.getD i 0 = ((s.sliceCount.getD i 0 : Int) : RealType)) →
      HBondRvol.deposit p M hPos s = some s1 →
      ∀ i : Nat, s1.sliceQ.getD i 0 = ((s1.sliceCount.getD i 0 : Int) : RealType)) ∧
    ∃ s binvol out, (HBondRvol.new rCut len thetaCut nrbins step).process M reader fuel =
        Outcome.finished (s, binvol, out) ∧
      s.sliceQ = s.sliceCount.map (fun (c : Int) => (c : RealType)) ∧
      ∀ i : Nat, s.sliceQ.getD i 0 = ((s.sliceCount.getD i 0 : Int) : RealType) := by
  have hinit : ∀ i : Nat, (HBondRvol.new rCut len thetaCut nrbins step).sliceQ.getD i 0 =
      (((HBondRvol.new rCut len thetaCut nrbins step).sliceCount.getD i 0 : Int) :
        RealType) := by
    intro i
    simp only [HBondRvol.new, List.getD_eq_getElem?_getD, List.getElem?_replicate]
    split <;> simp
  refine ⟨hinit, fun p hPos s s1 => HBondRvol.deposit_keeps_equal p M hPos s s1, ?_⟩
  have hev : ∀ i ∈ visitedFrames reader.nFrames step,
      ∀ e ∈ HBondRvol.frameEvents (HBondRvol.new rCut len thetaCut nrbins step).toParams M
        (reader.readFrame i), InRange
            (Double.div (Double.finite len) (Double.finite (nrbins : RealType))) nrbins e.1 :=
    fun i hi => HBondRvol.frameEvents_inRange_vol _ M _ nrbins (hrange i hi)
  obtain ⟨s, binvol, out, hp, hd, hz, _, _⟩ := HBondRvol.process_spec_vol
    (HBondRvol.new rCut len thetaCut nrbins step) M reader fuel nrbins hstep hfuel
    (HBondRvol.new_sized_vol rCut len thetaCut nrbins step) (by simp [HBondRvol.new]) hev
  obtain ⟨_, _, _, hpt⟩ := depositAll_facts _ nrbins _ _ _
    (HBondRvol.new_sized_vol rCut len thetaCut nrbins step)
    (fun e he => by
      obtain ⟨i, hi, hei⟩ := List.mem_flatMap.mp he
      exact hev i hi e hei) hd
  have hpoint : ∀ i : Nat, s.sliceQ.getD i 0 = ((s.sliceCount.getD i 0 : Int) : RealType) := by
    intro i
    rw [(hpt i).1, (hpt i).2, binTotal_eq_binHits _ _ _ (HBondRvol.runEvents_snd _ M reader _)]
    have := hinit i
    simp only [Int.cast_add, Int.cast_natCast]
    rw [← this]
  exact ⟨s, binvol, out, hp, list_eq_map_cast _ _ (hz.1.trans hz.2.symm) hpoint, hpoint⟩

/-- C12 on the one-frame example trajectory. -/
theorem HBondRvol.sliceQ_eq_sliceCount_witness :
    (∀ i : Nat, (HBondRvol.new (7 / 2) 20 30 40 1).sliceQ.getD i 0 =
      (((HBondRvol.new (7 / 2) 20 30 40 1).sliceCount.getD i 0 : Int) : RealType)) ∧
    (∀ (p : Params) (hPos : Vector3d) (s s1 : Slices),
      (∀ i : Nat, s.sliceQ.getD i 0 = ((s.sliceCount.getD i 0 : Int) : RealType)) →
      HBondRvol.deposit p doubleMath hPos s = some s1 →
      ∀ i : Nat, s1.sliceQ.getD i 0 = ((s1.sliceCount.getD i 0 : Int) : RealType)) ∧
    ∃ s binvol out, (HBondRvol.new (7 / 2) 20 30 40 1).process doubleMath (exampleReader 1) 1 =
        Outcome.finished (s, binvol, out) ∧
      s.sliceQ = s.sliceCount.map (fun (c : Int) => (c : RealType)) ∧
      ∀ i : Nat, s.sliceQ.getD i 0 = ((s.sliceCount.getD i 0 : Int) : RealType) :=
  HBondRvol.sliceQ_eq_sliceCount (7 / 2) 20 30 40 1 doubleMath (exampleReader 1) 1
    (by decide) (by decide)
    (fun i _ mol1 hm1 mol2 hm2 => by
      have h1 : mol1 = exampleCentral := by
        simpa [exampleReader, exampleFrame] using hm1
      have h2 : mol2 = examplePartner := by
        simpa [exampleReader, exampleFrame] using hm2
      subst h1 h2
      refine ⟨?_, ?_⟩
      · intro d hd a _ _
        have hd1 : d = exampleDonor := by simpa [exampleCentral] using hd
        subst hd1
        exact ⟨10, by decide!, by decide, by decide⟩
      · intro a ha
        simp [exampleCentral] at ha)

/-! ### The frame loop (C13) -/

theorem binTotal_flatMap {α : Type} (deltaR : Double) (j : Nat)
    (ev : α → List (Double × Int)) (l : List α) :
    binTotal deltaR j (l.flatMap ev) = (l.map (fun i => binTotal deltaR j (ev i))).sum := by
  induction l with
  | nil => rfl
  | cons i l ih => rw [List.flatMap_cons, binTotal_append, ih, List.map_cons, List.sum_cons]

theorem binHits_flatMap {α : Type} (deltaR : Double) (j : Nat)
    (ev : α → List (Double × Int)) (l : List α) :
    binHits deltaR j (l.flatMap ev) = (l.map (fun i => binHits deltaR j (ev i))).sum := by
  induction l with
  | nil => rfl
  | cons i l ih => rw [List.flatMap_cons, binHits_append, ih, List.map_cons, List.sum_cons]

theorem binTotal_nonneg (deltaR : Double) (j : Nat) (es : List (Double × Int))
    (h : ∀ e ∈ es, 0 ≤ e.2) : 0 ≤ binTotal deltaR j es := by
  induction es with
  | nil => simp [binTotal]
  | cons e es ih =>
    rw [binTotal_cons]
    have h1 := h e (List.mem_cons_self _ _)
    have h2 := ih (fun e' he' => h e' (List.mem_cons_of_mem _ he'))
    split <;> omega

/-- Each frame processed alone from an all-zero state: the bin-wise sums of the
arrays so obtained. -/
theorem frames_alone (p : Params) (n : Nat) (ev : Int → List (Double × Int)) (z : Slices)
    (hz : z.Sized n) (hz0 : ∀ j : Nat, z.sliceQ.getD j 0 = 0 ∧ z.sliceCount.getD j 0 = 0) :
    ∀ l : List Int, (∀ i ∈ l, ∀ e ∈ ev i, InRange p.deltaR n e.1) →
      ∃ ds : List Slices,
        List.Forall₂ (fun i d => depositAll p (ev i) z = some d) l ds ∧
        ∀ j : Nat,
          (ds.map (fun d => d.sliceQ.getD j 0)).sum =
            (((l.map (fun i => binTotal p.deltaR j (ev i))).sum : Int) : RealType) ∧
          (ds.map (fun d => d.sliceCount.getD j 0)).sum =
            (((l.map (fun i => binHits p.deltaR j (ev i))).sum : Nat) : Int) := by
  intro l
  induction l with
  | nil => intro _; exact ⟨[], List.Forall₂.nil, fun j => by simp⟩
  | cons i l ih =>
    intro hr
    obtain ⟨d, hd, _, _, _, hp⟩ := depositAll_spec p n (ev i) z hz
      (hr i (List.mem_cons_self _ _))
    obtain ⟨ds, hds, hsum⟩ := ih (fun k hk => hr k (List.mem_cons_of_mem _ hk))
    refine ⟨d :: ds, List.Forall₂.cons hd hds, fun j => ?_⟩
    simp only [List.map_cons, List.sum_cons, (hsum j).1, (hsum j).2, (hp j).1, (hp j).2,
      (hz0 j).1, (hz0 j).2]
    constructor
    · push_cast; ring
    · push_cast; ring

theorem zero_getD_rat (n j : Nat) : (List.replicate n (0 : RealType)).getD j 0 = 0 := by
  simp only [List.getD_eq_getElem?_getD, List.getElem?_replicate]
  split <;> rfl

theorem zero_getD_int (n j : Nat) : (List.replicate n (0 : Int)).getD j 0 = 0 := by
  simp only [List.getD_eq_getElem?_getD, List.getElem?_replicate]
  split <;> rfl

theorem HBondR.frameEvents_nonneg (p : Params) (M : MathLib) (f : Frame) :
    ∀ e ∈ HBondR.frameEvents p M f, 0 ≤ e.2 := by
  intro e he
  unfold HBondR.frameEvents at he
  obtain ⟨mol1, _, rfl⟩ := List.mem_map.mp he
  rw [HBondR.scanMolecule_eq]
  exact Int.natCast_nonneg _

/-- C14: the accumulators of `HBondR::process` are never reset between frames.
For a stride `step ≥ 1` and all deposits in range, the run reaches its end, each
visited frame processed alone from the all-zero state of the constructor gives
a pair of arrays, and every entry of the final `sliceQ` and `sliceCount` is the
sum of the corresponding entries of those per-frame arrays.  Consequently a
frame never decreases an entry: processing a frame from any state leaves every
entry of `sliceQ` and of `sliceCount` at least as large as before. -/
theorem HBondR.accumulators_never_reset (rCut len thetaCut : RealType) (nrbins : Nat)
    (step : Int) (M : MathLib) (reader : DumpReader) (fuel : Nat)
    (hstep : 1 ≤ step) (hfuel : reader.nFrames.toNat ≤ fuel)
    (hrange : ∀ i ∈ visitedFrames reader.nFrames step,
      ∀ mol1 ∈ (reader.readFrame i).sele1,
        InRange
            (Double.div (Double.finite len) (Double.finite (nrbins : RealType)))
                nrbins (M.length mol1.com)) :
    (∃ s out, (HBondR.new rCut len thetaCut nrbins step).process M reader fuel =
        Outcome.finished (s, out) ∧
      ∃ ds : List Slices,
        List.Forall₂ (fun i d =>
          HBondR.processFrame (HBondR.new rCut len thetaCut nrbins step).toParams M
            (reader.readFrame i) (HBondR.new rCut len thetaCut nrbins step).toSlices = some d)
          (visitedFrames reader.nFrames step) ds ∧
        ∀ j : Nat,
          s.sliceQ.getD j 0 = (ds.map (fun d => d.sliceQ.getD j 0)).sum ∧
          s.sliceCount.getD j 0 = (ds.map (fun d => d.sliceCount.getD j 0)).sum) ∧
    ∀ (f : Frame) (s0 : Slices), s0.Sized nrbins →
      (∀ mol1 ∈ f.sele1, InRange
          (Double.div (Double.finite len) (Double.finite (nrbins : RealType)))
              nrbins (M.length mol1.com)) →
      ∃ s1, HBondR.processFrame (HBondR.new rCut len thetaCut nrbins step).toParams M f s0 =
          some s1 ∧
        ∀ j : Nat, s0.sliceQ.getD j 0 ≤ s1.sliceQ.getD j 0 ∧
          s0.sliceCount.getD j 0 ≤ s1.sliceCount.getD j 0 := by
  have hev : ∀ i ∈ visitedFrames reader.nFrames step,
      ∀ e ∈ HBondR.frameEvents (HBondR.new rCut len thetaCut nrbins step).toParams M
        (reader.readFrame i), InRange
            (Double.div (Double.finite len) (Double.finite (nrbins : RealType))) nrbins e.1 :=
    fun i hi => HBondR.frameEvents_inRange _ M _ nrbins (hrange i hi)
  refine ⟨?_, ?_⟩
  · obtain ⟨s, out, hp, hd, _, _, _⟩ := HBondR.process_spec
      (HBondR.new rCut len thetaCut nrbins step) M reader fuel nrbins hstep hfuel
      (HBondR.new_sized rCut len thetaCut nrbins step) hev
    obtain ⟨_, _, _, hpt⟩ := depositAll_facts _ nrbins _ _ _
      (HBondR.new_sized rCut len thetaCut nrbins step)
      (fun e he => by
        obtain ⟨i, hi, hei⟩ := List.mem_flatMap.mp he
        exact hev i hi e hei) hd
    obtain ⟨ds, hds, hsum⟩ := frames_alone
      (HBondR.new rCut len thetaCut nrbins step).toParams nrbins
      (fun i => HBondR.frameEvents (HBondR.new rCut len thetaCut nrbins step).toParams M
        (reader.readFrame i))
      (HBondR.new rCut len thetaCut nrbins step).toSlices
      (HBondR.new_sized rCut len thetaCut nrbins step)
      (fun j => ⟨zero_getD_rat nrbins j, zero_getD_int nrbins j⟩)
      (visitedFrames reader.nFrames step) hev
    refine ⟨s, out, hp, ds, ?_, fun j => ?_⟩
    · refine hds.imp ?_
      intro i d h
      rw [HBondR.processFrame_eq]
      exact h
    · have h0q : (HBondR.new rCut len thetaCut nrbins step).toSlices.sliceQ.getD j 0 = 0 :=
        zero_getD_rat nrbins j
      have h0k : (HBondR.new rCut len thetaCut nrbins step).toSlices.sliceCount.getD j 0 = 0 :=
        zero_getD_int nrbins j
      have hst : (HBondR.new rCut len thetaCut nrbins step).step = step := rfl
      rw [(hpt j).1, (hpt j).2, h0q, h0k, (hsum j).1, (hsum j).2, hst, binTotal_flatMap,
        binHits_flatMap, zero_add, zero_add]
      exact ⟨rfl, rfl⟩
  · intro f s0 hs0 hr
    obtain ⟨s1, h1, _, _, _, hp⟩ := depositAll_spec
      (HBondR.new rCut len thetaCut nrbins step).toParams nrbins
      (HBondR.frameEvents (HBondR.new rCut len thetaCut nrbins step).toParams M f) s0 hs0
      (HBondR.frameEvents_inRange _ M f nrbins hr)
    refine ⟨s1, by rw [HBondR.processFrame_eq]; exact h1, fun j => ?_⟩
    rw [(hp j).1, (hp j).2]
    have hnn := binTotal_nonneg (HBondR.new rCut len thetaCut nrbins step).toParams.deltaR j _
      (HBondR.frameEvents_nonneg (HBondR.new rCut len thetaCut nrbins step).toParams M f)
    have hnn2 : (0 : RealType) ≤ ((binTotal
        (HBondR.new rCut len thetaCut nrbins step).toParams.deltaR j
        (HBondR.frameEvents (HBondR.new rCut len thetaCut nrbins step).toParams M f) : Int) :
          RealType) := by exact_mod_cast hnn
    constructor
    · linarith
    · have : (0 : Int) ≤ (binHits (HBondR.new rCut len thetaCut nrbins step).toParams.deltaR j
          (HBondR.frameEvents (HBondR.new rCut len thetaCut nrbins step).toParams M f) : Int) :=
        Int.natCast_nonneg _
      linarith

/-- C14 on a trajectory of 3 copies of the example frame, read with stride 1. -/
theorem HBondR.accumulators_never_reset_witness :
    (∃ s out, (HBondR.new (7 / 2) 20 30 40 1).process doubleMath (exampleReader 3) 3 =
        Outcome.finished (s, out) ∧
      ∃ ds : List Slices,
        List.Forall₂ (fun i d =>
          HBondR.processFrame (HBondR.new (7 / 2) 20 30 40 1).toParams doubleMath
            ((exampleReader 3).readFrame i) (HBondR.new (7 / 2) 20 30 40 1).toSlices = some d)
          (visitedFrames (exampleReader 3).nFrames 1) ds ∧
        ∀ j : Nat,
          s.sliceQ.getD j 0 = (ds.map (fun d => d.sliceQ.getD j 0)).sum ∧
          s.sliceCount.getD j 0 = (ds.map (fun d => d.sliceCount.getD j 0)).sum) ∧
    ∀ (f : Frame) (s0 : Slices), s0.Sized 40 →
      (∀ mol1 ∈ f.sele1, InRange
          (Double.div (Double.finite 20) (Double.finite ((40 : Nat) : RealType))) 40
        (doubleMath.length mol1.com)) →
      ∃ s1, HBondR.processFrame (HBondR.new (7 / 2) 20 30 40 1).toParams doubleMath f s0 =
          some s1 ∧
        ∀ j : Nat, s0.sliceQ.getD j 0 ≤ s1.sliceQ.getD j 0 ∧
          s0.sliceCount.getD j 0 ≤ s1.sliceCount.getD j 0 :=
  HBondR.accumulators_never_reset (7 / 2) 20 30 40 1 doubleMath (exampleReader 3) 3
    (by decide) (by decide)
    (fun i _ mol1 hm => by
      have hm1 : mol1 = exampleCentral := by
        simpa [exampleReader, exampleFrame] using hm
      subst hm1
      exact ⟨10, by decide!, by decide, by decide⟩)

/-! ### Order independence (C15) -/

theorem flatMap_perm_of_forall₂ {α β : Type} (R : α → α → Prop) (e e' : α → List β)
    (h : ∀ a b, R a b → (e a).Perm (e' b)) :
    ∀ l l' : List α, List.Forall₂ R l l' → (l.flatMap e).Perm (l'.flatMap e') := by
  intro l l' hf
  induction hf with
  | nil => exact List.Perm.refl _
  | cons hab _ ih =>
    rw [List.flatMap_cons, List.flatMap_cons]
    exact (h _ _ hab).append ih

theorem map_eq_of_forall₂ {α β : Type} (R : α → α → Prop) (g g' : α → β)
    (h : ∀ a b, R a b → g a = g' b) :
    ∀ l l' : List α, List.Forall₂ R l l' → l.map g = l'.map g' := by
  intro l l' hf
  induction hf with
  | nil => rfl
  | cons hab _ ih => rw [List.map_cons, List.map_cons, h _ _ hab, ih]

theorem flatMap_perm_of_reordering {β : Type} (e e' : Molecule → List β)
    (h : ∀ a b, Molecule.Reordered a b → (e a).Perm (e' b)) (l l' : List Molecule)
    (hl : Reordering l l') : (l.flatMap e).Perm (l'.flatMap e') := by
  obtain ⟨l2, hp, hf⟩ := hl
  exact (List.Perm.flatMap_right e hp).trans (flatMap_perm_of_forall₂ _ e e' h l2 l' hf)

theorem map_perm_of_reordering {β : Type} (g g' : Molecule → β)
    (h : ∀ a b, Molecule.Reordered a b → g a = g' b) (l l' : List Molecule)
    (hl : Reordering l l') : (l.map g).Perm (l'.map g') := by
  obtain ⟨l2, hp, hf⟩ := hl
  rw [← map_eq_of_forall₂ _ g g' h l2 l' hf]
  exact hp.map g

theorem HBondRvol.donorEvents_perm (p : Params) (M : MathLib) (wrap : Vector3d → Vector3d)
    (a b m2 m2' : Molecule) (hab : Molecule.Reordered a b) (hm : Molecule.Reordered m2 m2') :
    (HBondRvol.donorEvents p M wrap a m2).Perm (HBondRvol.donorEvents p M wrap b m2') := by
  unfold HBondRvol.donorEvents
  refine (List.Perm.flatMap_right _ hab.2.1).trans (List.Perm.flatMap_left _ ?_)
  intro d _
  exact (hm.2.2.filter _).map _

theorem HBondRvol.acceptorEvents_perm (p : Params) (M : MathLib)
    (wrap : Vector3d → Vector3d) (a b m2 m2' : Molecule) (hab : Molecule.Reordered a b)
    (hm : Molecule.Reordered m2 m2') :
    (HBondRvol.acceptorEvents p M wrap a m2).Perm
      (HBondRvol.acceptorEvents p M wrap b m2') := by
  unfold HBondRvol.acceptorEvents
  refine (List.Perm.flatMap_right _ hab.2.2).trans (List.Perm.flatMap_left _ ?_)
  intro x _
  exact (hm.2.1.filter _).map _

theorem HBondRvol.moleculeEvents_perm (p : Params) (M : MathLib) (f f' : Frame)
    (hf : Frame.Reordered f f') (a b : Molecule) (hab : Molecule.Reordered a b) :
    (HBondRvol.moleculeEvents p M f a).Perm (HBondRvol.moleculeEvents p M f' b) := by
  unfold HBondRvol.moleculeEvents
  rw [← hf.1]
  refine flatMap_perm_of_reordering _ _ ?_ _ _ hf.2.2
  intro m2 m2' hm
  exact (HBondRvol.donorEvents_perm p M _ a b m2 m2' hab hm).append
    (HBondRvol.acceptorEvents_perm p M _ a b m2 m2' hab hm)

/-- The deposits of variant B in a reordered frame are the same, in another
order. -/
theorem HBondRvol.frameEvents_perm_vol (p : Params) (M : MathLib) (f f' : Frame)
    (hf : Frame.Reordered f f') :
    (HBondRvol.frameEvents p M f).Perm (HBondRvol.frameEvents p M f') := by
  unfold HBondRvol.frameEvents
  exact flatMap_perm_of_reordering _ _
    (fun a b hab => HBondRvol.moleculeEvents_perm p M f f' hf a b hab) _ _ hf.2.1

/-- The deposits of variant A in a reordered frame are the same, in another
order. -/
theorem HBondR.frameEvents_perm (p : Params) (M : MathLib) (f f' : Frame)
    (hf : Frame.Reordered f f') :
    (HBondR.frameEvents p M f).Perm (HBondR.frameEvents p M f') := by
  unfold HBondR.frameEvents
  refine map_perm_of_reordering _ _ ?_ _ _ hf.2.1
  intro a b hab
  rw [HBondR.scanMolecule_eq, HBondR.scanMolecule_eq, hab.1,
    ← HBondRvol.moleculeEvents_length p M f a, ← HBondRvol.moleculeEvents_length p M f' b,
    (HBondRvol.moleculeEvents_perm p M f f' hf a b hab).length_eq]

theorem runEvents_perm (ev ev' : Int → List (Double × Int)) (l : List Int)
    (h : ∀ i ∈ l, (ev i).Perm (ev' i)) : (l.flatMap ev).Perm (l.flatMap ev') :=
  List.Perm.flatMap_left l h

/-- C15: order independence.  Let two trajectories have the same frame count
and, at every visited frame, the same wrap operation and the same selections
1 and 2 up to the enumeration order of the molecules of each selection, of the
donor records of each molecule and of the acceptor atoms of each molecule.
Then (stride `step ≥ 1`, all deposits in range) `process` of either variant
runs to its end on both with the same final arrays `sliceQ` and
`sliceCount`. -/
theorem order_independence (rCut len thetaCut : RealType) (nrbins : Nat) (step : Int)
    (M : MathLib) (reader reader' : DumpReader) (fuel : Nat)
    (hstep : 1 ≤ step) (hfuel : reader.nFrames.toNat ≤ fuel)
    (hframes : reader'.nFrames = reader.nFrames)
    (hperm : ∀ i ∈ visitedFrames reader.nFrames step,
      Frame.Reordered (reader.readFrame i) (reader'.readFrame i))
    (hrangeA : ∀ i ∈ visitedFrames reader.nFrames step,
      ∀ mol1 ∈ (reader.readFrame i).sele1,
        InRange
            (Double.div (Double.finite len) (Double.finite (nrbins : RealType)))
                nrbins (M.length mol1.com))
    (hrangeB : ∀ i ∈ visitedFrames reader.nFrames step,
      HydrogensInRange M rCut thetaCut
          (Double.div (Double.finite len) (Double.finite (nrbins : RealType))) nrbins
        (reader.readFrame i)) :
    (∃ s out out', (HBondR.new rCut len thetaCut nrbins step).process M reader fuel =
        Outcome.finished (s, out) ∧
      (HBondR.new rCut len thetaCut nrbins step).process M reader' fuel =
        Outcome.finished (s, out')) ∧
    (∃ s binvol out binvol' out',
      (HBondRvol.new rCut len thetaCut nrbins step).process M reader fuel =
        Outcome.finished (s, binvol, out) ∧
      (HBondRvol.new rCut len thetaCut nrbins step).process M reader' fuel =
        Outcome.finished (s, binvol', out')) := by
  have hfuel' : reader'.nFrames.toNat ≤ fuel := by rw [hframes]; exact hfuel
  constructor
  · have hev : ∀ i ∈ visitedFrames reader.nFrames step,
        ∀ e ∈ HBondR.frameEvents (HBondR.new rCut len thetaCut nrbins step).toParams M
          (reader.readFrame i), InRange
              (Double.div (Double.finite len) (Double.finite (nrbins : RealType))) nrbins e.1 :=
      fun i hi => HBondR.frameEvents_inRange _ M _ nrbins (hrangeA i hi)
    have hev' : ∀ i ∈ visitedFrames reader'.nFrames step,
        ∀ e ∈ HBondR.frameEvents (HBondR.new rCut len thetaCut nrbins step).toParams M
          (reader'.readFrame i), InRange
              (Double.div (Double.finite len) (Double.finite (nrbins : RealType))) nrbins e.1 := by
      intro i hi e he
      rw [hframes] at hi
      exact hev i hi e ((HBondR.frameEvents_perm _ M _ _ (hperm i hi)).mem_iff.mpr he)
    obtain ⟨s, out, hp, hd, _, _, _⟩ := HBondR.process_spec
      (HBondR.new rCut len thetaCut nrbins step) M reader fuel nrbins hstep hfuel
      (HBondR.new_sized rCut len thetaCut nrbins step) hev
    obtain ⟨s', out', hp', hd', _, _, _⟩ := HBondR.process_spec
      (HBondR.new rCut len thetaCut nrbins step) M reader' fuel nrbins hstep hfuel'
      (HBondR.new_sized rCut len thetaCut nrbins step) hev'
    have hst : (HBondR.new rCut len thetaCut nrbins step).step = step := rfl
    rw [hst] at hd hd'
    rw [hframes] at hd'
    obtain ⟨s1, h1, h1'⟩ := depositAll_perm (HBondR.new rCut len thetaCut nrbins step).toParams
      nrbins (runEvents_perm _ _ _
        (fun i hi => HBondR.frameEvents_perm
          (HBondR.new rCut len thetaCut nrbins step).toParams M _ _ (hperm i hi)))
      (HBondR.new rCut len thetaCut nrbins step).toSlices
      (HBondR.new_sized rCut len thetaCut nrbins step)
      (fun e he => by
        obtain ⟨i, hi, hei⟩ := List.mem_flatMap.mp he
        exact hev i hi e hei)
    rw [hd] at h1
    rw [hd'] at h1'
    cases h1
    cases h1'
    exact ⟨s, out, out', hp, hp'⟩
  · have hev : ∀ i ∈ visitedFrames reader.nFrames step,
        ∀ e ∈ HBondRvol.frameEvents (HBondRvol.new rCut len thetaCut nrbins step).toParams M
          (reader.readFrame i), InRange
              (Double.div (Double.finite len) (Double.finite (nrbins : RealType))) nrbins e.1 :=
      fun i hi => HBondRvol.frameEvents_inRange_vol _ M _ nrbins (hrangeB i hi)
    have hev' : ∀ i ∈ visitedFrames reader'.nFrames step,
        ∀ e ∈ HBondRvol.frameEvents (HBondRvol.new rCut len thetaCut nrbins step).toParams M
          (reader'.readFrame i), InRange
              (Double.div (Double.finite len) (Double.finite (nrbins : RealType))) nrbins e.1 := by
      intro i hi e he
      rw [hframes] at hi
      exact hev i hi e ((HBondRvol.frameEvents_perm_vol _ M _ _ (hperm i hi)).mem_iff.mpr he)
    obtain ⟨s, binvol, out, hp, hd, _, _, _⟩ := HBondRvol.process_spec_vol
      (HBondRvol.new rCut len thetaCut nrbins step) M reader fuel nrbins hstep hfuel
      (HBondRvol.new_sized_vol rCut len thetaCut nrbins step) (by simp [HBondRvol.new]) hev
    obtain ⟨s', binvol', out', hp', hd', _, _, _⟩ := HBondRvol.process_spec_vol
      (HBondRvol.new rCut len thetaCut nrbins step) M reader' fuel nrbins hstep hfuel'
      (HBondRvol.new_sized_vol rCut len thetaCut nrbins step) (by simp [HBondRvol.new]) hev'
    have hst : (HBondRvol.new rCut len thetaCut nrbins step).step = step := rfl
    rw [hst] at hd hd'
    rw [hframes] at hd'
    obtain ⟨s1, h1, h1'⟩ := depositAll_perm
      (HBondRvol.new rCut len thetaCut nrbins step).toParams
      nrbins (runEvents_perm _ _ _
        (fun i hi => HBondRvol.frameEvents_perm_vol
          (HBondRvol.new rCut len thetaCut nrbins step).toParams M _ _ (hperm i hi)))
      (HBondRvol.new rCut len thetaCut nrbins step).toSlices
      (HBondRvol.new_sized_vol rCut len thetaCut nrbins step)
      (fun e he => by
        obtain ⟨i, hi, hei⟩ := List.mem_flatMap.mp he
        exact hev i hi e hei)
    rw [hd] at h1
    rw [hd'] at h1'
    cases h1
    cases h1'
    exact ⟨s, binvol, out, binvol', out', hp, hp'⟩

theorem Molecule.reordered_refl (m : Molecule) : Molecule.Reordered m m :=
  ⟨rfl, List.Perm.refl _, List.Perm.refl _⟩

theorem exampleFrame_reordered : Frame.Reordered exampleFrameAB exampleFrameBA :=
  ⟨rfl,
    ⟨[examplePartner, exampleCentral], List.Perm.swap _ _ _,
      List.Forall₂.cons (Molecule.reordered_refl _)
        (List.Forall₂.cons (Molecule.reordered_refl _) List.Forall₂.nil)⟩,
    ⟨[exampleCentral, examplePartner], List.Perm.swap _ _ _,
      List.Forall₂.cons (Molecule.reordered_refl _)
        (List.Forall₂.cons (Molecule.reordered_refl _) List.Forall₂.nil)⟩⟩

theorem examplePartnerCom_inRange :
    InRange (Double.div (Double.finite 20) (Double.finite ((40 : Nat) : RealType)))
        40 (doubleMath.length examplePartner.com) :=
  ⟨16, by decide!, by decide, by decide⟩

theorem exampleCentralCom_inRange :
    InRange (Double.div (Double.finite 20) (Double.finite ((40 : Nat) : RealType)))
        40 (doubleMath.length exampleCentral.com) :=
  ⟨10, by decide!, by decide, by decide⟩

theorem exampleHydrogen_inRange :
    InRange (Double.div (Double.finite 20) (Double.finite ((40 : Nat) : RealType))) 40
      (doubleMath.length exampleDonor.donatedHydrogen.pos) :=
  ⟨10, by decide!, by decide, by decide⟩

theorem exampleFrameAB_comsInRange :
    ∀ mol1 ∈ exampleFrameAB.sele1,
      InRange (Double.div (Double.finite 20) (Double.finite ((40 : Nat) : RealType)))
          40 (doubleMath.length mol1.com) := by
  intro mol1 hm
  simp only [exampleFrameAB, List.mem_cons, List.mem_singleton, List.not_mem_nil, or_false] at hm
  rcases hm with rfl | rfl
  · exact exampleCentralCom_inRange
  · exact examplePartnerCom_inRange

theorem exampleFrameAB_hydrogensInRange (rCut thetaCut : RealType) :
    HydrogensInRange doubleMath rCut thetaCut
        (Double.div (Double.finite 20) (Double.finite ((40 : Nat) : RealType))) 40
      exampleFrameAB := by
  intro mol1 hm1 mol2 hm2
  simp only [exampleFrameAB, List.mem_cons, List.mem_singleton, List.not_mem_nil, or_false]
    at hm1 hm2
  refine ⟨fun d hd a _ _ => ?_, fun a _ d hd _ => ?_⟩
  · rcases hm1 with rfl | rfl
    · have : d = exampleDonor := by simpa [exampleCentral] using hd
      subst this
      exact exampleHydrogen_inRange
    · simp [examplePartner] at hd
  · rcases hm2 with rfl | rfl
    · simp [examplePartner] at hd
    · have : d = exampleDonor := by simpa [exampleCentral] using hd
      subst this
      exact exampleHydrogen_inRange

/-- C15 on two trajectories of 2 frames whose selections hold the two example
molecules in opposite orders. -/
theorem order_independence_witness :
    (∃ s out out', (HBondR.new (7 / 2) 20 30 40 1).process doubleMath
        ⟨2, fun _ => exampleFrameAB⟩ 2 = Outcome.finished (s, out) ∧
      (HBondR.new (7 / 2) 20 30 40 1).process doubleMath ⟨2, fun _ => exampleFrameBA⟩ 2 =
        Outcome.finished (s, out')) ∧
    (∃ s binvol out binvol' out',
      (HBondRvol.new (7 / 2) 20 30 40 1).process doubleMath ⟨2, fun _ => exampleFrameAB⟩ 2 =
        Outcome.finished (s, binvol, out) ∧
      (HBondRvol.new (7 / 2) 20 30 40 1).process doubleMath ⟨2, fun _ => exampleFrameBA⟩ 2 =
        Outcome.finished (s, binvol', out')) :=
  order_independence (7 / 2) 20 30 40 1 doubleMath ⟨2, fun _ => exampleFrameAB⟩
    ⟨2, fun _ => exampleFrameBA⟩ 2 (by decide) (by decide) rfl
    (fun _ _ => exampleFrame_reordered)
    (fun _ _ => exampleFrameAB_comsInRange)
    (fun _ _ => exampleFrameAB_hydrogensInRange (7 / 2) 30)

/-! ### Selection 3, range of the bin index (C16, C17) -/

theorem HBondR.processFrame_congr (p : Params) (M : MathLib) (f f' : Frame) (s : Slices)
    (hw : f.wrapVector = f'.wrapVector) (h1 : f.sele1 = f'.sele1) (h2 : f.sele2 = f'.sele2) :
    HBondR.processFrame p M f s = HBondR.processFrame p M f' s := by
  cases f
  cases f'
  simp only at hw h1 h2
  subst hw h1 h2
  rfl

theorem HBondRvol.processFrame_congr_vol (p : Params) (M : MathLib) (f f' : Frame) (s : Slices)
    (hw : f.wrapVector = f'.wrapVector) (h1 : f.sele1 = f'.sele1) (h2 : f.sele2 = f'.sele2) :
    HBondRvol.processFrame p M f s = HBondRvol.processFrame p M f' s := by
  cases f
  cases f'
  simp only at hw h1 h2
  subst hw h1 h2
  rfl

/-- C16: the third selection does not influence the result.  Two trajectories
with the same frame count whose frames have the same wrap operation and the
same selections 1 and 2, and may differ in selection 3, give the same outcome
of `process`, for either variant and every configuration: the same final
arrays `sliceQ` and `sliceCount` and the same rows in every report. -/
theorem selection3_irrelevant (reader reader' : DumpReader)
    (hn : reader.nFrames = reader'.nFrames)
    (hf : ∀ i : Int, (reader.readFrame i).wrapVector = (reader'.readFrame i).wrapVector ∧
      (reader.readFrame i).sele1 = (reader'.readFrame i).sele1 ∧
      (reader.readFrame i).sele2 = (reader'.readFrame i).sele2) :
    (∀ (self : HBondR) (M : MathLib) (fuel : Nat),
      self.process M reader fuel = self.process M reader' fuel) ∧
    (∀ (self : HBondRvol) (M : MathLib) (fuel : Nat),
      self.process M reader fuel = self.process M reader' fuel) := by
  constructor
  · intro self M fuel
    have hbody : HBondR.frameBody self.toParams M reader =
        HBondR.frameBody self.toParams M reader' := by
      funext i st
      unfold HBondR.frameBody
      rw [HBondR.processFrame_congr self.toParams M _ _ st.1 (hf i).1 (hf i).2.1 (hf i).2.2]
    unfold HBondR.process
    rw [hbody, hn]
  · intro self M fuel
    have hbody : HBondRvol.frameBody self.toParams M reader =
        HBondRvol.frameBody self.toParams M reader' := by
      funext i st
      unfold HBondRvol.frameBody
      rw [HBondRvol.processFrame_congr_vol self.toParams M _ _ st.1 (hf i).1 (hf i).2.1 (hf i).2.2,
        hn]
    unfold HBondRvol.process
    rw [hbody, hn]

/-- C16 on the example trajectory and the same trajectory with a molecule in
selection 3. -/
theorem selection3_irrelevant_witness :
    (∀ (self : HBondR) (M : MathLib) (fuel : Nat),
      self.process M (exampleReader 1) fuel =
        self.process M ⟨1, fun _ => ⟨id, [exampleCentral], [examplePartner],
          [examplePartner]⟩⟩ fuel) ∧
    (∀ (self : HBondRvol) (M : MathLib) (fuel : Nat),
      self.process M (exampleReader 1) fuel =
        self.process M ⟨1, fun _ => ⟨id, [exampleCentral], [examplePartner],
          [examplePartner]⟩⟩ fuel) :=
  selection3_irrelevant (exampleReader 1)
    ⟨1, fun _ => ⟨id, [exampleCentral], [examplePartner], [examplePartner]⟩⟩ rfl
    (fun _ => ⟨rfl, rfl, rfl⟩)

/-! ### Range of the bin index (C17) -/

theorem sum_map_flatMap {α β : Type} (ev : α → List β) (g : β → Int) (l : List α) :
    ((l.flatMap ev).map g).sum = (l.map (fun i => ((ev i).map g).sum)).sum := by
  induction l with
  | nil => rfl
  | cons i l ih =>
    rw [List.flatMap_cons, List.map_append, List.sum_append, ih, List.map_cons, List.sum_cons]

/-- The total quantity deposited by variant A in a frame is the number of
confirmed matches of the frame. -/
theorem HBondR.frameEvents_sum (p : Params) (M : MathLib) (f : Frame) :
    ((HBondR.frameEvents p M f).map (fun e => e.2)).sum =
      ((frameMatches M p.rCut p.thetaCut f : Nat) : Int) := by
  unfold HBondR.frameEvents frameMatches
  rw [List.map_map, natCast_sum_map]
  congr 1
  apply List.map_congr_left
  intro mol1 _
  simp only [Function.comp, HBondR.scanMolecule_eq]

theorem HBondR.runEvents_sum (p : Params) (M : MathLib) (reader : DumpReader) (l : List Int) :
    ((l.flatMap (fun i => HBondR.frameEvents p M (reader.readFrame i))).map
        (fun e => e.2)).sum =
      (((l.map (fun i => frameMatches M p.rCut p.thetaCut (reader.readFrame i))).sum : Nat) :
        Int) := by
  rw [sum_map_flatMap, natCast_sum_map]
  congr 1
  apply List.map_congr_left
  intro i _
  exact HBondR.frameEvents_sum p M (reader.readFrame i)

/-- C18: the two variants count the same events.  For a stride `step ≥ 1`, when
all the deposits of both variants are in range, `HBondR::process` and
`HBondRvol::process` run to their ends on the same trajectory and the sums of
`sliceQ` over all bins are equal, both the number of confirmed matches of the
visited frames. -/
theorem variants_count_same_events (rCut len thetaCut : RealType) (nrbins : Nat)
    (step : Int) (M : MathLib) (reader : DumpReader) (fuel : Nat)
    (hstep : 1 ≤ step) (hfuel : reader.nFrames.toNat ≤ fuel)
    (hrangeA : ∀ i ∈ visitedFrames reader.nFrames step,
      ∀ mol1 ∈ (reader.readFrame i).sele1,
        InRange
            (Double.div (Double.finite len) (Double.finite (nrbins : RealType)))
                nrbins (M.length mol1.com))
    (hrangeB : ∀ i ∈ visitedFrames reader.nFrames step,
      HydrogensInRange M rCut thetaCut
          (Double.div (Double.finite len) (Double.finite (nrbins : RealType))) nrbins
        (reader.readFrame i)) :
    ∃ sA outA sB binvolB outB,
      (HBondR.new rCut len thetaCut nrbins step).process M reader fuel =
        Outcome.finished (sA, outA) ∧
      (HBondRvol.new rCut len thetaCut nrbins step).process M reader fuel =
        Outcome.finished (sB, binvolB, outB) ∧
      sA.sliceQ.sum = sB.sliceQ.sum ∧
      sB.sliceQ.sum =
        ((((visitedFrames reader.nFrames step).map
          (fun i => frameMatches M rCut thetaCut (reader.readFrame i))).sum : Nat) :
            RealType) := by
  have hevA : ∀ i ∈ visitedFrames reader.nFrames step,
      ∀ e ∈ HBondR.frameEvents (HBondR.new rCut len thetaCut nrbins step).toParams M
        (reader.readFrame i), InRange
            (Double.div (Double.finite len) (Double.finite (nrbins : RealType))) nrbins e.1 :=
    fun i hi => HBondR.frameEvents_inRange _ M _ nrbins (hrangeA i hi)
  have hevB : ∀ i ∈ visitedFrames reader.nFrames step,
      ∀ e ∈ HBondRvol.frameEvents (HBondRvol.new rCut len thetaCut nrbins step).toParams M
        (reader.readFrame i), InRange
            (Double.div (Double.finite len) (Double.finite (nrbins : RealType))) nrbins e.1 :=
    fun i hi => HBondRvol.frameEvents_inRange_vol _ M _ nrbins (hrangeB i hi)
  obtain ⟨sA, outA, hpA, hdA, _, _, _⟩ := HBondR.process_spec
    (HBondR.new rCut len thetaCut nrbins step) M reader fuel nrbins hstep hfuel
    (HBondR.new_sized rCut len thetaCut nrbins step) hevA
  obtain ⟨sB, binvolB, outB, hpB, hdB, _, _, _⟩ := HBondRvol.process_spec_vol
    (HBondRvol.new rCut len thetaCut nrbins step) M reader fuel nrbins hstep hfuel
    (HBondRvol.new_sized_vol rCut len thetaCut nrbins step) (by simp [HBondRvol.new]) hevB
  obtain ⟨_, hqA, _, _⟩ := depositAll_facts _ nrbins _ _ _
    (HBondR.new_sized rCut len thetaCut nrbins step)
    (fun e he => by
      obtain ⟨i, hi, hei⟩ := List.mem_flatMap.mp he
      exact hevA i hi e hei) hdA
  obtain ⟨_, hqB, _, _⟩ := depositAll_facts _ nrbins _ _ _
    (HBondRvol.new_sized_vol rCut len thetaCut nrbins step)
    (fun e he => by
      obtain ⟨i, hi, hei⟩ := List.mem_flatMap.mp he
      exact hevB i hi e hei) hdB
  have h0A : (HBondR.new rCut len thetaCut nrbins step).toSlices.sliceQ.sum = 0 :=
    sum_replicate_zero_rat nrbins
  have h0B : (HBondRvol.new rCut len thetaCut nrbins step).toSlices.sliceQ.sum = 0 :=
    sum_replicate_zero_rat nrbins
  have hA : sA.sliceQ.sum = ((((visitedFrames reader.nFrames step).map
      (fun i => frameMatches M rCut thetaCut (reader.readFrame i))).sum : Nat) : RealType) := by
    rw [hqA, h0A, zero_add, HBondR.runEvents_sum]
    simp only [Int.cast_natCast]
    rfl
  have hB : sB.sliceQ.sum = ((((visitedFrames reader.nFrames step).map
      (fun i => frameMatches M rCut thetaCut (reader.readFrame i))).sum : Nat) : RealType) := by
    rw [hqB, h0B, zero_add, sum_snd_eq_length _ (HBondRvol.runEvents_snd _ M reader _),
      HBondRvol.runEvents_length]
    simp only [Int.cast_natCast]
    rfl
  exact ⟨sA, outA, sB, binvolB, outB, hpA, hpB, hA.trans hB.symm, hB⟩

/-- C18 on a trajectory of 2 frames whose selections hold the two example
molecules. -/
theorem variants_count_same_events_witness :
    ∃ sA outA sB binvolB outB,
      (HBondR.new (7 / 2) 20 30 40 1).process doubleMath ⟨2, fun _ => exampleFrameAB⟩ 2 =
        Outcome.finished (sA, outA) ∧
      (HBondRvol.new (7 / 2) 20 30 40 1).process doubleMath ⟨2, fun _ => exampleFrameAB⟩ 2 =
        Outcome.finished (sB, binvolB, outB) ∧
      sA.sliceQ.sum = sB.sliceQ.sum ∧
      sB.sliceQ.sum =
        ((((visitedFrames (2 : Int) 1).map
          (fun _ => frameMatches doubleMath (7 / 2) 30 exampleFrameAB)).sum : Nat) :
            RealType) :=
  variants_count_same_events (7 / 2) 20 30 40 1 doubleMath ⟨2, fun _ => exampleFrameAB⟩ 2
    (by decide) (by decide)
    (fun _ _ => exampleFrameAB_comsInRange)
    (fun _ _ => exampleFrameAB_hydrogensInRange (7 / 2) 30)

theorem sum_map_sum_comm {α β : Type} (g : α → β → Nat) (l : List α) (l' : List β) :
    (l.map (fun a => (l'.map (fun b => g a b)).sum)).sum =
      (l'.map (fun b => (l.map (fun a => g a b)).sum)).sum := by
  induction l with
  | nil => simp
  | cons a l ih =>
    simp only [List.map_cons, List.sum_cons, ih]
    rw [List.sum_map_add]

/-- With the two selections equal, the confirmed matches of the frame are twice
the confirmed pairs. -/
theorem frameMatches_eq_two_mul (M : MathLib) (rCut thetaCut : RealType) (f : Frame)
    (h : f.sele1 = f.sele2) :
    frameMatches M rCut thetaCut f = 2 * confirmedPairs M f.wrapVector rCut thetaCut f.sele1 := by
  unfold frameMatches confirmedPairs
  have h1 : (f.sele1.map (moleculeMatches M rCut thetaCut f)).sum =
      (f.sele1.map (fun X =>
        (f.sele1.map (fun Y => donorMatches M f.wrapVector rCut thetaCut X Y)).sum)).sum +
      (f.sele1.map (fun X =>
        (f.sele1.map (fun Y => acceptorMatches M f.wrapVector rCut thetaCut X Y)).sum)).sum := by
    rw [← List.sum_map_add]
    congr 1
    apply List.map_congr_left
    intro X _
    rw [moleculeMatches_eq_add, h]
  rw [h1, sum_map_sum_comm (fun X Y => acceptorMatches M f.wrapVector rCut thetaCut X Y)]
  simp only [← donorMatches_eq_acceptorMatches]
  ring

/-- C19: double counting when the selections coincide.  If selections 1 and 2
are the same list of molecules in a frame, the number of confirmed matches of
the frame is twice the number of confirmed (donor record, acceptor atom)
combinations over all ordered molecule pairs of the list (a molecule paired
with itself included); this is the sum of the counters `nHB` that variant A
deposits for the central molecules, hence the increase of the sum of `sliceQ`
in variant A, and the number of deposits of variant B, the increase of the
sums of `sliceCount` and of `sliceQ` there (deposits in range). -/
theorem double_counting (p : Params) (M : MathLib) (f : Frame) (h : f.sele1 = f.sele2) :
    frameMatches M p.rCut p.thetaCut f =
        2 * confirmedPairs M f.wrapVector p.rCut p.thetaCut f.sele1 ∧
    (f.sele1.map (fun mol1 => (HBondR.scanMolecule p M f mol1).nHB)).sum =
        ((2 * confirmedPairs M f.wrapVector p.rCut p.thetaCut f.sele1 : Nat) : Int) ∧
    (∀ (n : Nat) (s : Slices), s.Sized n →
      (∀ mol1 ∈ f.sele1, InRange p.deltaR n (M.length mol1.com)) →
      ∃ s1, HBondR.processFrame p M f s = some s1 ∧
        s1.sliceQ.sum = s.sliceQ.sum +
          ((2 * confirmedPairs M f.wrapVector p.rCut p.thetaCut f.sele1 : Nat) : RealType)) ∧
    (∀ (n : Nat) (s : Slices), s.Sized n →
      HydrogensInRange M p.rCut p.thetaCut p.deltaR n f →
      ∃ s1, HBondRvol.processFrame p M f s = some s1 ∧
        s1.sliceCount.sum = s.sliceCount.sum +
          ((2 * confirmedPairs M f.wrapVector p.rCut p.thetaCut f.sele1 : Nat) : Int) ∧
        s1.sliceQ.sum = s.sliceQ.sum +
          ((2 * confirmedPairs M f.wrapVector p.rCut p.thetaCut f.sele1 : Nat) : RealType)) := by
  have hfm := frameMatches_eq_two_mul M p.rCut p.thetaCut f h
  have hsumA := HBondR.frameEvents_sum p M f
  refine ⟨hfm, ?_, ?_, ?_⟩
  · rw [← hfm, ← hsumA]
    unfold HBondR.frameEvents
    rw [List.map_map]
    rfl
  · intro n s hs hr
    obtain ⟨s1, h1, _, hq, _, _⟩ := depositAll_spec p n (HBondR.frameEvents p M f) s hs
      (HBondR.frameEvents_inRange p M f n hr)
    refine ⟨s1, by rw [HBondR.processFrame_eq]; exact h1, ?_⟩
    rw [hq, hsumA, hfm]
    simp only [Int.cast_natCast]
  · intro n s hs hr
    have hsnd : ∀ e ∈ HBondRvol.frameEvents p M f, e.2 = 1 :=
      fun e he => (HBondRvol.mem_frameEvents p M f e he).1
    obtain ⟨s1, h1, _, hq, hk, _⟩ := depositAll_spec p n (HBondRvol.frameEvents p M f) s hs
      (HBondRvol.frameEvents_inRange_vol p M f n hr)
    refine ⟨s1, by rw [HBondRvol.processFrame_eq_vol]; exact h1, ?_, ?_⟩
    · rw [hk, HBondRvol.frameEvents_length, hfm]
    · rw [hq, sum_snd_eq_length _ hsnd, HBondRvol.frameEvents_length, hfm]
      simp only [Int.cast_natCast]

/-- C19 on the frame whose two selections hold the two example molecules. -/
theorem double_counting_witness :
    frameMatches doubleMath (7 / 2) 30 exampleFrameSame = 2 ∧
    (frameMatches doubleMath (HBondR.new (7 / 2) 20 30 40 1).toParams.rCut
        (HBondR.new (7 / 2) 20 30 40 1).toParams.thetaCut exampleFrameSame =
        2 * confirmedPairs doubleMath exampleFrameSame.wrapVector
          (HBondR.new (7 / 2) 20 30 40 1).toParams.rCut
          (HBondR.new (7 / 2) 20 30 40 1).toParams.thetaCut exampleFrameSame.sele1 ∧
    (exampleFrameSame.sele1.map (fun mol1 =>
        (HBondR.scanMolecule (HBondR.new (7 / 2) 20 30 40 1).toParams doubleMath
          exampleFrameSame mol1).nHB)).sum =
        ((2 * confirmedPairs doubleMath exampleFrameSame.wrapVector
          (HBondR.new (7 / 2) 20 30 40 1).toParams.rCut
          (HBondR.new (7 / 2) 20 30 40 1).toParams.thetaCut exampleFrameSame.sele1 : Nat) :
            Int) ∧
    (∀ (n : Nat) (s : Slices), s.Sized n →
      (∀ mol1 ∈ exampleFrameSame.sele1,
        InRange (HBondR.new (7 / 2) 20 30 40 1).toParams.deltaR n
          (doubleMath.length mol1.com)) →
      ∃ s1, HBondR.processFrame (HBondR.new (7 / 2) 20 30 40 1).toParams doubleMath
          exampleFrameSame s = some s1 ∧
        s1.sliceQ.sum = s.sliceQ.sum +
          ((2 * confirmedPairs doubleMath exampleFrameSame.wrapVector
            (HBondR.new (7 / 2) 20 30 40 1).toParams.rCut
            (HBondR.new (7 / 2) 20 30 40 1).toParams.thetaCut exampleFrameSame.sele1 : Nat) :
              RealType)) ∧
    (∀ (n : Nat) (s : Slices), s.Sized n →
      HydrogensInRange doubleMath (HBondR.new (7 / 2) 20 30 40 1).toParams.rCut
        (HBondR.new (7 / 2) 20 30 40 1).toParams.thetaCut
        (HBondR.new (7 / 2) 20 30 40 1).toParams.deltaR n exampleFrameSame →
      ∃ s1, HBondRvol.processFrame (HBondR.new (7 / 2) 20 30 40 1).toParams doubleMath
          exampleFrameSame s = some s1 ∧
        s1.sliceCount.sum = s.sliceCount.sum +
          ((2 * confirmedPairs doubleMath exampleFrameSame.wrapVector
            (HBondR.new (7 / 2) 20 30 40 1).toParams.rCut
            (HBondR.new (7 / 2) 20 30 40 1).toParams.thetaCut exampleFrameSame.sele1 : Nat) :
              Int) ∧
        s1.sliceQ.sum = s.sliceQ.sum +
          ((2 * confirmedPairs doubleMath exampleFrameSame.wrapVector
            (HBondR.new (7 / 2) 20 30 40 1).toParams.rCut
            (HBondR.new (7 / 2) 20 30 40 1).toParams.thetaCut exampleFrameSame.sele1 : Nat) :
              RealType))) :=
  ⟨by decide!,
    double_counting (HBondR.new (7 / 2) 20 30 40 1).toParams doubleMath exampleFrameSame rfl⟩

theorem donorRoleTest_mono (M : MathLib) (wrap : Vector3d → Vector3d)
    (rCut rCut' thetaCut thetaCut' : RealType) (hr : rCut ≤ rCut') (ht : thetaCut ≤ thetaCut')
    (d : HBondDonor) (a : Atom) (h : donorRoleTest M wrap rCut thetaCut d a = true) :
    donorRoleTest M wrap rCut' thetaCut' d a = true := by
  obtain ⟨⟨D⟩, ⟨H⟩⟩ := d
  obtain ⟨A⟩ := a
  rw [donorRoleTest_eq, Bool.and_eq_true] at h ⊢
  exact ⟨Double.lt_finite_mono _ _ _ hr h.1, Double.lt_finite_mono _ _ _ ht h.2⟩

theorem donorMatches_mono (M : MathLib) (wrap : Vector3d → Vector3d)
    (rCut rCut' thetaCut thetaCut' : RealType) (hr : rCut ≤ rCut') (ht : thetaCut ≤ thetaCut')
    (X Y : Molecule) :
    donorMatches M wrap rCut thetaCut X Y ≤ donorMatches M wrap rCut' thetaCut' X Y := by
  unfold donorMatches
  apply List.sum_le_sum
  intro d _
  exact List.countP_mono_left
    (fun a _ h => donorRoleTest_mono M wrap rCut rCut' thetaCut thetaCut' hr ht d a h)

theorem moleculeMatches_mono (M : MathLib) (rCut rCut' thetaCut thetaCut' : RealType)
    (hr : rCut ≤ rCut') (ht : thetaCut ≤ thetaCut') (f : Frame) (mol1 : Molecule) :
    moleculeMatches M rCut thetaCut f mol1 ≤ moleculeMatches M rCut' thetaCut' f mol1 := by
  unfold moleculeMatches
  apply List.sum_le_sum
  intro mol2 _
  have h1 := donorMatches_mono M f.wrapVector rCut rCut' thetaCut thetaCut' hr ht mol1 mol2
  have h2 := donorMatches_mono M f.wrapVector rCut rCut' thetaCut thetaCut' hr ht mol2 mol1
  rw [← donorMatches_eq_acceptorMatches, ← donorMatches_eq_acceptorMatches]
  omega

theorem frameMatches_mono (M : MathLib) (rCut rCut' thetaCut thetaCut' : RealType)
    (hr : rCut ≤ rCut') (ht : thetaCut ≤ thetaCut') (f : Frame) :
    frameMatches M rCut thetaCut f ≤ frameMatches M rCut' thetaCut' f := by
  unfold frameMatches
  apply List.sum_le_sum
  intro mol1 _
  exact moleculeMatches_mono M rCut rCut' thetaCut thetaCut' hr ht f mol1

/-- C20: the test is monotone in the cutoffs.  If `rCut ≤ rCut'` and
`thetaCut ≤ thetaCut'`, every triple confirmed by the test of either sweep
under `(rCut, thetaCut)` is confirmed under `(rCut', thetaCut')`; hence, for
two configurations that differ in the cutoffs only, the counter `nHB` that
variant A deposits for a central molecule does not decrease, nor does the
number of deposits of variant B in a frame, which is the increase of the sum
of `sliceCount` (deposits in range). -/
theorem cutoff_monotone (M : MathLib) (p p' : Params) (hr : p.rCut ≤ p'.rCut)
    (ht : p.thetaCut ≤ p'.thetaCut) (hd : p.deltaR = p'.deltaR) :
    (∀ (wrap : Vector3d → Vector3d) (d : HBondDonor) (a : Atom),
      donorRoleTest M wrap p.rCut p.thetaCut d a = true →
        donorRoleTest M wrap p'.rCut p'.thetaCut d a = true) ∧
    (∀ (wrap : Vector3d → Vector3d) (a : Atom) (d : HBondDonor),
      acceptorRoleTest M wrap p.rCut p.thetaCut a d = true →
        acceptorRoleTest M wrap p'.rCut p'.thetaCut a d = true) ∧
    (∀ (f : Frame) (mol1 : Molecule),
      (HBondR.scanMolecule p M f mol1).nHB ≤ (HBondR.scanMolecule p' M f mol1).nHB) ∧
    (∀ f : Frame,
      (HBondRvol.frameEvents p M f).length ≤ (HBondRvol.frameEvents p' M f).length) ∧
    (∀ (f : Frame) (n : Nat) (s : Slices), s.Sized n →
      HydrogensInRange M p'.rCut p'.thetaCut p'.deltaR n f →
      ∃ s1 s1', HBondRvol.processFrame p M f s = some s1 ∧
        HBondRvol.processFrame p' M f s = some s1' ∧
        s1.sliceCount.sum ≤ s1'.sliceCount.sum) := by
  refine ⟨fun wrap d a h => donorRoleTest_mono M wrap _ _ _ _ hr ht d a h, ?_, ?_, ?_, ?_⟩
  · intro wrap a d h
    rw [acceptorRoleTest_eq_donorRoleTest] at h ⊢
    exact donorRoleTest_mono M wrap _ _ _ _ hr ht d a h
  · intro f mol1
    rw [HBondR.scanMolecule_eq, HBondR.scanMolecule_eq]
    show ((moleculeMatches M p.rCut p.thetaCut f mol1 : Nat) : Int) ≤
      ((moleculeMatches M p'.rCut p'.thetaCut f mol1 : Nat) : Int)
    exact_mod_cast moleculeMatches_mono M _ _ _ _ hr ht f mol1
  · intro f
    rw [HBondRvol.frameEvents_length, HBondRvol.frameEvents_length]
    exact frameMatches_mono M _ _ _ _ hr ht f
  · intro f n s hs hrange
    have hrange0 : HydrogensInRange M p.rCut p.thetaCut p.deltaR n f := by
      intro mol1 hm1 mol2 hm2
      obtain ⟨h1, h2⟩ := hrange mol1 hm1 mol2 hm2
      rw [hd]
      refine ⟨fun d hd1 a ha htest => h1 d hd1 a ha
        (donorRoleTest_mono M _ _ _ _ _ hr ht d a htest), fun a ha d hd1 htest => h2 a ha d hd1 ?_⟩
      rw [acceptorRoleTest_eq_donorRoleTest] at htest ⊢
      exact donorRoleTest_mono M _ _ _ _ _ hr ht d a htest
    obtain ⟨s1, h1, _, _, hk, _⟩ := depositAll_spec p n (HBondRvol.frameEvents p M f) s hs
      (HBondRvol.frameEvents_inRange_vol p M f n hrange0)
    obtain ⟨s1', h1', _, _, hk', _⟩ := depositAll_spec p' n (HBondRvol.frameEvents p' M f) s hs
      (HBondRvol.frameEvents_inRange_vol p' M f n hrange)
    refine ⟨s1, s1', by rw [HBondRvol.processFrame_eq_vol]; exact h1,
      by rw [HBondRvol.processFrame_eq_vol]; exact h1', ?_⟩
    rw [hk, hk', HBondRvol.frameEvents_length, HBondRvol.frameEvents_length]
    have := frameMatches_mono M _ _ _ _ hr ht f
    omega

/-- C20 from the cutoffs `(3.5, 30)` to the cutoffs `(4, 45)`. -/
theorem cutoff_monotone_witness :
    (∀ (wrap : Vector3d → Vector3d) (d : HBondDonor) (a : Atom),
      donorRoleTest doubleMath wrap (7 / 2) 30 d a = true →
        donorRoleTest doubleMath wrap 4 45 d a = true) ∧
    (∀ (wrap : Vector3d → Vector3d) (a : Atom) (d : HBondDonor),
      acceptorRoleTest doubleMath wrap (7 / 2) 30 a d = true →
        acceptorRoleTest doubleMath wrap 4 45 a d = true) ∧
    (∀ (f : Frame) (mol1 : Molecule),
      (HBondR.scanMolecule (HBondR.new (7 / 2) 20 30 40 1).toParams doubleMath f mol1).nHB ≤
        (HBondR.scanMolecule (HBondR.new 4 20 45 40 1).toParams doubleMath f mol1).nHB) ∧
    (∀ f : Frame,
      (HBondRvol.frameEvents (HBondR.new (7 / 2) 20 30 40 1).toParams doubleMath f).length ≤
        (HBondRvol.frameEvents (HBondR.new 4 20 45 40 1).toParams doubleMath f).length) ∧
    (∀ (f : Frame) (n : Nat) (s : Slices), s.Sized n →
      HydrogensInRange doubleMath 4 45 (HBondR.new 4 20 45 40 1).toParams.deltaR n f →
      ∃ s1 s1', HBondRvol.processFrame (HBondR.new (7 / 2) 20 30 40 1).toParams doubleMath f s =
          some s1 ∧
        HBondRvol.processFrame (HBondR.new 4 20 45 40 1).toParams doubleMath f s = some s1' ∧
        s1.sliceCount.sum ≤ s1'.sliceCount.sum) :=
  cutoff_monotone doubleMath (HBondR.new (7 / 2) 20 30 40 1).toParams
    (HBondR.new 4 20 45 40 1).toParams (by norm_num [HBondR.new]) (by norm_num [HBondR.new]) rfl

/-! ### The shell volumes of variant B (C21) -/

end OpenMD
